import Mathlib

/-!
Verification of the trie container implemented in `src/trie.hpp`.

The C++ template `trie<T, KeyType>` is embedded shallowly:

* symbols (`KeyType`) are natural numbers; the maximum representable symbol
  `std::numeric_limits<KeyType>::max()` is an explicit parameter `M`;
* values (`T`) are a type parameter `V`; a default-constructed payload is
  `Option.none`, a payload written by `insert` is `Option.some v`;
* a `trie_node` becomes the inductive `Node` (symbol, payload, leaf flag,
  list of children); parent pointers are replaced by recursion on the path
  of symbols leading from the root to a node, which identifies a node
  uniquely once children carry pairwise distinct symbols;
* an iterator is represented by the path (list of symbols) of the node it
  references; the end iterator is the path of the sentinel child of the root;
* a C++ exception is the outcome `Outcome.thrown e`; dereferencing a null
  parent pointer or calling `front`/`back` on an empty vector is the
  outcome `Outcome.ub`.  Operations return the container state at the point
  of a throw, mirroring that a thrown exception leaves the C++ object as it
  was at the throw site.
-/

set_option maxHeartbeats 1600000

/-- Error taxonomy: one constructor per exception thrown in `trie.hpp`. -/
inductive Err where
  | emptyKey
  | duplicateKey
  | emptySubkey
  | noSuchPath
  | outOfRange
deriving DecidableEq, Repr

/-- Result of one call: a normal return, a thrown exception, or undefined
behavior (null-pointer dereference, `front`/`back` on an empty vector). -/
inductive Outcome where
  | ok
  | thrown (e : Err)
  | ub
deriving DecidableEq, Repr

/-- Embeds `trie_node`: `data_.first` (symbol), `data_.second` (payload,
`none` when only default-constructed), `is_leaf_`, `children_`. -/
inductive Node (V : Type) : Type where
  | mk (symbol : Nat) (val : Option V) (is_leaf : Bool) (children : List (Node V)) : Node V

/-- Accessor for `data_.first`. -/
@[simp] def Node.symbol {V} : Node V → Nat
  | .mk s _ _ _ => s

/-- Accessor for `data_.second`. -/
@[simp] def Node.val {V} : Node V → Option V
  | .mk _ v _ _ => v

/-- Accessor for `is_leaf_`. -/
@[simp] def Node.is_leaf {V} : Node V → Bool
  | .mk _ _ l _ => l

/-- Accessor for `children_`. -/
@[simp] def Node.children {V} : Node V → List (Node V)
  | .mk _ _ _ cs => cs

/-- Replace the children list of a node, keeping the other fields. -/
@[simp] def Node.withChildren {V} : Node V → List (Node V) → Node V
  | .mk s v l _, cs => .mk s v l cs

/-- Overwrite the leaf flag of a node. -/
@[simp] def Node.withLeaf {V} : Node V → Bool → Node V
  | .mk s v _ cs, l => .mk s v l cs

/-- Models `node->data_.second = v; node->is_leaf_ = true;`. -/
@[simp] def Node.promote {V} : Node V → V → Node V
  | .mk s _ _ cs, v => .mk s (some v) true cs

/-! Structural size of a node, used as a termination measure. -/
mutual
def nsize {V} : Node V → Nat
  | .mk _ _ _ cs => nlsize cs + 1
def nlsize {V} : List (Node V) → Nat
  | [] => 0
  | c :: cs => nsize c + nlsize cs
end

theorem nsize_lt_of_mem {V} {c : Node V} :
    ∀ {cs : List (Node V)}, c ∈ cs → nsize c ≤ nlsize cs := by
  intro cs h
  induction cs with
  | nil => cases h
  | cons a cs ih =>
    rw [nlsize]
    rcases List.mem_cons.mp h with h' | h'
    · subst h'; omega
    · have := ih h'; omega

theorem nsize_child_lt {V} {c : Node V} {n : Node V} (h : c ∈ n.children) :
    nsize c < nsize n := by
  cases n with
  | mk s v l cs =>
    rw [nsize]
    have h2 : c ∈ cs := h
    have := nsize_lt_of_mem h2
    omega

theorem nsize_child_lt_getLast {V} {c : Node V} {n : Node V}
    (h : n.children.getLast? = some c) : nsize c < nsize n := by
  have hm : c ∈ n.children := by
    rcases List.mem_getLast?_eq_getLast (l := n.children) (x := c) h with ⟨hne, rfl⟩
    exact List.getLast_mem hne
  exact nsize_child_lt hm

/-- The container `trie<T, KeyType>`: the root node `top_` and `size_`. -/
structure trie (V : Type) where
  top : Node V
  size : Nat

/-- Embeds `trie_node::find_by_key`'s binary search over the window
`[left, right)` of the children vector; returns the index and the child. -/
def bsearch {V} (cs : List (Node V)) (key : Nat) (left right : Nat) :
    Option (Nat × Node V) :=
  if _h : left < right then
    match cs[left + (right - left) / 2]? with
    | none => none
    | some n =>
      if n.symbol = key then some (left + (right - left) / 2, n)
      else if n.symbol > key then bsearch cs key left (left + (right - left) / 2)
      else bsearch cs key (left + (right - left) / 2 + 1) right
  else none
termination_by right - left
decreasing_by
  · omega
  · omega

/-- Embeds `trie_node::find_by_key` on a whole children list. -/
def find_by_key {V} (cs : List (Node V)) (key : Nat) : Option (Nat × Node V) :=
  bsearch cs key 0 cs.length

/-- The repositioning loop of `trie_node::push_child`, expressed on the
reversed children list: the appended child moves leftwards past every
former element whose symbol is not strictly smaller. -/
def bubble {V} (child : Node V) : List (Node V) → List (Node V)
  | [] => [child]
  | p :: rest =>
    if child.symbol > p.symbol then child :: p :: rest else p :: bubble child rest

/-- Embeds `trie_node::push_child`: append, then bubble leftwards by
pairwise swaps until order is restored. -/
def push_child {V} (cs : List (Node V)) (child : Node V) : List (Node V) :=
  (bubble child cs.reverse).reverse

/-- The node reached from `n` by matching the symbols of the path one by
one with `find_by_key`; this is the read-only walk shared by `insert`,
`find` and `advance`. -/
def walk {V} : Node V → List Nat → Option (Node V)
  | n, [] => some n
  | n, c :: rest =>
    match find_by_key n.children c with
    | none => none
    | some (_, m) => walk m rest

/-- Modelled from the spec (section 4.3): the node reached by following the
key's symbols from the root, matching at each step the child carrying the
symbol; written with a linear lookup, independent of the binary search of
the implementation, to serve as the specification side of refinement
statements. -/
def walkSpec {V} : Node V → List Nat → Option (Node V)
  | n, [] => some n
  | n, c :: rest =>
    match n.children.find? (fun m => m.symbol == c) with
    | none => none
    | some m => walkSpec m rest

/-- Embeds the loop of `trie::find`: descend by `find_by_key`; succeed
exactly when the child found at the last symbol has its leaf flag set. -/
def findNode {V} : Node V → List Nat → Option (Node V)
  | _, [] => none
  | n, c :: rest =>
    match find_by_key n.children c with
    | none => none
    | some (_, child) =>
      if child.is_leaf ∧ rest = [] then some child
      else findNode child rest

/-- Embeds `trie::find`; `none` models returning the end iterator. -/
def trie.find {V} (t : trie V) (k : List Nat) : Option (Node V) :=
  findNode t.top k

/-- The sentinel node installed by `create_end_prefix`: maximum symbol,
leaf flag set, no children. -/
def sentinel (V : Type) (M : Nat) : Node V := .mk M none true []

/-- Embeds `trie::create_end_prefix`: append the sentinel to the root's
children (a plain `push_back`). -/
def create_end {V} (M : Nat) (n : Node V) : Node V :=
  n.withChildren (n.children ++ [sentinel V M])

/-- Embeds the default constructor of `trie`. -/
def trie.init (V : Type) (M : Nat) : trie V :=
  ⟨create_end M (.mk 0 none false []), 0⟩

/-- Embeds `trie::clear`: drop all children of the root, reinstall the
sentinel, reset the size. -/
def trie.clear {V} (M : Nat) (t : trie V) : trie V :=
  ⟨create_end M (t.top.withChildren []), 0⟩

/-- Embeds `trie::empty`. -/
def trie.isEmpty {V} (t : trie V) : Bool := t.top.children.length = 1

/-- The chain of fresh nodes built by the creation loop of `trie::insert`
for the unmatched suffix of the key: every node is created non-leaf with a
default payload, and the last one is then marked leaf and receives the
value. -/
def buildChain {V} (v : V) (c : Nat) : List Nat → Node V
  | [] => .mk c (some v) true []
  | d :: rest => .mk c none false (push_child [] (buildChain v d rest))

/-- The matching loop of `trie::insert` below the root: promote a non-leaf
node when the key is exhausted, throw on a leaf, otherwise descend, and
hand the unmatched suffix to the creation loop. -/
def insertWalk {V} (v : V) : Node V → List Nat → Except Err (Node V)
  | n, [] => if n.is_leaf then .error .duplicateKey else .ok (n.promote v)
  | n, c :: rest =>
    match find_by_key n.children c with
    | none => .ok (n.withChildren (push_child n.children (buildChain v c rest)))
    | some (i, child) =>
      match insertWalk v child rest with
      | .error e => .error e
      | .ok child' => .ok (n.withChildren (n.children.set i child'))

/-- Embeds `trie::insert`.  The component `Outcome.thrown e` models the
exception `e` escaping; its first component is the container state at that
point of the call. -/
def trie.insert {V} (t : trie V) (k : List Nat) (v : V) : trie V × Outcome :=
  match k with
  | [] => (t, .thrown .emptyKey)
  | c :: rest =>
    match find_by_key t.top.children c with
    | none =>
      (⟨t.top.withChildren (push_child t.top.children (buildChain v c rest)),
        t.size + 1⟩, .ok)
    | some (i, child) =>
      match insertWalk v child rest with
      | .error e => (t, .thrown e)
      | .ok child' =>
        (⟨t.top.withChildren (t.top.children.set i child'), t.size + 1⟩, .ok)

/-- Result of the recursive part of `trie::erase`: `keep n'` rewrites the
subtree, `det` asks the caller to detach this whole subtree (the upward
climb continues), `bad` means the path does not lead to a node. -/
inductive EraseRes (V : Type) where
  | keep (n : Node V)
  | det
  | bad

/-- Embeds `trie::erase` along the path of the erased node.  At the node:
clear the leaf flag if it still has children, otherwise request
detachment.  At an ancestor: the climb continues (`det`) exactly while the
ancestor is non-leaf with at most one child — the condition of the climb
loop — otherwise the child is removed here (`remove_child`). -/
def eraseGo {V} : Node V → List Nat → EraseRes V
  | n, [] => if n.children.isEmpty then .det else .keep (n.withLeaf false)
  | n, c :: rest =>
    match find_by_key n.children c with
    | none => .bad
    | some (i, child) =>
      match eraseGo child rest with
      | .bad => .bad
      | .keep child' => .keep (n.withChildren (n.children.set i child'))
      | .det =>
        if ¬ n.is_leaf ∧ n.children.length ≤ 1 then .det
        else .keep (n.withChildren (n.children.eraseIdx i))

/-- Embeds `trie::erase`.  When the climb escapes the root the C++ loop
dereferences the root's null parent: outcome `ub`. -/
def trie.erase {V} (t : trie V) (k : List Nat) : trie V × Outcome :=
  match eraseGo t.top k with
  | .keep top' => (⟨top', t.size - 1⟩, .ok)
  | .det => (t, .ub)
  | .bad => (t, .ub)

/-- Overwrite the leaf flag of the node at the given path (the path is the
model of a `trie_node*` held by an iterator). -/
def setLeaf {V} : Node V → List Nat → Bool → Node V
  | n, [], b => n.withLeaf b
  | n, c :: rest, b =>
    match find_by_key n.children c with
    | none => n
    | some (i, child) => n.withChildren (n.children.set i (setLeaf child rest b))

/-- Embeds `search_iterator::advance` for the iterator positioned at path
`p`: throw on an empty subkey, walk the subkey from the current node,
throw if a symbol is missing, else clear the current node's leaf flag and
set the flag of the node at the end of the subkey path, which becomes the
new position. -/
def trie.advance {V} (t : trie V) (p sk : List Nat) : (trie V × List Nat) × Outcome :=
  if sk.isEmpty then ((t, p), .thrown .emptySubkey)
  else
    match walk t.top p with
    | none => ((t, p), .ub)
    | some n =>
      match walk n sk with
      | none => ((t, p), .thrown .noSuchPath)
      | some _ =>
        ((⟨setLeaf (setLeaf t.top p false) (p ++ sk) true, t.size⟩, p ++ sk), .ok)

/-- Result of the climbing phase of `operator++`/`operator--` within a
subtree: a successor/predecessor was found (relative path), or the climb
leaves the subtree, or undefined behavior was reached. -/
inductive StepRes where
  | climb
  | found (p : List Nat)
  | ub
deriving DecidableEq, Repr

/-- Embeds the descending loop of `operator++`: stop at a node that is a
leaf with no children, else descend into the front child; `none` models
`front()` on an empty vector. -/
def minPath {V} : Node V → Option (List Nat)
  | .mk _ _ true [] => some []
  | .mk _ _ false [] => none
  | .mk _ _ _ (c :: _) => (minPath c).map (fun q => c.symbol :: q)

/-- Embeds the climbing loop of `operator++` for the iterator node at the
given path below `n`.  Returning `climb` corresponds to the loop moving to
`n` itself and continuing in the frame of `n`'s parent; the loop-top check
(return an ancestor that is a leaf, other than the start node) appears
here as the test on `child` after its own frame exits. -/
def succGo {V} : Node V → List Nat → StepRes
  | _, [] => .climb
  | n, c :: rest =>
    match find_by_key n.children c with
    | none => .ub
    | some (_, child) =>
      match succGo child rest with
      | .ub => .ub
      | .found q => .found (c :: q)
      | .climb =>
        if rest ≠ [] ∧ child.is_leaf then .found [c]
        else if n.children.length > 1 then
          match find_by_key n.children child.symbol with
          | none => .ub
          | some (j, _) =>
            match n.children[j + 1]? with
            | none => .climb
            | some y =>
              match minPath y with
              | none => .ub
              | some mp => .found (y.symbol :: mp)
        else .climb

/-- Embeds `search_iterator::operator++` for the iterator at path `p`:
throw when the current node carries the maximum symbol, else run the climb
from the current node; a climb escaping the root dereferences a null
parent (`ub`). -/
def trie.inc {V} (M : Nat) (t : trie V) (p : List Nat) : (trie V × List Nat) × Outcome :=
  match walk t.top p with
  | none => ((t, p), .ub)
  | some n =>
    if n.symbol = M then ((t, p), .thrown .outOfRange)
    else
      match succGo t.top p with
      | .found q => ((t, q), .ok)
      | .climb => ((t, p), .ub)
      | .ub => ((t, p), .ub)

/-- Embeds the descending loops of `operator--`: return the node itself as
soon as it is a leaf (checked before descending), else descend into the
back child; `none` models `back()` on an empty vector. -/
def maxDown {V} (n : Node V) : Option (List Nat) :=
  if n.is_leaf then some []
  else
    match _h : n.children.getLast? with
    | none => none
    | some y => (maxDown y).map (fun q => y.symbol :: q)
termination_by nsize n
decreasing_by
  simp_all [nsize_child_lt_getLast]

/-- Embeds the leftward climbing loop of `operator--` (no leaf check at
the loop top, unlike `operator++`): look for a previous sibling, descend
into it via `maxDown`; `climb` at the root level corresponds to reaching
the root and throwing on its null parent (checked first there). -/
def predGo {V} : Node V → List Nat → StepRes
  | _, [] => .climb
  | n, c :: rest =>
    match find_by_key n.children c with
    | none => .ub
    | some (_, child) =>
      match predGo child rest with
      | .ub => .ub
      | .found q => .found (c :: q)
      | .climb =>
        if n.children.length > 1 then
          match find_by_key n.children child.symbol with
          | none => .ub
          | some (j, _) =>
            if j = 0 then .climb
            else
              match n.children[j - 1]? with
              | none => .ub
              | some y =>
                match maxDown y with
                | none => .ub
                | some mp => .found (y.symbol :: mp)
        else .climb

/-- Embeds `search_iterator::operator--` for the iterator at path `p`:
if the current node has children, descend (into the back child, then
`maxDown`); otherwise climb leftwards, and throw `out_of_range` when the
climb reaches the root (begin cannot be decremented). -/
def trie.dec {V} (t : trie V) (p : List Nat) : (trie V × List Nat) × Outcome :=
  match walk t.top p with
  | none => ((t, p), .ub)
  | some n =>
    match n.children.getLast? with
    | some y =>
      match maxDown y with
      | none => ((t, p), .ub)
      | some mp => ((t, p ++ y.symbol :: mp), .ok)
    | none =>
      match predGo t.top p with
      | .found q => ((t, q), .ok)
      | .climb => ((t, p), .thrown .outOfRange)
      | .ub => ((t, p), .ub)

/-- Embeds the descending loop of `trie::begin`: front child while the
children list is nonempty. -/
def beginPath {V} : Node V → List Nat
  | .mk _ _ _ [] => []
  | .mk _ _ _ (c :: _) => c.symbol :: beginPath c

/-- Embeds `trie::end`: the iterator referencing the last child of the
root (the sentinel in a well-formed trie). -/
def trie.endIt {V} (t : trie V) : List Nat :=
  match t.top.children.getLast? with
  | some y => [y.symbol]
  | none => []

/-- Embeds `trie::begin`: end when empty, else the front-descending path
from the root. -/
def trie.beginIt {V} (t : trie V) : List Nat :=
  if t.top.children.length = 1 then t.endIt else beginPath t.top

/-- The key sequence visited by starting at path `p` and applying
`operator++` until the end iterator, with explicit fuel (the C++ loop
`for (iter = begin(); iter != end(); ++iter)`). -/
def fwdFrom {V} (M : Nat) (t : trie V) : Nat → List Nat → List (List Nat)
  | 0, _ => []
  | fuel + 1, p =>
    if p = t.endIt then []
    else
      match trie.inc M t p with
      | ((_, q), .ok) => p :: fwdFrom M t fuel q
      | _ => [p]

/-- The key sequence visited by applying `operator--` repeatedly from the
path `p`, recording each position reached, until a throw. -/
def bwdFrom {V} (t : trie V) : Nat → List Nat → List (List Nat)
  | 0, _ => []
  | fuel + 1, p =>
    match trie.dec t p with
    | ((_, q), .ok) => q :: bwdFrom t fuel q
    | _ => []

/-- Embeds `trie::find_longest_prefix`: scan all keys from `begin` with
`operator++`, keep the first key of strictly greatest length; the fuel
`nsize t.top` bounds the number of stored keys. -/
def trie.findLongest {V} (M : Nat) (t : trie V) : List Nat :=
  ((fwdFrom M t (nsize t.top) t.beginIt).foldl
    (fun acc p => if p.length > acc.1 then (p.length, p) else acc)
    (0, t.endIt)).2

/-! Embeds the copy constructor of `trie_node`: copy the data, the leaf
flag and, recursively, the children. -/
mutual
def copyNode {V} : Node V → Node V
  | .mk s v l cs => .mk s v l (copyList cs)
def copyList {V} : List (Node V) → List (Node V)
  | [] => []
  | c :: cs => copyNode c :: copyList cs
end

/-- Embeds the copy constructor of `trie`. -/
def trie.copy {V} (t : trie V) : trie V := ⟨copyNode t.top, t.size⟩

/-! Number of nodes with the leaf flag set in a subtree. -/
mutual
def leafCount {V} : Node V → Nat
  | .mk _ _ l cs => (if l then 1 else 0) + leafCountL cs
def leafCountL {V} : List (Node V) → Nat
  | [] => 0
  | c :: cs => leafCount c + leafCountL cs
end

/-- The spec's size invariant: `size()` equals the number of leaf-flagged
nodes excluding the sentinel (which is itself leaf-flagged). -/
def sizeInv {V} (t : trie V) : Prop := leafCount t.top = t.size + 1

/-! Keys of the leaf-flagged nodes of a subtree in postorder: the keys
found under each child in order, then the node's own (empty) key last. -/
mutual
def postK {V} : Node V → List (List Nat)
  | .mk _ _ l cs => postKL cs ++ (if l then [[]] else [])
def postKL {V} : List (Node V) → List (List Nat)
  | [] => []
  | c :: cs => (postK c).map (fun q => c.symbol :: q) ++ postKL cs
end

/-! Keys of the leaf-flagged nodes of a subtree in ascending lexicographic
order: the node's own (empty) key first, then the keys under each child. -/
mutual
def ordK {V} : Node V → List (List Nat)
  | .mk _ _ l cs => (if l then [[]] else []) ++ ordKL cs
def ordKL {V} : List (Node V) → List (List Nat)
  | [] => []
  | c :: cs => (ordK c).map (fun q => c.symbol :: q) ++ ordKL cs
end

/-- All keys below the root in visit order of `operator++`, the sentinel
key included (it comes last in a well-formed trie). -/
def travList {V} (t : trie V) : List (List Nat) := postKL t.top.children

/-- The stored keys (sentinel excluded) in ascending lexicographic order. -/
def storedKeys {V} (t : trie V) : List (List Nat) := ordKL t.top.children.dropLast

/-- The element following the first occurrence of `x`. -/
def nextIn {α : Type} [DecidableEq α] : List α → α → Option α
  | [], _ => none
  | a :: rest, x => if a = x then rest.head? else nextIn rest x

/-- The element preceding the first occurrence of `x`. -/
def prevIn {α : Type} [DecidableEq α] : List α → α → Option α
  | [], _ => none
  | a :: rest, x =>
    if a = x then none
    else if rest.head? = some x then some a
    else prevIn rest x

/-! Conjunction of a node-local predicate over a whole subtree. -/
mutual
def allN {V} (p : Node V → Bool) : Node V → Bool
  | .mk s v l cs => p (.mk s v l cs) && allL p cs
def allL {V} (p : Node V → Bool) : List (Node V) → Bool
  | [] => true
  | c :: cs => allN p c && allL p cs
end

/-- Adjacent strict ascent of symbols in a children list. -/
def adjLt {V} : List (Node V) → Bool
  | [] => true
  | [_] => true
  | a :: b :: rest => decide (a.symbol < b.symbol) && adjLt (b :: rest)

/-- Every children list in the subtree is strictly sorted by symbol. -/
def sortedAll {V} (n : Node V) : Bool := allN (fun m => adjLt m.children) n

/-- Data-model invariant 3: a non-leaf node of the subtree has at least
one child. -/
def noDeadAll {V} (n : Node V) : Bool :=
  allN (fun m => m.is_leaf || !m.children.isEmpty) n

/-- Every symbol in the subtree is strictly below `M`. -/
def belowAll {V} (M : Nat) (n : Node V) : Bool :=
  allN (fun m => decide (m.symbol < M)) n

/-- The last child of the root is the sentinel: maximum symbol, leaf
flag set, childless. -/
def sentinelOk {V} (M : Nat) (t : trie V) : Bool :=
  match t.top.children.getLast? with
  | some y => decide (y.symbol = M) && y.is_leaf && y.children.isEmpty
  | none => false

/-- Well-formedness of a container state: all children lists sorted, root
not a leaf, sentinel in place, real subtrees over symbols below `M`, and
no childless non-leaf node. -/
def WFb {V} (M : Nat) (t : trie V) : Bool :=
  sortedAll t.top && !t.top.is_leaf && sentinelOk M t &&
    t.top.children.dropLast.all (belowAll M) && noDeadAll t.top

/-- Propositional form of well-formedness. -/
def WF {V} (M : Nat) (t : trie V) : Prop := WFb M t = true

/-- No stored key is a proper prefix of another stored key: every
leaf-flagged node of the subtree is childless. -/
def prefixFreeB {V} (n : Node V) : Bool :=
  allN (fun m => !m.is_leaf || m.children.isEmpty) n

/-! ### Basic facts about subtree predicates and sortedness -/

/-- Symbol order on nodes, the order the children lists are sorted by. -/
def symLt {V} (a b : Node V) : Prop := a.symbol < b.symbol

instance {V} : IsTrans (Node V) symLt :=
  ⟨fun _ _ _ h1 h2 => Nat.lt_trans h1 h2⟩

theorem allL_iff {V} {p : Node V → Bool} :
    ∀ {cs : List (Node V)}, allL p cs = true ↔ ∀ c ∈ cs, allN p c = true := by
  intro cs
  induction cs with
  | nil => simp [allL]
  | cons a cs ih =>
    rw [allL, Bool.and_eq_true, ih]
    constructor
    · rintro ⟨h1, h2⟩ c hc
      rcases List.mem_cons.mp hc with rfl | hc
      · exact h1
      · exact h2 c hc
    · intro h
      exact ⟨h a (List.mem_cons_self _ _), fun c hc => h c (List.mem_cons_of_mem _ hc)⟩

theorem allN_iff {V} {p : Node V → Bool} {n : Node V} :
    allN p n = true ↔ p n = true ∧ ∀ c ∈ n.children, allN p c = true := by
  cases n with
  | mk s v l cs => rw [allN, Bool.and_eq_true, allL_iff]; simp

theorem allN_self {V} {p : Node V → Bool} {n : Node V} (h : allN p n = true) :
    p n = true := (allN_iff.mp h).1

theorem allN_child {V} {p : Node V → Bool} {n c : Node V} (h : allN p n = true)
    (hc : c ∈ n.children) : allN p c = true := (allN_iff.mp h).2 c hc

theorem adjLt_iff_chain {V} :
    ∀ {cs : List (Node V)}, adjLt cs = true ↔ List.Chain' symLt cs
  | [] => by simp [adjLt]
  | [a] => by simp [adjLt]
  | a :: b :: rest => by
    rw [adjLt, Bool.and_eq_true, decide_eq_true_iff, List.chain'_cons,
      adjLt_iff_chain]
    exact Iff.rfl

theorem adjLt_iff_pairwise {V} {cs : List (Node V)} :
    adjLt cs = true ↔ List.Pairwise symLt cs := by
  rw [adjLt_iff_chain, List.chain'_iff_pairwise]

theorem sortedAll_pairwise {V} {n : Node V} (h : sortedAll n = true) :
    List.Pairwise symLt n.children := by
  have := allN_self (p := fun m => adjLt m.children) h
  exact adjLt_iff_pairwise.mp this

theorem sortedAll_child {V} {n c : Node V} (h : sortedAll n = true)
    (hc : c ∈ n.children) : sortedAll c = true := allN_child h hc

/-! ### Correctness of the binary search `find_by_key` -/

theorem bsearch_sound {V} {cs : List (Node V)} {key : Nat} {i : Nat} {n : Node V} :
    ∀ {l r : Nat}, bsearch cs key l r = some (i, n) →
      cs[i]? = some n ∧ n.symbol = key ∧ l ≤ i ∧ i < r := by
  intro l r
  induction l, r using bsearch.induct cs key with
  | case1 l r hlr hnone =>
    intro h; rw [bsearch] at h
    simp only [dif_pos hlr, hnone] at h
    exact absurd h (by simp)
  | case2 l r hlr m hm hsym =>
    intro h; rw [bsearch] at h
    simp only [dif_pos hlr, hm, if_pos hsym, Option.some.injEq,
      Prod.mk.injEq] at h
    obtain ⟨rfl, rfl⟩ := h
    exact ⟨hm, hsym, by omega, by omega⟩
  | case3 l r hlr m hm hne hgt ih =>
    intro h; rw [bsearch] at h
    simp only [dif_pos hlr, hm, if_neg hne, if_pos hgt] at h
    have := ih h
    exact ⟨this.1, this.2.1, by omega, by omega⟩
  | case4 l r hlr m hm hne hngt ih =>
    intro h; rw [bsearch] at h
    simp only [dif_pos hlr, hm, if_neg hne, if_neg hngt] at h
    have := ih h
    exact ⟨this.1, this.2.1, by omega, by omega⟩
  | case5 l r hlr =>
    intro h; rw [bsearch] at h
    simp only [dif_neg hlr] at h
    exact absurd h (by simp)

theorem pairwise_symbol_mono {V} {cs : List (Node V)}
    (hs : List.Pairwise symLt cs) {i j : Nat} {a b : Node V}
    (ha : cs[i]? = some a) (hb : cs[j]? = some b) (hij : i < j) :
    a.symbol < b.symbol := by
  have hi : i < cs.length := (List.getElem?_eq_some.mp ha).1
  have hj : j < cs.length := (List.getElem?_eq_some.mp hb).1
  have := (List.pairwise_iff_getElem.mp hs) i j hi hj hij
  have ea : cs[i] = a := by
    have := (List.getElem?_eq_some.mp ha).2; simpa using this
  have eb : cs[j] = b := by
    have := (List.getElem?_eq_some.mp hb).2; simpa using this
  rw [ea, eb] at this
  exact this

theorem bsearch_complete {V} {cs : List (Node V)} {key : Nat}
    (hs : List.Pairwise symLt cs) {j : Nat} {m : Node V}
    (hj : cs[j]? = some m) (hm : m.symbol = key) :
    ∀ {l r : Nat}, l ≤ j → j < r → r ≤ cs.length →
      ∃ i n, bsearch cs key l r = some (i, n) := by
  intro l r
  induction l, r using bsearch.induct cs key with
  | case1 l r hlr hnone =>
    intro hlj hjr hrl
    have hmidlt : l + (r - l) / 2 < cs.length := by omega
    rw [List.getElem?_eq_getElem hmidlt] at hnone
    exact absurd hnone (by simp)
  | case2 l r hlr n hn hsym =>
    intro _ _ _
    exact ⟨l + (r - l) / 2, n, by
      rw [bsearch]; simp only [dif_pos hlr, hn, if_pos hsym]⟩
  | case3 l r hlr n hn hne hgt ih =>
    intro hlj hjr hrl
    have hjmid : j < l + (r - l) / 2 := by
      by_contra hcon
      push_neg at hcon
      rcases Nat.eq_or_lt_of_le hcon with heq | hlt
      · rw [heq] at hn
        rw [hj] at hn
        have hmn : m = n := by injection hn
        rw [hmn] at hm
        omega
      · have := pairwise_symbol_mono hs hn hj hlt
        omega
    obtain ⟨i, n', hres⟩ := ih hlj hjmid (by omega)
    refine ⟨i, n', ?_⟩
    rw [bsearch]
    simp only [dif_pos hlr, hn, if_neg hne, if_pos hgt]
    exact hres
  | case4 l r hlr n hn hne hngt ih =>
    intro hlj hjr hrl
    have hmidj : l + (r - l) / 2 < j := by
      by_contra hcon
      push_neg at hcon
      rcases Nat.eq_or_lt_of_le hcon with heq | hlt
      · rw [← heq] at hn
        rw [hj] at hn
        have hmn : m = n := by injection hn
        rw [hmn] at hm
        omega
      · have := pairwise_symbol_mono hs hj hn hlt
        omega
    obtain ⟨i, n', hres⟩ := ih (by omega) hjr hrl
    refine ⟨i, n', ?_⟩
    rw [bsearch]
    simp only [dif_pos hlr, hn, if_neg hne, if_neg hngt]
    exact hres
  | case5 l r hlr =>
    intro hlj hjr hrl
    omega

theorem find_by_key_some {V} {cs : List (Node V)} {key i : Nat} {n : Node V}
    (h : find_by_key cs key = some (i, n)) :
    cs[i]? = some n ∧ n.symbol = key := by
  have := bsearch_sound h
  exact ⟨this.1, this.2.1⟩

theorem find_by_key_none {V} {cs : List (Node V)} {key : Nat}
    (hs : List.Pairwise symLt cs) (h : find_by_key cs key = none) :
    ∀ m ∈ cs, m.symbol ≠ key := by
  intro m hm hsym
  obtain ⟨j, hjlt, hj⟩ := List.mem_iff_getElem.mp hm
  have hj' : cs[j]? = some m := by rw [List.getElem?_eq_getElem hjlt, hj]
  obtain ⟨i, n, hsome⟩ :=
    bsearch_complete hs hj' hsym (Nat.zero_le j) hjlt (Nat.le_refl _)
  rw [find_by_key] at h
  rw [h] at hsome
  exact absurd hsome (by simp)

theorem find_by_key_mem {V} {cs : List (Node V)} {key : Nat}
    (hs : List.Pairwise symLt cs) {m : Node V} (hm : m ∈ cs)
    (hsym : m.symbol = key) :
    ∃ i n, find_by_key cs key = some (i, n) := by
  obtain ⟨j, hjlt, hj⟩ := List.mem_iff_getElem.mp hm
  have hj' : cs[j]? = some m := by rw [List.getElem?_eq_getElem hjlt, hj]
  exact bsearch_complete hs hj' hsym (Nat.zero_le j) hjlt (Nat.le_refl _)

/-- Under sortedness the element found is the unique member carrying the
symbol, so the found node is a member and determines the index. -/
theorem find_by_key_unique {V} {cs : List (Node V)}
    (hs : List.Pairwise symLt cs) {i j : Nat} {a b : Node V}
    (ha : cs[i]? = some a) (hb : cs[j]? = some b)
    (hab : a.symbol = b.symbol) : i = j := by
  rcases Nat.lt_trichotomy i j with h | h | h
  · have := pairwise_symbol_mono hs ha hb h; omega
  · exact h
  · have := pairwise_symbol_mono hs hb ha h; omega

/-! ### The bubbling of `push_child` -/

theorem bubble_perm {V} (x : Node V) :
    ∀ (l : List (Node V)), List.Perm (bubble x l) (x :: l) := by
  intro l
  induction l with
  | nil => simp [bubble]
  | cons p rest ih =>
    rw [bubble]
    split
    · exact List.Perm.refl _
    · exact List.Perm.trans (List.Perm.cons p ih) (List.Perm.swap x p rest)

theorem push_child_perm {V} (cs : List (Node V)) (x : Node V) :
    List.Perm (push_child cs x) (x :: cs) := by
  rw [push_child]
  exact ((List.reverse_perm _).trans (bubble_perm x cs.reverse)).trans
    (List.Perm.cons x (List.reverse_perm cs))

theorem mem_bubble {V} {x a : Node V} {l : List (Node V)} :
    a ∈ bubble x l ↔ a = x ∨ a ∈ l := by
  rw [(bubble_perm x l).mem_iff, List.mem_cons]

theorem mem_push_child {V} {cs : List (Node V)} {x a : Node V} :
    a ∈ push_child cs x ↔ a = x ∨ a ∈ cs := by
  rw [(push_child_perm cs x).mem_iff, List.mem_cons]

/-- Symbol order reversed, the sort order of a reversed children list. -/
def symGt {V} (a b : Node V) : Prop := b.symbol < a.symbol

theorem bubble_sorted {V} {x : Node V} :
    ∀ {l : List (Node V)}, List.Pairwise symGt l →
      (∀ a ∈ l, a.symbol ≠ x.symbol) → List.Pairwise symGt (bubble x l) := by
  intro l
  induction l with
  | nil => intro _ _; simp [bubble, List.pairwise_singleton]
  | cons p rest ih =>
    intro hs hfresh
    rw [bubble]
    rcases List.pairwise_cons.mp hs with ⟨hp, hrest⟩
    split
    · rename_i hgt
      refine List.pairwise_cons.mpr ⟨?_, hs⟩
      intro b hb
      rcases List.mem_cons.mp hb with rfl | hb
      · exact hgt
      · exact Nat.lt_trans (hp b hb) hgt
    · rename_i hngt
      have hxp : x.symbol < p.symbol := by
        have := hfresh p (List.mem_cons_self _ _)
        omega
      refine List.pairwise_cons.mpr ⟨?_, ?_⟩
      · intro b hb
        rcases mem_bubble.mp hb with rfl | hb
        · exact hxp
        · exact hp b hb
      · exact ih hrest (fun a ha => hfresh a (List.mem_cons_of_mem _ ha))

theorem push_child_sorted {V} {cs : List (Node V)} {x : Node V}
    (hs : List.Pairwise symLt cs)
    (hfresh : ∀ a ∈ cs, a.symbol ≠ x.symbol) :
    List.Pairwise symLt (push_child cs x) := by
  rw [push_child, List.pairwise_reverse]
  have hrev : List.Pairwise symGt cs.reverse := by
    rw [List.pairwise_reverse]
    exact hs
  have hfresh' : ∀ a ∈ cs.reverse, a.symbol ≠ x.symbol := by
    intro a ha; exact hfresh a (List.mem_reverse.mp ha)
  exact bubble_sorted hrev hfresh'

theorem push_child_append_last {V} {cs : List (Node V)} {x s : Node V}
    (h : ¬ x.symbol > s.symbol) :
    push_child (cs ++ [s]) x = push_child cs x ++ [s] := by
  rw [push_child, push_child, List.reverse_append]
  simp only [List.reverse_cons, List.reverse_nil, List.nil_append,
    List.singleton_append]
  rw [bubble, if_neg h]
  simp

/-! ### Membership interface for `find_by_key` under sortedness -/

theorem member_symbol_unique {V} {cs : List (Node V)}
    (hs : List.Pairwise symLt cs) {a b : Node V} (ha : a ∈ cs) (hb : b ∈ cs)
    (hab : a.symbol = b.symbol) : a = b := by
  obtain ⟨i, hilt, hia⟩ := List.mem_iff_getElem.mp ha
  obtain ⟨j, hjlt, hjb⟩ := List.mem_iff_getElem.mp hb
  have hi : cs[i]? = some a := by rw [List.getElem?_eq_getElem hilt, hia]
  have hj : cs[j]? = some b := by rw [List.getElem?_eq_getElem hjlt, hjb]
  have : i = j := find_by_key_unique hs hi hj hab
  subst this
  rw [hi] at hj
  injection hj

theorem fbk_mem {V} {cs : List (Node V)} {c i : Nat} {n : Node V}
    (h : find_by_key cs c = some (i, n)) : n ∈ cs ∧ n.symbol = c := by
  obtain ⟨h1, h2⟩ := find_by_key_some h
  exact ⟨List.getElem?_mem h1, h2⟩

theorem fbk_find {V} {cs : List (Node V)} {c : Nat}
    (hs : List.Pairwise symLt cs) {m : Node V} (hm : m ∈ cs)
    (hsym : m.symbol = c) : ∃ i, find_by_key cs c = some (i, m) := by
  obtain ⟨i, n, h⟩ := find_by_key_mem hs hm hsym
  obtain ⟨hmem, hnsym⟩ := fbk_mem h
  have : n = m := member_symbol_unique hs hmem hm (by rw [hnsym, hsym])
  exact ⟨i, by rw [h, this]⟩

theorem fbk_none_iff {V} {cs : List (Node V)} {c : Nat}
    (hs : List.Pairwise symLt cs) :
    find_by_key cs c = none ↔ ∀ m ∈ cs, m.symbol ≠ c := by
  constructor
  · exact find_by_key_none hs
  · intro h
    cases hfk : find_by_key cs c with
    | none => rfl
    | some res =>
      obtain ⟨i, n⟩ := res
      obtain ⟨hmem, hsym⟩ := fbk_mem hfk
      exact absurd hsym (h n hmem)

/-! ### Sortedness through `set` and `eraseIdx` -/

theorem pairwise_set_symbol {V} :
    ∀ {cs : List (Node V)} {i : Nat} {child d : Node V},
      List.Pairwise symLt cs → cs[i]? = some child → d.symbol = child.symbol →
      List.Pairwise symLt (cs.set i d) := by
  intro cs
  induction cs with
  | nil => intro i c d _ h _; simp at h
  | cons a cs ih =>
    intro i c d hs hi hsym
    rcases List.pairwise_cons.mp hs with ⟨ha, hcs⟩
    match i with
    | 0 =>
      simp only [List.getElem?_cons_zero, Option.some.injEq] at hi
      subst hi
      rw [List.set_cons_zero]
      refine List.pairwise_cons.mpr ⟨?_, hcs⟩
      intro b hb
      have := ha b hb
      simp only [symLt] at *
      omega
    | i + 1 =>
      simp only [List.getElem?_cons_succ] at hi
      rw [List.set_cons_succ]
      refine List.pairwise_cons.mpr ⟨?_, ih hcs hi hsym⟩
      intro b hb
      rcases List.mem_or_eq_of_mem_set hb with hb | rfl
      · exact ha b hb
      · have hc : c ∈ cs := List.getElem?_mem hi
        have := ha c hc
        simp only [symLt] at *
        omega

theorem pairwise_eraseIdx {V} {cs : List (Node V)} {i : Nat}
    (hs : List.Pairwise symLt cs) :
    List.Pairwise symLt (cs.eraseIdx i) :=
  hs.sublist (List.eraseIdx_sublist cs i)

theorem fbk_snd_some {V} {cs : List (Node V)} {c : Nat} {m : Node V}
    (hs : List.Pairwise symLt cs) :
    (find_by_key cs c).map Prod.snd = some m ↔ m ∈ cs ∧ m.symbol = c := by
  constructor
  · intro h
    cases hfk : find_by_key cs c with
    | none => rw [hfk] at h; simp at h
    | some r =>
      rw [hfk] at h
      obtain ⟨i, n⟩ := r
      simp at h
      subst h
      exact fbk_mem hfk
  · rintro ⟨hm, hsym⟩
    obtain ⟨i, hfk⟩ := fbk_find hs hm hsym
    rw [hfk]
    rfl

/-- Split a list at a known index. -/
theorem split_at_getElem {α : Type} {cs : List α} {i : Nat} {a : α}
    (h : cs[i]? = some a) :
    cs = cs.take i ++ a :: cs.drop (i + 1) := by
  obtain ⟨hilt, hia⟩ := List.getElem?_eq_some.mp h
  conv_lhs => rw [← List.take_append_drop i cs]
  rw [List.drop_eq_getElem_cons hilt, hia]

theorem eraseIdx_split {α : Type} {cs : List α} {i : Nat} {a : α}
    (h : cs[i]? = some a) :
    cs.eraseIdx i = cs.take i ++ cs.drop (i + 1) := by
  obtain ⟨hilt, _⟩ := List.getElem?_eq_some.mp h
  exact List.eraseIdx_eq_take_drop_succ cs i

theorem set_split {α : Type} {cs : List α} {i : Nat} {a d : α}
    (h : cs[i]? = some a) :
    cs.set i d = cs.take i ++ d :: cs.drop (i + 1) := by
  obtain ⟨hilt, _⟩ := List.getElem?_eq_some.mp h
  exact List.set_eq_take_cons_drop d hilt

/-- In a sorted children list, no element besides the one at index `i`
carries that element's symbol. -/
theorem other_symbols_ne {V} {cs : List (Node V)} {i : Nat} {child : Node V}
    (hs : List.Pairwise symLt cs) (hi : cs[i]? = some child) :
    ∀ m, (m ∈ cs.take i ∨ m ∈ cs.drop (i + 1)) → m.symbol ≠ child.symbol := by
  have hsplit := split_at_getElem hi
  rw [hsplit] at hs
  rw [List.pairwise_append] at hs
  obtain ⟨h1, h2, h12⟩ := hs
  rcases List.pairwise_cons.mp h2 with ⟨hc, _⟩
  intro m hm
  rcases hm with hm | hm
  · have := h12 m hm child (List.mem_cons_self _ _)
    simp only [symLt] at this
    omega
  · have := hc m hm
    simp only [symLt] at this
    omega

theorem fbk_set_hit {V} {cs : List (Node V)} {c i : Nat} {child d : Node V}
    (hs : List.Pairwise symLt cs) (hi : cs[i]? = some child)
    (hc : child.symbol = c) (hd : d.symbol = c) :
    find_by_key (cs.set i d) c = some (i, d) := by
  have hs' : List.Pairwise symLt (cs.set i d) :=
    pairwise_set_symbol hs hi (by omega)
  have hilt : i < cs.length := (List.getElem?_eq_some.mp hi).1
  have hset : (cs.set i d)[i]? = some d :=
    List.getElem?_set_eq_of_lt d hilt
  have hdm : d ∈ cs.set i d := List.getElem?_mem hset
  obtain ⟨j, hfk⟩ := fbk_find hs' hdm hd
  have hj : (cs.set i d)[j]? = some d := (find_by_key_some hfk).1
  have : j = i := find_by_key_unique hs' hj hset rfl
  rw [this] at hfk
  exact hfk

theorem fbk_set_miss {V} {cs : List (Node V)} {c c' i : Nat} {child d : Node V}
    (hs : List.Pairwise symLt cs) (hi : cs[i]? = some child)
    (hc : child.symbol = c) (hd : d.symbol = c) (hne : c' ≠ c) :
    (find_by_key (cs.set i d) c').map Prod.snd =
      (find_by_key cs c').map Prod.snd := by
  have hs' : List.Pairwise symLt (cs.set i d) :=
    pairwise_set_symbol hs hi (by omega)
  have hsplit := split_at_getElem hi
  have hsetsplit := set_split (d := d) hi
  have hmem_iff : ∀ m : Node V, m.symbol = c' →
      (m ∈ cs.set i d ↔ m ∈ cs) := by
    intro m hm
    rw [hsetsplit]
    conv_rhs => rw [hsplit]
    simp only [List.mem_append, List.mem_cons]
    constructor
    · rintro (h | rfl | h)
      · exact Or.inl h
      · exact absurd hd (by omega)
      · exact Or.inr (Or.inr h)
    · rintro (h | rfl | h)
      · exact Or.inl h
      · exact absurd hc (by omega)
      · exact Or.inr (Or.inr h)
  cases hfk : find_by_key cs c' with
  | some r =>
    obtain ⟨j, m⟩ := r
    obtain ⟨hmm, hmsym⟩ := fbk_mem hfk
    have h1 : (find_by_key (cs.set i d) c').map Prod.snd = some m :=
      (fbk_snd_some hs').mpr ⟨(hmem_iff m hmsym).mpr hmm, hmsym⟩
    rw [h1]
    rfl
  | none =>
    have h0 : ∀ m ∈ cs, m.symbol ≠ c' := find_by_key_none hs hfk
    have h1 : find_by_key (cs.set i d) c' = none := by
      rw [fbk_none_iff hs']
      intro m hm hsym
      exact h0 m ((hmem_iff m hsym).mp hm) hsym
    rw [h1]

theorem fbk_eraseIdx_none {V} {cs : List (Node V)} {c i : Nat} {child : Node V}
    (hs : List.Pairwise symLt cs) (hi : cs[i]? = some child)
    (hc : child.symbol = c) :
    find_by_key (cs.eraseIdx i) c = none := by
  have hs' : List.Pairwise symLt (cs.eraseIdx i) := pairwise_eraseIdx hs
  rw [fbk_none_iff hs']
  intro m hm
  rw [eraseIdx_split hi, List.mem_append] at hm
  have := other_symbols_ne hs hi m hm
  rw [hc] at this
  exact this

theorem fbk_eraseIdx_miss {V} {cs : List (Node V)} {c c' i : Nat} {child : Node V}
    (hs : List.Pairwise symLt cs) (hi : cs[i]? = some child)
    (hc : child.symbol = c) (hne : c' ≠ c) :
    (find_by_key (cs.eraseIdx i) c').map Prod.snd =
      (find_by_key cs c').map Prod.snd := by
  have hs' : List.Pairwise symLt (cs.eraseIdx i) := pairwise_eraseIdx hs
  have hsplit := split_at_getElem hi
  have hmem_iff : ∀ m : Node V, m.symbol = c' →
      (m ∈ cs.eraseIdx i ↔ m ∈ cs) := by
    intro m hm
    rw [eraseIdx_split hi]
    conv_rhs => rw [hsplit]
    simp only [List.mem_append, List.mem_cons]
    constructor
    · rintro (h | h)
      · exact Or.inl h
      · exact Or.inr (Or.inr h)
    · rintro (h | rfl | h)
      · exact Or.inl h
      · exact absurd hc (by omega)
      · exact Or.inr h
  cases hfk : find_by_key cs c' with
  | some r =>
    obtain ⟨j, m⟩ := r
    obtain ⟨hmm, hmsym⟩ := fbk_mem hfk
    have h1 : (find_by_key (cs.eraseIdx i) c').map Prod.snd = some m :=
      (fbk_snd_some hs').mpr ⟨(hmem_iff m hmsym).mpr hmm, hmsym⟩
    rw [h1]
    rfl
  | none =>
    have h0 : ∀ m ∈ cs, m.symbol ≠ c' := find_by_key_none hs hfk
    have h1 : find_by_key (cs.eraseIdx i) c' = none := by
      rw [fbk_none_iff hs']
      intro m hm hsym
      exact h0 m ((hmem_iff m hsym).mp hm) hsym
    rw [h1]

/-! ### The walk along a path and its relation to `find` -/

theorem allN_walk {V} {q : Node V → Bool} :
    ∀ {p : List Nat} {n m : Node V}, allN q n = true → walk n p = some m →
      allN q m = true := by
  intro p
  induction p with
  | nil => intro n m h hw; rw [walk] at hw; injection hw with hw; rw [← hw]; exact h
  | cons c rest ih =>
    intro n m h hw
    rw [walk] at hw
    cases hfk : find_by_key n.children c with
    | none => rw [hfk] at hw; exact absurd hw (by simp)
    | some r =>
      obtain ⟨i, child⟩ := r
      rw [hfk] at hw
      obtain ⟨hmem, _⟩ := fbk_mem hfk
      exact ih (allN_child h hmem) hw

theorem walk_sortedAll {V} {p : List Nat} {n m : Node V}
    (h : sortedAll n = true) (hw : walk n p = some m) : sortedAll m = true :=
  allN_walk h hw

theorem walk_eq_walkSpec {V} :
    ∀ {p : List Nat} {n : Node V}, sortedAll n = true →
      walk n p = walkSpec n p := by
  intro p
  induction p with
  | nil => intro n _; rw [walk, walkSpec]
  | cons c rest ih =>
    intro n hsn
    have hs : List.Pairwise symLt n.children := sortedAll_pairwise hsn
    rw [walk, walkSpec]
    cases hfk : find_by_key n.children c with
    | none =>
      have hnone := find_by_key_none hs hfk
      have : n.children.find? (fun m => m.symbol == c) = none := by
        rw [List.find?_eq_none]
        intro m hm
        simp only [beq_iff_eq]
        exact hnone m hm
      rw [this]
    | some r =>
      obtain ⟨i, child⟩ := r
      obtain ⟨hmem, hsym⟩ := fbk_mem hfk
      cases hf : n.children.find? (fun m => m.symbol == c) with
      | none =>
        have := List.find?_eq_none.mp hf child hmem
        simp only [beq_iff_eq] at this
        exact absurd hsym this
      | some m' =>
        have h1 : m'.symbol = c := by
          have := List.find?_some hf
          simpa using this
        have h2 : m' ∈ n.children := List.mem_of_find?_eq_some hf
        have : child = m' := member_symbol_unique hs hmem h2 (by omega)
        subst this
        exact ih (sortedAll_child hsn hmem)

theorem findNode_iff {V} :
    ∀ {k : List Nat} {n m : Node V},
      findNode n k = some m ↔
        k ≠ [] ∧ walk n k = some m ∧ m.is_leaf = true := by
  intro k
  induction k with
  | nil =>
    intro n m
    rw [findNode]
    simp
  | cons c rest ih =>
    intro n m
    rw [findNode, walk]
    cases hfk : find_by_key n.children c with
    | none => simp
    | some r =>
      obtain ⟨i, child⟩ := r
      simp only []
      split
      · rename_i hcond
        obtain ⟨hleaf, rfl⟩ := hcond
        rw [walk]
        constructor
        · intro h
          injection h with h
          subst h
          exact ⟨by simp, rfl, hleaf⟩
        · rintro ⟨-, h, -⟩
          injection h with h
          rw [h]
      · rename_i hcond
        rw [ih]
        constructor
        · rintro ⟨hne, hw, hleaf⟩
          exact ⟨by simp, hw, hleaf⟩
        · rintro ⟨-, hw, hleaf⟩
          refine ⟨?_, hw, hleaf⟩
          intro hrest
          subst hrest
          rw [walk] at hw
          injection hw with hw
          subst hw
          exact hcond ⟨hleaf, rfl⟩

theorem walk_append {V} :
    ∀ {p q : List Nat} {n : Node V},
      walk n (p ++ q) = (walk n p).bind (fun m => walk m q) := by
  intro p
  induction p with
  | nil => intro q n; simp [walk]
  | cons c rest ih =>
    intro q n
    rw [List.cons_append, walk, walk]
    cases hfk : find_by_key n.children c with
    | none => rfl
    | some r =>
      obtain ⟨i, child⟩ := r
      exact ih

theorem walk_symbol {V} :
    ∀ {p : List Nat} {n m : Node V}, walk n p = some m → p ≠ [] →
      p.getLast? = some m.symbol := by
  intro p
  induction p with
  | nil => intro n m _ h; exact absurd rfl h
  | cons c rest ih =>
    intro n m hw _
    rw [walk] at hw
    cases hfk : find_by_key n.children c with
    | none => rw [hfk] at hw; exact absurd hw (by simp)
    | some r =>
      obtain ⟨i, child⟩ := r
      rw [hfk] at hw
      cases rest with
      | nil =>
        have hw' : some child = some m := hw
        injection hw' with hw'
        subst hw'
        rw [List.getLast?_singleton]
        obtain ⟨-, hsym⟩ := fbk_mem hfk
        rw [hsym]
      | cons c' rest' =>
        rw [List.getLast?_cons_cons]
        exact ih hw (by simp)

/-! ### Unpacking well-formedness -/

theorem WF_parts {V} {M : Nat} {t : trie V} (h : WF M t) :
    sortedAll t.top = true ∧ t.top.is_leaf = false ∧ sentinelOk M t = true ∧
      (∀ c ∈ t.top.children.dropLast, belowAll M c = true) ∧
      noDeadAll t.top = true := by
  rw [WF, WFb] at h
  simp only [Bool.and_eq_true, Bool.not_eq_true', List.all_eq_true] at h
  exact ⟨h.1.1.1.1, h.1.1.1.2, h.1.1.2, fun c hc => h.1.2 c hc, h.2⟩

theorem WF_sentinel {V} {M : Nat} {t : trie V} (h : WF M t) :
    ∃ y : Node V, t.top.children.getLast? = some y ∧ y.symbol = M ∧
      y.is_leaf = true ∧ y.children = [] := by
  have hs := (WF_parts h).2.2.1
  rw [sentinelOk] at hs
  cases hgl : t.top.children.getLast? with
  | none => rw [hgl] at hs; exact absurd hs (by simp)
  | some y =>
    rw [hgl] at hs
    simp only [Bool.and_eq_true, decide_eq_true_iff, List.isEmpty_iff] at hs
    exact ⟨y, rfl, hs.1.1, hs.1.2, hs.2⟩

theorem WF_children_split {V} {M : Nat} {t : trie V} (h : WF M t) :
    ∃ y : Node V, t.top.children = t.top.children.dropLast ++ [y] ∧
      y.symbol = M ∧ y.is_leaf = true ∧ y.children = [] := by
  obtain ⟨y, hgl, h1, h2, h3⟩ := WF_sentinel h
  refine ⟨y, ?_, h1, h2, h3⟩
  exact (List.dropLast_append_getLast? y hgl).symm

/-! ### The error behavior of `insert` -/

theorem insertWalk_error_iff {V} {v : V} :
    ∀ {k : List Nat} {n : Node V} {e : Err},
      insertWalk v n k = .error e ↔
        e = .duplicateKey ∧ ∃ m, walk n k = some m ∧ m.is_leaf = true := by
  intro k
  induction k with
  | nil =>
    intro n e
    rw [insertWalk, walk]
    split
    · rename_i hleaf
      constructor
      · intro h
        injection h with h
        exact ⟨h.symm, n, rfl, hleaf⟩
      · rintro ⟨rfl, m, hm, hleaf'⟩
        rfl
    · rename_i hleaf
      constructor
      · intro h; exact absurd h (by simp)
      · rintro ⟨rfl, m, hm, hleaf'⟩
        injection hm with hm
        subst hm
        exact absurd hleaf' hleaf
  | cons c rest ih =>
    intro n e
    rw [insertWalk, walk]
    cases hfk : find_by_key n.children c with
    | none =>
      simp only []
      constructor
      · intro h; exact absurd h (by simp)
      · rintro ⟨rfl, m, hm, hleaf'⟩
        exact absurd hm (by simp)
    | some r =>
      obtain ⟨i, child⟩ := r
      simp only []
      cases hiw : insertWalk v child rest with
      | error e' =>
        obtain ⟨he', m, hm, hleaf⟩ := ih.mp hiw
        constructor
        · intro h
          injection h with h
          subst h
          exact ⟨he', m, hm, hleaf⟩
        · rintro ⟨rfl, m', hm', hleaf''⟩
          rw [he']
      | ok child' =>
        constructor
        · intro h; exact absurd h (by simp)
        · rintro ⟨rfl, m, hm, hleaf'⟩
          have := ih.mpr ⟨rfl, m, hm, hleaf'⟩
          rw [this] at hiw
          exact absurd hiw (by simp)

/-! ### The tree built by a successful `insert` -/

theorem buildChain_symbol {V} {v : V} {c : Nat} :
    ∀ {rest : List Nat}, (buildChain v c rest).symbol = c := by
  intro rest
  cases rest <;> rw [buildChain] <;> rfl

theorem push_child_nil {V} {x : Node V} : push_child [] x = [x] := rfl

theorem fbk_push_chain {V} {cs : List (Node V)} {c : Nat} {x : Node V}
    (hs : List.Pairwise symLt cs) (hfresh : ∀ m ∈ cs, m.symbol ≠ c)
    (hx : x.symbol = c) :
    ∃ j, find_by_key (push_child cs x) c = some (j, x) := by
  have hs' : List.Pairwise symLt (push_child cs x) :=
    push_child_sorted hs (fun a ha => by
      have := hfresh a ha
      omega)
  have hmem : x ∈ push_child cs x := mem_push_child.mpr (Or.inl rfl)
  exact fbk_find hs' hmem hx

theorem buildChain_walk {V} {v : V} :
    ∀ {rest : List Nat} {c : Nat},
      ∃ m, walk (buildChain v c rest) rest = some m ∧ m.is_leaf = true ∧
        m.val = some v ∧ m.children = [] := by
  intro rest
  induction rest with
  | nil =>
    intro c
    exact ⟨buildChain v c [], rfl, rfl, rfl, rfl⟩
  | cons d rest' ih =>
    intro c
    obtain ⟨m, hm, h1, h2, h3⟩ := ih (c := d)
    refine ⟨m, ?_, h1, h2, h3⟩
    rw [buildChain, walk]
    have hsingle : (Node.mk c none false
        (push_child [] (buildChain v d rest'))).children = [buildChain v d rest'] := by
      rw [push_child_nil]
      rfl
    have hfk : ∃ j, find_by_key [buildChain v d rest'] d =
        some (j, buildChain v d rest') := by
      refine fbk_find (List.pairwise_singleton _ _) (List.mem_singleton.mpr rfl)
        buildChain_symbol
    obtain ⟨j, hfk⟩ := hfk
    simp only [Node.children, push_child_nil] at *
    rw [hfk]
    exact hm

theorem insertWalk_symbol {V} {v : V} :
    ∀ {k : List Nat} {n n' : Node V}, insertWalk v n k = .ok n' →
      n'.symbol = n.symbol := by
  intro k
  cases k with
  | nil =>
    intro n n' h
    rw [insertWalk] at h
    split at h
    · exact absurd h (by simp)
    · injection h with h
      subst h
      cases n
      rfl
  | cons c rest =>
    intro n n' h
    rw [insertWalk] at h
    split at h
    · injection h with h
      subst h
      cases n
      rfl
    · split at h
      · exact absurd h (by simp)
      · injection h with h
        subst h
        cases n
        rfl

theorem insertWalk_ok_walk {V} {v : V} :
    ∀ {k : List Nat} {n n' : Node V}, sortedAll n = true →
      insertWalk v n k = .ok n' →
      ∃ m, walk n' k = some m ∧ m.is_leaf = true ∧ m.val = some v := by
  intro k
  induction k with
  | nil =>
    intro n n' hsn h
    rw [insertWalk] at h
    split at h
    · exact absurd h (by simp)
    · injection h with h
      subst h
      refine ⟨n.promote v, rfl, ?_, ?_⟩ <;> cases n <;> rfl
  | cons c rest ih =>
    intro n n' hsn h
    have hs : List.Pairwise symLt n.children := sortedAll_pairwise hsn
    rw [insertWalk] at h
    split at h
    · rename_i hfk
      injection h with h
      subst h
      have hfresh : ∀ m ∈ n.children, m.symbol ≠ c := find_by_key_none hs hfk
      obtain ⟨j, hfk'⟩ := fbk_push_chain (x := buildChain v c rest)
        hs hfresh buildChain_symbol
      obtain ⟨m, hm, h1, h2, _⟩ := @buildChain_walk V v rest c
      refine ⟨m, ?_, h1, h2⟩
      rw [walk]
      have hch : (n.withChildren (push_child n.children (buildChain v c rest))).children
          = push_child n.children (buildChain v c rest) := by
        cases n; rfl
      rw [hch, hfk']
      exact hm
    · rename_i i child hfk
      split at h
      · exact absurd h (by simp)
      · rename_i child' hiw
        injection h with h
        subst h
        obtain ⟨hi, hcsym⟩ := find_by_key_some hfk
        obtain ⟨hmem, _⟩ := fbk_mem hfk
        obtain ⟨m, hm, h1, h2⟩ := ih (sortedAll_child hsn hmem) hiw
        refine ⟨m, ?_, h1, h2⟩
        rw [walk]
        have hch : (n.withChildren (n.children.set i child')).children
            = n.children.set i child' := by
          cases n; rfl
        rw [hch]
        have hset : find_by_key (n.children.set i child') c = some (i, child') :=
          fbk_set_hit hs hi hcsym (by rw [insertWalk_symbol hiw]; exact hcsym)
        rw [hset]
        exact hm

theorem insert_eq_walkForm {V} (t : trie V) (k : List Nat) (v : V) :
    t.insert k v =
      match k with
      | [] => (t, .thrown .emptyKey)
      | _ :: _ =>
        match insertWalk v t.top k with
        | .error e => (t, .thrown e)
        | .ok top' => (⟨top', t.size + 1⟩, .ok)
    := by
  cases k with
  | nil => rfl
  | cons c rest =>
    rw [trie.insert]
    simp only []
    rw [insertWalk]
    cases hfk : find_by_key t.top.children c with
    | none => rfl
    | some r =>
      obtain ⟨i, child⟩ := r
      simp only []
      cases hiw : insertWalk v child rest with
      | error e => rfl
      | ok child' => rfl

/-! ### Sortedness is preserved by `insert` -/

theorem sortedAll_node_iff {V} {n : Node V} :
    sortedAll n = true ↔
      List.Pairwise symLt n.children ∧ ∀ c ∈ n.children, sortedAll c = true := by
  rw [sortedAll, allN_iff, ← adjLt_iff_pairwise]
  exact Iff.rfl

theorem buildChain_sortedAll {V} {v : V} :
    ∀ {rest : List Nat} {c : Nat}, sortedAll (buildChain v c rest) = true := by
  intro rest
  induction rest with
  | nil =>
    intro c
    rw [buildChain, sortedAll_node_iff]
    constructor
    · simp
    · simp
  | cons d rest' ih =>
    intro c
    rw [buildChain, sortedAll_node_iff]
    constructor
    · simp only [Node.children, push_child_nil]
      exact List.pairwise_singleton _ _
    · intro m hm
      simp only [Node.children, push_child_nil, List.mem_singleton] at hm
      subst hm
      exact ih

theorem insertWalk_sorted {V} {v : V} :
    ∀ {k : List Nat} {n n' : Node V}, sortedAll n = true →
      insertWalk v n k = .ok n' → sortedAll n' = true := by
  intro k
  induction k with
  | nil =>
    intro n n' hsn h
    rw [insertWalk] at h
    split at h
    · exact absurd h (by simp)
    · injection h with h
      subst h
      cases n with
      | mk s w l cs =>
        rw [sortedAll_node_iff] at hsn ⊢
        exact hsn
  | cons c rest ih =>
    intro n n' hsn h
    have hs : List.Pairwise symLt n.children := sortedAll_pairwise hsn
    rw [insertWalk] at h
    split at h
    · rename_i hfk
      injection h with h
      subst h
      have hfresh : ∀ m ∈ n.children, m.symbol ≠ c := find_by_key_none hs hfk
      cases n with
      | mk s w l cs =>
        rw [sortedAll_node_iff]
        constructor
        · exact push_child_sorted hs (fun a ha => by
            have := hfresh a ha
            rw [buildChain_symbol]
            exact this)
        · intro m hm
          simp only [Node.children, Node.withChildren] at hm
          rcases mem_push_child.mp hm with rfl | hm
          · exact buildChain_sortedAll
          · exact sortedAll_child hsn hm
    · rename_i i child hfk
      split at h
      · exact absurd h (by simp)
      · rename_i child' hiw
        injection h with h
        subst h
        obtain ⟨hi, hcsym⟩ := find_by_key_some hfk
        obtain ⟨hmem, _⟩ := fbk_mem hfk
        cases n with
        | mk s w l cs =>
          rw [sortedAll_node_iff]
          constructor
          · exact pairwise_set_symbol hs hi
              (by rw [insertWalk_symbol hiw])
          · intro m hm
            simp only [Node.children, Node.withChildren] at hm
            rcases List.mem_or_eq_of_mem_set hm with hm | rfl
            · exact sortedAll_child hsn hm
            · exact ih (sortedAll_child hsn hmem) hiw

/-! ### Leaf counting -/

theorem leafCountL_append {V} :
    ∀ (l1 l2 : List (Node V)),
      leafCountL (l1 ++ l2) = leafCountL l1 + leafCountL l2 := by
  intro l1 l2
  induction l1 with
  | nil => rw [List.nil_append, leafCountL]; omega
  | cons a l1 ih =>
    rw [List.cons_append, leafCountL, leafCountL, ih]
    omega

theorem leafCountL_perm {V} {l1 l2 : List (Node V)} (h : List.Perm l1 l2) :
    leafCountL l1 = leafCountL l2 := by
  induction h with
  | nil => rfl
  | cons a _ ih => rw [leafCountL, leafCountL, ih]
  | swap a b l => rw [leafCountL, leafCountL, leafCountL, leafCountL]; omega
  | trans _ _ ih1 ih2 => omega

theorem leafCountL_set {V} {cs : List (Node V)} {i : Nat} {c d : Node V}
    (hi : cs[i]? = some c) :
    leafCountL (cs.set i d) + leafCount c =
      leafCountL cs + leafCount d := by
  have h1 := split_at_getElem hi
  have h2 := set_split (d := d) hi
  rw [h2]
  conv_rhs => rw [h1]
  rw [leafCountL_append, leafCountL_append, leafCountL, leafCountL]
  omega

theorem leafCountL_eraseIdx {V} {cs : List (Node V)} {i : Nat} {child : Node V}
    (hi : cs[i]? = some child) :
    leafCountL (cs.eraseIdx i) + leafCount child = leafCountL cs := by
  have h1 := split_at_getElem hi
  have h2 := eraseIdx_split hi
  rw [h2]
  conv_rhs => rw [h1]
  rw [leafCountL_append, leafCountL_append, leafCountL]
  omega

theorem leafCount_buildChain {V} {v : V} :
    ∀ {rest : List Nat} {c : Nat}, leafCount (buildChain v c rest) = 1 := by
  intro rest
  induction rest with
  | nil => intro c; rw [buildChain, leafCount, leafCountL]; rfl
  | cons d rest' ih =>
    intro c
    rw [buildChain, leafCount]
    simp only [push_child_nil]
    rw [leafCountL, leafCountL]
    simp only [if_neg (by simp : ¬ (false = true))]
    have := ih (c := d)
    omega

theorem leafCount_promote {V} {n : Node V} {v : V} (h : n.is_leaf = false) :
    leafCount (n.promote v) = leafCount n + 1 := by
  cases n with
  | mk s w l cs =>
    simp only [Node.is_leaf] at h
    subst h
    rw [Node.promote, leafCount, leafCount]
    simp
    omega

theorem insertWalk_leafCount {V} {v : V} :
    ∀ {k : List Nat} {n n' : Node V}, insertWalk v n k = .ok n' →
      leafCount n' = leafCount n + 1 := by
  intro k
  induction k with
  | nil =>
    intro n n' h
    rw [insertWalk] at h
    split at h
    · exact absurd h (by simp)
    · rename_i hleaf
      injection h with h
      subst h
      exact leafCount_promote (by simpa using hleaf)
  | cons c rest ih =>
    intro n n' h
    rw [insertWalk] at h
    split at h
    · rename_i hfk
      injection h with h
      subst h
      cases n with
      | mk s w l cs =>
        have hperm : leafCountL (push_child cs (buildChain v c rest)) =
            leafCountL (buildChain v c rest :: cs) :=
          leafCountL_perm (push_child_perm cs _)
        simp only [Node.children, Node.withChildren]
        rw [leafCount, leafCount, hperm, leafCountL, leafCount_buildChain]
        omega
    · rename_i i child hfk
      split at h
      · exact absurd h (by simp)
      · rename_i child' hiw
        injection h with h
        subst h
        obtain ⟨hi, _⟩ := find_by_key_some hfk
        have := ih hiw
        cases n with
        | mk s w l cs =>
          simp only [Node.children, Node.withChildren] at *
          rw [leafCount, leafCount]
          have hset := leafCountL_set (d := child') hi
          omega

/-! ### The upward climb of `erase` -/

theorem find_by_key_nil {V} {c : Nat} :
    find_by_key ([] : List (Node V)) c = none := by
  rw [find_by_key, bsearch]
  simp

theorem findNode_step {V} (n : Node V) (c : Nat) (rest : List Nat) :
    findNode n (c :: rest) =
      match (find_by_key n.children c).map Prod.snd with
      | none => none
      | some child =>
        if child.is_leaf ∧ rest = [] then some child else findNode child rest := by
  rw [findNode]
  cases hfk : find_by_key n.children c with
  | none => rfl
  | some r => obtain ⟨i, child⟩ := r; rfl

theorem findNode_withLeaf {V} {n : Node V} {b : Bool} :
    ∀ {k : List Nat}, k ≠ [] → findNode (n.withLeaf b) k = findNode n k := by
  intro k hk
  cases k with
  | nil => exact absurd rfl hk
  | cons c rest =>
    cases n with
    | mk s w l cs => rfl

theorem singleton_of_le_one {α : Type} {cs : List α} {i : Nat} {a : α}
    (hi : cs[i]? = some a) (hlen : cs.length ≤ 1) : cs = [a] ∧ i = 0 := by
  obtain ⟨hilt, hia⟩ := List.getElem?_eq_some.mp hi
  match cs, i with
  | [b], 0 =>
    simp only [List.getElem_singleton] at hia
    rw [hia]
    exact ⟨rfl, rfl⟩
  | _ :: _ :: _, _ => simp at hlen

theorem eraseGo_not_bad {V} :
    ∀ {k : List Nat} {n m : Node V}, walk n k = some m →
      eraseGo n k ≠ .bad := by
  intro k
  induction k with
  | nil =>
    intro n m _ hbad
    rw [eraseGo] at hbad
    split at hbad <;> simp at hbad
  | cons c rest ih =>
    intro n m hw hbad
    rw [walk] at hw
    rw [eraseGo] at hbad
    split at hbad
    · rename_i hfk
      rw [hfk] at hw
      exact absurd hw (by simp)
    · rename_i i child hfk
      rw [hfk] at hw
      split at hbad
      · rename_i hgo
        exact absurd hgo (ih hw)
      · exact absurd hbad (by simp)
      · split at hbad <;> simp at hbad

theorem eraseGo_det_shape {V} {n : Node V} {c : Nat} {rest : List Nat}
    (h : eraseGo n (c :: rest) = .det) :
    ∃ i child, find_by_key n.children c = some (i, child) ∧
      eraseGo child rest = .det ∧ n.is_leaf = false ∧ n.children = [child] := by
  rw [eraseGo] at h
  split at h
  · exact absurd h (by simp)
  · rename_i i child hfk
    split at h
    · exact absurd h (by simp)
    · exact absurd h (by simp)
    · rename_i hgo
      split at h
      · rename_i hcond
        obtain ⟨hleaf, hlen⟩ := hcond
        obtain ⟨hcs, -⟩ := singleton_of_le_one (find_by_key_some hfk).1 hlen
        refine ⟨i, child, hfk, hgo, ?_, hcs⟩
        simpa using hleaf
      · exact absurd h (by simp)

theorem eraseGo_det_empty {V} {n : Node V} (h : eraseGo n [] = .det) :
    n.children = [] := by
  rw [eraseGo] at h
  split at h
  · rename_i hcs; exact List.isEmpty_iff.mp hcs
  · exact absurd h (by simp)

theorem eraseGo_det_leafCount {V} :
    ∀ {k : List Nat} {n m : Node V}, eraseGo n k = .det →
      walk n k = some m → m.is_leaf = true → leafCount n = 1 := by
  intro k
  induction k with
  | nil =>
    intro n m hdet hw hleaf
    have hcs := eraseGo_det_empty hdet
    rw [walk] at hw
    injection hw with hw
    rw [← hw] at hleaf
    cases n with
    | mk s w l cs =>
      simp only [Node.children] at hcs
      subst hcs
      simp only [Node.is_leaf] at hleaf
      subst hleaf
      rw [leafCount, leafCountL]
      simp
  | cons c rest ih =>
    intro n m hdet hw hleaf
    obtain ⟨i, child, hfk, hgo, hnleaf, hcs⟩ := eraseGo_det_shape hdet
    rw [walk, hfk] at hw
    have := ih hgo hw hleaf
    cases n with
    | mk s w l cs =>
      simp only [Node.is_leaf] at hnleaf
      subst hnleaf
      simp only [Node.children] at hcs
      subst hcs
      rw [leafCount, leafCountL, leafCountL]
      simp only [if_neg (by simp : ¬ (false = true))]
      omega

theorem eraseGo_det_unique {V} :
    ∀ {k : List Nat} {n : Node V}, eraseGo n k = .det →
      ∀ {k' : List Nat} {m' : Node V}, walk n k' = some m' →
        m'.is_leaf = true → k' = k := by
  intro k
  induction k with
  | nil =>
    intro n hdet k' m' hw hleaf
    have hcs := eraseGo_det_empty hdet
    cases k' with
    | nil => rfl
    | cons c' rest' =>
      rw [walk, hcs, find_by_key_nil] at hw
      exact absurd hw (by simp)
  | cons c rest ih =>
    intro n hdet k' m' hw hleaf
    obtain ⟨i, child, hfk, hgo, hnleaf, hcs⟩ := eraseGo_det_shape hdet
    cases k' with
    | nil =>
      rw [walk] at hw
      injection hw with hw
      rw [← hw] at hleaf
      rw [hleaf] at hnleaf
      exact absurd hnleaf (by simp)
    | cons c' rest' =>
      rw [walk] at hw
      cases hfk' : find_by_key n.children c' with
      | none => rw [hfk'] at hw; exact absurd hw (by simp)
      | some r' =>
        obtain ⟨i', child''⟩ := r'
        rw [hfk'] at hw
        obtain ⟨hmem', hsym'⟩ := fbk_mem hfk'
        obtain ⟨hmem, hsym⟩ := fbk_mem hfk
        rw [hcs, List.mem_singleton] at hmem'
        subst hmem'
        have h1 : c' = c := by rw [← hsym', hsym]
        have h2 : rest' = rest := ih hgo hw hleaf
        rw [h1, h2]

@[simp] theorem children_withChildren {V} {n : Node V} {cs : List (Node V)} :
    (n.withChildren cs).children = cs := by cases n; rfl
@[simp] theorem symbol_withChildren {V} {n : Node V} {cs : List (Node V)} :
    (n.withChildren cs).symbol = n.symbol := by cases n; rfl
@[simp] theorem is_leaf_withChildren {V} {n : Node V} {cs : List (Node V)} :
    (n.withChildren cs).is_leaf = n.is_leaf := by cases n; rfl
@[simp] theorem val_withChildren {V} {n : Node V} {cs : List (Node V)} :
    (n.withChildren cs).val = n.val := by cases n; rfl
@[simp] theorem children_withLeaf {V} {n : Node V} {b : Bool} :
    (n.withLeaf b).children = n.children := by cases n; rfl
@[simp] theorem symbol_withLeaf {V} {n : Node V} {b : Bool} :
    (n.withLeaf b).symbol = n.symbol := by cases n; rfl
@[simp] theorem is_leaf_withLeaf {V} {n : Node V} {b : Bool} :
    (n.withLeaf b).is_leaf = b := by cases n; rfl
@[simp] theorem val_withLeaf {V} {n : Node V} {b : Bool} :
    (n.withLeaf b).val = n.val := by cases n; rfl

theorem eraseGo_keep_nil {V} {n n' : Node V} (h : eraseGo n [] = .keep n') :
    n' = n.withLeaf false ∧ n.children ≠ [] := by
  rw [eraseGo] at h
  split at h
  · exact absurd h (by simp)
  · rename_i hcs
    injection h with h
    exact ⟨h.symm, by simpa [List.isEmpty_iff] using hcs⟩

theorem eraseGo_keep_cons {V} {n n' : Node V} {c : Nat} {rest : List Nat}
    (h : eraseGo n (c :: rest) = .keep n') :
    ∃ i child, find_by_key n.children c = some (i, child) ∧
      ((∃ child', eraseGo child rest = .keep child' ∧
          n' = n.withChildren (n.children.set i child')) ∨
        (eraseGo child rest = .det ∧
          ¬ (n.is_leaf = false ∧ n.children.length ≤ 1) ∧
          n' = n.withChildren (n.children.eraseIdx i))) := by
  rw [eraseGo] at h
  split at h
  · exact absurd h (by simp)
  · rename_i i child hfk
    split at h
    · exact absurd h (by simp)
    · rename_i child' hgo
      injection h with h
      exact ⟨i, child, hfk, Or.inl ⟨child', hgo, h.symm⟩⟩
    · rename_i hgo
      split at h
      · exact absurd h (by simp)
      · rename_i hcond
        injection h with h
        refine ⟨i, child, hfk, Or.inr ⟨hgo, ?_, h.symm⟩⟩
        intro hc
        apply hcond
        refine ⟨?_, hc.2⟩
        rw [hc.1]
        simp

theorem eraseGo_keep_fields {V} {n n' : Node V} {k : List Nat}
    (h : eraseGo n k = .keep n') :
    n'.symbol = n.symbol ∧ n'.val = n.val ∧
      (k ≠ [] → n'.is_leaf = n.is_leaf) := by
  cases k with
  | nil =>
    obtain ⟨rfl, -⟩ := eraseGo_keep_nil h
    exact ⟨by cases n; rfl, by cases n; rfl, fun hk => absurd rfl hk⟩
  | cons c rest =>
    obtain ⟨i, child, hfk, hcase⟩ := eraseGo_keep_cons h
    rcases hcase with ⟨child', hgo, rfl⟩ | ⟨hgo, hcond, rfl⟩ <;>
      exact ⟨by cases n; rfl, by cases n; rfl, fun _ => by cases n; rfl⟩

theorem eraseGo_keep_self {V} :
    ∀ {k : List Nat} {n n' : Node V}, sortedAll n = true →
      (∃ m, walk n k = some m ∧ m.is_leaf = true) →
      eraseGo n k = .keep n' → findNode n' k = none := by
  intro k
  induction k with
  | nil => intro n n' _ _ _; rw [findNode]
  | cons c rest ih =>
    intro n n' hsn hstored hkeep
    have hs : List.Pairwise symLt n.children := sortedAll_pairwise hsn
    obtain ⟨m, hw, hleaf⟩ := hstored
    rw [walk] at hw
    obtain ⟨i, child, hfk, hcase⟩ := eraseGo_keep_cons hkeep
    rw [hfk] at hw
    obtain ⟨hi, hcsym⟩ := find_by_key_some hfk
    obtain ⟨hmem, -⟩ := fbk_mem hfk
    rcases hcase with ⟨child', hgo, rfl⟩ | ⟨hgo, hcond, rfl⟩
    · have hsym' : child'.symbol = child.symbol :=
        (eraseGo_keep_fields hgo).1
      rw [findNode_step]
      have hset : find_by_key ((n.withChildren (n.children.set i child')).children) c
          = some (i, child') := by
        rw [children_withChildren]
        exact fbk_set_hit hs hi hcsym (by omega)
      rw [hset]
      simp only [Option.map]
      cases rest with
      | nil =>
        obtain ⟨rfl, -⟩ := eraseGo_keep_nil hgo
        rw [if_neg]
        · rw [findNode]
        · intro hcon
          have := hcon.1
          rw [is_leaf_withLeaf] at this
          exact absurd this (by simp)
      | cons d rest' =>
        rw [if_neg (by simp)]
        exact ih (sortedAll_child hsn hmem) ⟨m, hw, hleaf⟩ hgo
    · rw [findNode_step]
      have hnone : find_by_key ((n.withChildren (n.children.eraseIdx i)).children) c
          = none := by
        rw [children_withChildren]
        exact fbk_eraseIdx_none hs hi hcsym
      rw [hnone]
      rfl

theorem eraseGo_keep_leafCount {V} :
    ∀ {k : List Nat} {n n' : Node V},
      (∃ m, walk n k = some m ∧ m.is_leaf = true) →
      eraseGo n k = .keep n' → leafCount n' + 1 = leafCount n := by
  intro k
  induction k with
  | nil =>
    intro n n' hstored hkeep
    obtain ⟨m, hw, hleaf⟩ := hstored
    rw [walk] at hw
    injection hw with hw
    rw [← hw] at hleaf
    obtain ⟨rfl, -⟩ := eraseGo_keep_nil hkeep
    cases n with
    | mk s w l cs =>
      simp only [Node.is_leaf] at hleaf
      subst hleaf
      rw [Node.withLeaf, leafCount, leafCount]
      simp
      omega
  | cons c rest ih =>
    intro n n' hstored hkeep
    obtain ⟨m, hw, hleaf⟩ := hstored
    rw [walk] at hw
    obtain ⟨i, child, hfk, hcase⟩ := eraseGo_keep_cons hkeep
    rw [hfk] at hw
    obtain ⟨hi, hcsym⟩ := find_by_key_some hfk
    rcases hcase with ⟨child', hgo, rfl⟩ | ⟨hgo, hcond, rfl⟩
    · have hrec := ih ⟨m, hw, hleaf⟩ hgo
      cases n with
      | mk s w l cs =>
        simp only [Node.children, Node.withChildren] at *
        rw [leafCount, leafCount]
        have hset := leafCountL_set (d := child') hi
        omega
    · have hone : leafCount child = 1 := eraseGo_det_leafCount hgo hw hleaf
      cases n with
      | mk s w l cs =>
        simp only [Node.children, Node.withChildren] at *
        rw [leafCount, leafCount]
        have herase := leafCountL_eraseIdx hi
        omega

theorem eraseGo_keep_sorted {V} :
    ∀ {k : List Nat} {n n' : Node V}, sortedAll n = true →
      eraseGo n k = .keep n' → sortedAll n' = true := by
  intro k
  induction k with
  | nil =>
    intro n n' hsn hkeep
    obtain ⟨rfl, -⟩ := eraseGo_keep_nil hkeep
    rw [sortedAll_node_iff] at hsn ⊢
    rw [children_withLeaf]
    exact hsn
  | cons c rest ih =>
    intro n n' hsn hkeep
    have hs : List.Pairwise symLt n.children := sortedAll_pairwise hsn
    obtain ⟨i, child, hfk, hcase⟩ := eraseGo_keep_cons hkeep
    obtain ⟨hi, hcsym⟩ := find_by_key_some hfk
    obtain ⟨hmem, -⟩ := fbk_mem hfk
    rcases hcase with ⟨child', hgo, rfl⟩ | ⟨hgo, hcond, rfl⟩
    · rw [sortedAll_node_iff, children_withChildren]
      constructor
      · exact pairwise_set_symbol hs hi ((eraseGo_keep_fields hgo).1)
      · intro d hd
        rcases List.mem_or_eq_of_mem_set hd with hd | rfl
        · exact sortedAll_child hsn hd
        · exact ih (sortedAll_child hsn hmem) hgo
    · rw [sortedAll_node_iff, children_withChildren]
      constructor
      · exact pairwise_eraseIdx hs
      · intro d hd
        have : d ∈ n.children :=
          (List.eraseIdx_sublist n.children i).subset hd
        exact sortedAll_child hsn this

theorem eraseGo_keep_other {V} :
    ∀ {k : List Nat} {n n' : Node V}, sortedAll n = true →
      (∃ m, walk n k = some m ∧ m.is_leaf = true) →
      eraseGo n k = .keep n' →
      ∀ {k' : List Nat}, k' ≠ k →
        (findNode n' k').map Node.val = (findNode n k').map Node.val := by
  intro k
  induction k with
  | nil =>
    intro n n' _ _ hkeep k' hk'
    obtain ⟨rfl, -⟩ := eraseGo_keep_nil hkeep
    rw [findNode_withLeaf hk']
  | cons c rest ih =>
    intro n n' hsn hstored hkeep k' hk'
    have hs : List.Pairwise symLt n.children := sortedAll_pairwise hsn
    obtain ⟨m, hw, hleaf⟩ := hstored
    rw [walk] at hw
    obtain ⟨i, child, hfk, hcase⟩ := eraseGo_keep_cons hkeep
    rw [hfk] at hw
    obtain ⟨hi, hcsym⟩ := find_by_key_some hfk
    obtain ⟨hmem, -⟩ := fbk_mem hfk
    cases k' with
    | nil => rw [findNode, findNode]
    | cons c' rest' =>
      rcases hcase with ⟨child', hgo, rfl⟩ | ⟨hgo, hcond, rfl⟩
      · have hsym' : child'.symbol = child.symbol := (eraseGo_keep_fields hgo).1
        by_cases hcc : c' = c
        · subst hcc
          rw [findNode_step, findNode_step]
          have hset : find_by_key ((n.withChildren (n.children.set i child')).children) c'
              = some (i, child') := by
            rw [children_withChildren]
            exact fbk_set_hit hs hi hcsym (by omega)
          rw [hset, hfk]
          simp only [Option.map]
          have hrr : rest' ≠ rest := by
            intro hcon
            exact hk' (by rw [hcon])
          cases hrest : rest with
          | nil =>
            subst hrest
            obtain ⟨rfl, -⟩ := eraseGo_keep_nil hgo
            have hrne : rest' ≠ [] := hrr
            rw [if_neg (by
              rintro ⟨-, hcon⟩
              exact hrne hcon)]
            rw [if_neg (by
              rintro ⟨-, hcon⟩
              exact hrne hcon)]
            rw [findNode_withLeaf hrne]
          | cons d rest'' =>
            have hlf : child'.is_leaf = child.is_leaf :=
              (eraseGo_keep_fields hgo).2.2 (by rw [hrest]; simp)
            have hvv : child'.val = child.val := (eraseGo_keep_fields hgo).2.1
            by_cases hcondif : child.is_leaf = true ∧ rest' = []
            · rw [if_pos ⟨by rw [hlf]; exact hcondif.1, hcondif.2⟩, if_pos hcondif]
              simp only [Option.map]
              rw [hvv]
            · rw [if_neg (by
                rintro ⟨h1, h2⟩
                exact hcondif ⟨by rw [← hlf]; exact h1, h2⟩), if_neg hcondif]
              exact ih (sortedAll_child hsn hmem) ⟨m, hw, hleaf⟩ hgo hrr
        · rw [findNode_step, findNode_step]
          have hmiss : (find_by_key ((n.withChildren (n.children.set i child')).children) c').map Prod.snd
              = (find_by_key n.children c').map Prod.snd := by
            rw [children_withChildren]
            exact fbk_set_miss hs hi hcsym (by omega) hcc
          rw [hmiss]
      · by_cases hcc : c' = c
        · subst hcc
          rw [findNode_step, findNode_step]
          have hnone : find_by_key ((n.withChildren (n.children.eraseIdx i)).children) c'
              = none := by
            rw [children_withChildren]
            exact fbk_eraseIdx_none hs hi hcsym
          rw [hnone, hfk]
          simp only [Option.map]
          have hrr : rest' ≠ rest := by
            intro hcon
            exact hk' (by rw [hcon])
          rw [if_neg (by
            rintro ⟨h1, h2⟩
            have : ([] : List Nat) = rest := by
              refine eraseGo_det_unique hgo ?_ h1
              rw [walk]
            subst h2
            exact hrr this)]
          cases hres : findNode child rest' with
          | none => rfl
          | some m'' =>
            obtain ⟨-, hw'', hlf''⟩ := findNode_iff.mp hres
            exact absurd (eraseGo_det_unique hgo hw'' hlf'') hrr
        · rw [findNode_step, findNode_step]
          have hmiss : (find_by_key ((n.withChildren (n.children.eraseIdx i)).children) c').map Prod.snd
              = (find_by_key n.children c').map Prod.snd := by
            rw [children_withChildren]
            exact fbk_eraseIdx_miss hs hi hcsym hcc
          rw [hmiss]

theorem erase_keep {V} {M : Nat} {t : trie V} {k : List Nat} {nd : Node V}
    (hwf : WF M t) (hfind : findNode t.top k = some nd)
    (hval : ∀ c ∈ k, c < M) :
    ∃ top', eraseGo t.top k = .keep top' ∧
      t.erase k = (⟨top', t.size - 1⟩, .ok) := by
  obtain ⟨hne, hw, hleaf⟩ := findNode_iff.mp hfind
  cases hgo : eraseGo t.top k with
  | bad => exact absurd hgo (eraseGo_not_bad hw)
  | det =>
    exfalso
    cases k with
    | nil => exact hne rfl
    | cons c rest =>
      obtain ⟨i, child, hfk, -, -, hcs⟩ := eraseGo_det_shape hgo
      obtain ⟨-, hcsym⟩ := find_by_key_some hfk
      obtain ⟨y, hsplit, hysym, -, -⟩ := WF_children_split hwf
      rw [hcs] at hsplit
      have hc : c < M := hval c (by simp)
      simp only [List.dropLast_single, List.nil_append, List.cons.injEq] at hsplit
      rw [hsplit.1] at hcsym
      omega
  | keep top' =>
    refine ⟨top', rfl, ?_⟩
    rw [trie.erase, hgo]

/-! ### Structural induction over nodes -/

theorem Node.strongInd {V} {P : Node V → Prop}
    (h : ∀ s v l cs, (∀ c ∈ cs, P c) → P (.mk s v l cs)) : ∀ n, P n := by
  have key : ∀ (sz : Nat) (n : Node V), nsize n ≤ sz → P n := by
    intro sz
    induction sz with
    | zero =>
      intro n hn
      cases n with
      | mk s v l cs => rw [nsize] at hn; omega
    | succ sz ih =>
      intro n hn
      cases n with
      | mk s v l cs =>
        refine h s v l cs (fun c hc => ih c ?_)
        have h1 := nsize_lt_of_mem hc
        rw [nsize] at hn
        omega
  exact fun n => key (nsize n) n (Nat.le_refl _)

/-! ### Copying is the identity on the functional tree -/

theorem copyNode_id {V} : ∀ n : Node V, copyNode n = n := by
  intro n
  induction n using Node.strongInd with
  | _ s v l cs ih =>
    rw [copyNode]
    congr 1
    induction cs with
    | nil => rw [copyList]
    | cons c cs ihl =>
      rw [copyList]
      rw [ih c (List.mem_cons_self _ _)]
      congr 1
      exact ihl (fun d hd => ih d (List.mem_cons_of_mem _ hd))

/-! ### The flag update `setLeaf` -/

theorem setLeaf_symbol {V} {p : List Nat} {n : Node V} {b : Bool} :
    (setLeaf n p b).symbol = n.symbol := by
  cases p with
  | nil => cases n; rfl
  | cons c rest =>
    rw [setLeaf]
    cases hfk : find_by_key n.children c with
    | none => cases n; rfl
    | some r =>
      obtain ⟨i, child⟩ := r
      cases n
      rfl


theorem walk_withLeaf {V} {n : Node V} {b : Bool} :
    ∀ {k : List Nat}, k ≠ [] → walk (n.withLeaf b) k = walk n k := by
  intro k hk
  cases k with
  | nil => exact absurd rfl hk
  | cons c rest => cases n with | mk s w l cs => rfl

theorem setLeaf_leafCount {V} :
    ∀ {p : List Nat} {n m : Node V} {b : Bool}, walk n p = some m →
      leafCount (setLeaf n p b) + (if m.is_leaf then 1 else 0) =
        leafCount n + (if b then 1 else 0) := by
  intro p
  induction p with
  | nil =>
    intro n m b hw
    rw [walk] at hw
    injection hw with hw
    subst hw
    rw [setLeaf]
    cases n with
    | mk s w l cs =>
      rw [Node.withLeaf, leafCount, leafCount]
      simp only [Node.is_leaf]
      cases l <;> cases b <;> simp <;> omega
  | cons c rest ih =>
    intro n m b hw
    rw [walk] at hw
    rw [setLeaf]
    cases hfk : find_by_key n.children c with
    | none => rw [hfk] at hw; exact absurd hw (by simp)
    | some r =>
      obtain ⟨i, child⟩ := r
      rw [hfk] at hw
      have hrec := ih (n := child) (b := b) hw
      obtain ⟨hi, -⟩ := find_by_key_some hfk
      have hset := leafCountL_set (d := setLeaf child rest b) hi
      cases n with
      | mk s w l cs =>
        simp only [Node.children, Node.withChildren] at *
        rw [leafCount, leafCount]
        omega

theorem walk_setLeaf_extend {V} :
    ∀ {p : List Nat} {sk : List Nat} {n m : Node V} {b : Bool},
      sortedAll n = true → sk ≠ [] →
      walk n (p ++ sk) = some m →
      walk (setLeaf n p b) (p ++ sk) = some m := by
  intro p
  induction p with
  | nil =>
    intro sk n m b _ hsk hw
    rw [List.nil_append] at *
    rw [setLeaf, walk_withLeaf hsk]
    exact hw
  | cons c rest ih =>
    intro sk n m b hsn hsk hw
    have hs : List.Pairwise symLt n.children := sortedAll_pairwise hsn
    rw [List.cons_append, walk] at hw
    rw [setLeaf]
    cases hfk : find_by_key n.children c with
    | none => rw [hfk] at hw; exact absurd hw (by simp)
    | some r =>
      obtain ⟨i, child⟩ := r
      rw [hfk] at hw
      obtain ⟨hi, hcsym⟩ := find_by_key_some hfk
      obtain ⟨hmem, -⟩ := fbk_mem hfk
      rw [List.cons_append, walk]
      have hset : find_by_key ((n.withChildren
          (n.children.set i (setLeaf child rest b))).children) c
          = some (i, setLeaf child rest b) := by
        rw [children_withChildren]
        exact fbk_set_hit hs hi hcsym (by rw [setLeaf_symbol]; exact hcsym)
      rw [hset]
      exact ih (sortedAll_child hsn hmem) hsk hw

theorem setLeaf_sorted {V} :
    ∀ {p : List Nat} {n : Node V} {b : Bool}, sortedAll n = true →
      sortedAll (setLeaf n p b) = true := by
  intro p
  induction p with
  | nil =>
    intro n b hsn
    rw [setLeaf, sortedAll_node_iff, children_withLeaf]
    exact sortedAll_node_iff.mp hsn
  | cons c rest ih =>
    intro n b hsn
    have hs : List.Pairwise symLt n.children := sortedAll_pairwise hsn
    rw [setLeaf]
    cases hfk : find_by_key n.children c with
    | none => exact hsn
    | some r =>
      obtain ⟨i, child⟩ := r
      obtain ⟨hi, hcsym⟩ := find_by_key_some hfk
      obtain ⟨hmem, -⟩ := fbk_mem hfk
      rw [sortedAll_node_iff, children_withChildren]
      constructor
      · exact pairwise_set_symbol hs hi (by rw [setLeaf_symbol])
      · intro d hd
        rcases List.mem_or_eq_of_mem_set hd with hd | rfl
        · exact sortedAll_child hsn hd
        · exact ih (sortedAll_child hsn hmem)

/-! ### Postorder and inorder key lists -/

theorem postKL_append {V} :
    ∀ (l1 l2 : List (Node V)), postKL (l1 ++ l2) = postKL l1 ++ postKL l2 := by
  intro l1 l2
  induction l1 with
  | nil => rw [List.nil_append, postKL, List.nil_append]
  | cons c l1 ih => rw [List.cons_append, postKL, postKL, ih, List.append_assoc]

theorem ordKL_append {V} :
    ∀ (l1 l2 : List (Node V)), ordKL (l1 ++ l2) = ordKL l1 ++ ordKL l2 := by
  intro l1 l2
  induction l1 with
  | nil => rw [List.nil_append, ordKL, List.nil_append]
  | cons c l1 ih => rw [List.cons_append, ordKL, ordKL, ih, List.append_assoc]

theorem mem_postKL {V} {q : List Nat} :
    ∀ {cs : List (Node V)},
      q ∈ postKL cs ↔ ∃ c ∈ cs, ∃ r ∈ postK c, q = c.symbol :: r := by
  intro cs
  induction cs with
  | nil => rw [postKL]; simp
  | cons c cs ih =>
    rw [postKL, List.mem_append, ih, List.mem_map]
    constructor
    · rintro (⟨r, hr, rfl⟩ | ⟨c', hc', r, hr, rfl⟩)
      · exact ⟨c, List.mem_cons_self _ _, r, hr, rfl⟩
      · exact ⟨c', List.mem_cons_of_mem _ hc', r, hr, rfl⟩
    · rintro ⟨c', hc', r, hr, rfl⟩
      rcases List.mem_cons.mp hc' with rfl | hc'
      · exact Or.inl ⟨r, hr, rfl⟩
      · exact Or.inr ⟨c', hc', r, hr, rfl⟩

theorem mem_ordKL {V} {q : List Nat} :
    ∀ {cs : List (Node V)},
      q ∈ ordKL cs ↔ ∃ c ∈ cs, ∃ r ∈ ordK c, q = c.symbol :: r := by
  intro cs
  induction cs with
  | nil => rw [ordKL]; simp
  | cons c cs ih =>
    rw [ordKL, List.mem_append, ih, List.mem_map]
    constructor
    · rintro (⟨r, hr, rfl⟩ | ⟨c', hc', r, hr, rfl⟩)
      · exact ⟨c, List.mem_cons_self _ _, r, hr, rfl⟩
      · exact ⟨c', List.mem_cons_of_mem _ hc', r, hr, rfl⟩
    · rintro ⟨c', hc', r, hr, rfl⟩
      rcases List.mem_cons.mp hc' with rfl | hc'
      · exact Or.inl ⟨r, hr, rfl⟩
      · exact Or.inr ⟨c', hc', r, hr, rfl⟩

theorem postKL_elem_ne_nil {V} {q : List Nat} {cs : List (Node V)}
    (h : q ∈ postKL cs) : q ≠ [] := by
  obtain ⟨c, -, r, -, rfl⟩ := mem_postKL.mp h
  simp

theorem noDead_self {V} {n : Node V} (h : noDeadAll n = true) :
    n.is_leaf = true ∨ n.children ≠ [] := by
  have := allN_self (p := fun m => m.is_leaf || !m.children.isEmpty) h
  rcases Bool.or_eq_true .. |>.mp this with h' | h'
  · exact Or.inl h'
  · right
    intro hcon
    rw [hcon] at h'
    simp at h'

theorem postK_ne_nil {V} : ∀ {n : Node V}, noDeadAll n = true → postK n ≠ [] := by
  intro n
  induction n using Node.strongInd with
  | _ s v l cs ih =>
    intro hnd
    rw [postK]
    cases l with
    | true => simp
    | false =>
      rcases noDead_self hnd with h' | h'
      · simp at h'
      · simp only [Node.children] at h'
        cases cs with
        | nil => exact absurd rfl h'
        | cons c cs' =>
          rw [postKL]
          have hc : postK c ≠ [] :=
            ih c (List.mem_cons_self _ _)
              (allN_child hnd (by simp))
          intro hcon
          rw [List.append_assoc] at hcon
          have := List.append_eq_nil.mp hcon
          exact hc (List.map_eq_nil_iff.mp this.1)

theorem postK_perm_ordK {V} : ∀ n : Node V, List.Perm (postK n) (ordK n) := by
  intro n
  induction n using Node.strongInd with
  | _ s v l cs ih =>
    rw [postK, ordK]
    have hlist : List.Perm (postKL cs) (ordKL cs) := by
      clear l
      induction cs with
      | nil => rw [postKL, ordKL]
      | cons c cs' ihl =>
        rw [postKL, ordKL]
        refine List.Perm.append ?_ (ihl (fun d hd => ih d (List.mem_cons_of_mem _ hd)))
        exact (ih c (List.mem_cons_self _ _)).map _
    exact (hlist.append (List.Perm.refl _)).trans (List.perm_append_comm)

theorem postK_length {V} : ∀ n : Node V, (postK n).length = leafCount n := by
  intro n
  induction n using Node.strongInd with
  | _ s v l cs ih =>
    rw [postK, leafCount, List.length_append]
    have hlist : (postKL cs).length = leafCountL cs := by
      induction cs with
      | nil => rw [postKL, leafCountL]; rfl
      | cons c cs' ihl =>
        rw [postKL, leafCountL, List.length_append, List.length_map]
        rw [ih c (List.mem_cons_self _ _)]
        rw [ihl (fun d hd => ih d (List.mem_cons_of_mem _ hd))]
    rw [hlist]
    cases l
    · simp
    · simp
      omega

/-! ### Sortedness of the inorder key list -/

theorem lex_irrefl : ∀ lst : List Nat, ¬ List.Lex (· < ·) lst lst := by
  intro lst
  induction lst with
  | nil => intro h; cases h
  | cons a l ih =>
    intro h
    cases h with
    | cons h => exact ih h
    | rel h => omega

theorem ordKL_pairwise {V} :
    ∀ {cs : List (Node V)}, List.Pairwise symLt cs →
      (∀ c ∈ cs, List.Pairwise (List.Lex (· < ·)) (ordK c)) →
      List.Pairwise (List.Lex (· < ·)) (ordKL cs) := by
  intro cs
  induction cs with
  | nil => intro _ _; rw [ordKL]; exact List.Pairwise.nil
  | cons c cs' ih =>
    intro hpw hall
    rw [ordKL]
    rw [List.pairwise_append]
    refine ⟨?_, ?_, ?_⟩
    · refine List.Pairwise.map _ ?_ (hall c (List.mem_cons_self _ _))
      intro a b hab
      exact List.Lex.cons hab
    · exact ih (List.pairwise_cons.mp hpw).2
        (fun d hd => hall d (List.mem_cons_of_mem _ hd))
    · intro q1 hq1 q2 hq2
      obtain ⟨r1, hr1, rfl⟩ := List.mem_map.mp hq1
      obtain ⟨c2, hc2, r2, hr2, rfl⟩ := mem_ordKL.mp hq2
      have hlt : c.symbol < c2.symbol := (List.pairwise_cons.mp hpw).1 c2 hc2
      exact List.Lex.rel hlt

theorem ordK_pairwise {V} :
    ∀ n : Node V, sortedAll n = true →
      List.Pairwise (List.Lex (· < ·)) (ordK n) := by
  intro n
  induction n using Node.strongInd with
  | _ s v l cs ih =>
    intro hsn
    obtain ⟨hpw, hchild⟩ := sortedAll_node_iff.mp hsn
    simp only [Node.children] at hpw hchild
    rw [ordK]
    rw [List.pairwise_append]
    refine ⟨?_, ?_, ?_⟩
    · cases l <;> simp
    · exact ordKL_pairwise hpw (fun c hc => ih c hc (hchild c hc))
    · intro q1 hq1 q2 hq2
      have hq1' : q1 = [] := by
        cases l with
        | true => simpa using hq1
        | false => simp at hq1
      subst hq1'
      obtain ⟨c2, hc2, r2, hr2, rfl⟩ := mem_ordKL.mp hq2
      exact List.Lex.nil

theorem ordK_nodup {V} {n : Node V} (h : sortedAll n = true) :
    (ordK n).Nodup := by
  refine (ordK_pairwise n h).imp ?_
  intro a b hab
  intro hcon
  subst hcon
  exact lex_irrefl a hab

theorem postK_nodup {V} {n : Node V} (h : sortedAll n = true) :
    (postK n).Nodup :=
  ((postK_perm_ordK n).nodup_iff).mpr (ordK_nodup h)

/-! ### Prefix-free states: postorder equals inorder -/

theorem prefixFree_postK_eq_ordK {V} :
    ∀ n : Node V, prefixFreeB n = true → postK n = ordK n := by
  intro n
  induction n using Node.strongInd with
  | _ s v l cs ih =>
    intro hpf
    have hself := allN_self
      (p := fun m => !m.is_leaf || m.children.isEmpty) hpf
    have hmem : ∀ c ∈ cs, prefixFreeB c = true := by
      intro c hc
      exact allN_child hpf (by simpa using hc)
    have hlist : postKL cs = ordKL cs := by
      clear hself hpf
      induction cs with
      | nil => rw [postKL, ordKL]
      | cons c cs' ihl =>
        rw [postKL, ordKL]
        rw [ih c (List.mem_cons_self _ _) (hmem c (List.mem_cons_self _ _))]
        rw [ihl (fun d hd => ih d (List.mem_cons_of_mem _ hd))
             (fun d hd => hmem d (List.mem_cons_of_mem _ hd))]
    rw [postK, ordK, hlist]
    cases l with
    | false => simp
    | true =>
      simp only [Bool.or_eq_true] at hself
      rcases hself with h' | h'
      · simp [Node.is_leaf] at h'
      · have hnil : cs = [] := by
          simpa [Node.children, List.isEmpty_iff] using h'
        subst hnil
        rw [ordKL]
        simp

/-! ### The descending paths of the iterator and the postorder list -/

theorem minPath_head {V} :
    ∀ n : Node V, noDeadAll n = true →
      ∃ mp, minPath n = some mp ∧ (postK n).head? = some mp := by
  intro n
  induction n using Node.strongInd with
  | _ s v l cs ih =>
    intro hnd
    cases cs with
    | nil =>
      cases l with
      | true =>
        refine ⟨[], ?_, ?_⟩
        · rw [minPath]
        · rw [postK, postKL]
          simp
      | false =>
        rcases noDead_self hnd with h' | h'
        · simp [Node.is_leaf] at h'
        · simp [Node.children] at h'
    | cons c cs' =>
      obtain ⟨mp, hmp, hhead⟩ := ih c (List.mem_cons_self _ _)
        (allN_child hnd (by simp))
      refine ⟨c.symbol :: mp, ?_, ?_⟩
      · rw [minPath, hmp]
        rfl
      · rw [postK, postKL]
        have hne : postK c ≠ [] :=
          postK_ne_nil (allN_child hnd (by simp))
        cases hpk : postK c with
        | nil => exact absurd hpk hne
        | cons q qs =>
          rw [hpk] at hhead
          injection hhead with hhead
          subst hhead
          simp

theorem maxDown_last {V} :
    ∀ n : Node V, noDeadAll n = true →
      ∃ mp, maxDown n = some mp ∧ (postK n).getLast? = some mp := by
  intro n
  induction n using Node.strongInd with
  | _ s v l cs ih =>
    intro hnd
    cases l with
    | true =>
      refine ⟨[], ?_, ?_⟩
      · rw [maxDown]
        simp
      · rw [postK]
        simp [List.getLast?_concat]
    | false =>
      rcases noDead_self hnd with h' | h'
      · simp [Node.is_leaf] at h'
      · simp only [Node.children] at h'
        have hy : cs.getLast? = some (cs.getLast h') :=
          List.getLast?_eq_getLast_of_ne_nil (l := cs) h'
        set y := cs.getLast h' with hydef
        have hymem : y ∈ cs := List.getLast_mem h' 
        obtain ⟨mp, hmp, hlast⟩ := ih y hymem (allN_child hnd (by simpa using hymem))
        refine ⟨y.symbol :: mp, ?_, ?_⟩
        · rw [maxDown]
          simp only [Node.is_leaf, if_neg (by simp : ¬ (false = true)),
            Node.children]
          rw [hy]
          show Option.map (fun q => y.symbol :: q) (maxDown y) = some (y.symbol :: mp)
          rw [hmp]
          rfl
        · rw [postK]
          simp only [if_neg (by simp : ¬ (false = true)), List.append_nil]
          have hsplit : cs = cs.dropLast ++ [y] :=
            (List.dropLast_append_getLast? y hy).symm
          rw [hsplit, postKL_append, postKL, postKL, List.append_nil]
          have hne : postK y ≠ [] := postK_ne_nil (allN_child hnd (by simpa using hymem))
          rw [List.getLast?_append_of_ne_nil _ (by
            intro hcon
            exact hne (List.map_eq_nil_iff.mp hcon))]
          rw [List.getLast?_map]
          rw [hlast]
          rfl

theorem beginPath_eq_minPath {V} :
    ∀ n : Node V, noDeadAll n = true → minPath n = some (beginPath n) := by
  intro n
  induction n using Node.strongInd with
  | _ s v l cs ih =>
    intro hnd
    cases cs with
    | nil =>
      cases l with
      | true => rw [minPath, beginPath]
      | false =>
        rcases noDead_self hnd with h' | h'
        · simp [Node.is_leaf] at h'
        · simp [Node.children] at h'
    | cons c cs' =>
      rw [minPath, beginPath]
      rw [ih c (List.mem_cons_self _ _) (allN_child hnd (by simp))]
      rfl

theorem walk_leaf_iff_mem_postK {V} :
    ∀ {p : List Nat} {n : Node V}, sortedAll n = true →
      ((∃ m, walk n p = some m ∧ m.is_leaf = true) ↔ p ∈ postK n) := by
  intro p
  induction p with
  | nil =>
    intro n hsn
    cases n with
    | mk s v l cs =>
      rw [postK]
      constructor
      · rintro ⟨m, hw, hleaf⟩
        rw [walk] at hw
        injection hw with hw
        rw [← hw] at hleaf
        simp only [Node.is_leaf] at hleaf
        subst hleaf
        simp
      · intro hmem
        rw [List.mem_append] at hmem
        rcases hmem with hmem | hmem
        · exact absurd rfl (postKL_elem_ne_nil hmem)
        · have hl : l = true := by
            cases l with
            | true => rfl
            | false => simp at hmem
          subst hl
          exact ⟨Node.mk s v true cs, rfl, rfl⟩
  | cons c rest ih =>
    intro n hsn
    have hs : List.Pairwise symLt n.children := sortedAll_pairwise hsn
    constructor
    · rintro ⟨m, hw, hleaf⟩
      rw [walk] at hw
      cases hfk : find_by_key n.children c with
      | none => rw [hfk] at hw; exact absurd hw (by simp)
      | some r =>
        obtain ⟨i, child⟩ := r
        rw [hfk] at hw
        obtain ⟨hmem, hsym⟩ := fbk_mem hfk
        have hrest : rest ∈ postK child :=
          (ih (sortedAll_child hsn hmem)).mp ⟨m, hw, hleaf⟩
        cases n with
        | mk s v l cs =>
          rw [postK, List.mem_append]
          left
          rw [mem_postKL]
          exact ⟨child, hmem, rest, hrest, by rw [hsym]⟩
    · intro hmem
      cases n with
      | mk s v l cs =>
        rw [postK, List.mem_append] at hmem
        rcases hmem with hmem | hmem
        · obtain ⟨child, hcmem, r, hr, heq⟩ := mem_postKL.mp hmem
          injection heq with h1 h2
          subst h2
          obtain ⟨i, hfk⟩ := fbk_find hs (by simpa using hcmem) h1.symm
          have hchild : sortedAll child = true :=
            sortedAll_child hsn (by simpa using hcmem)
          obtain ⟨m, hw, hleaf⟩ := (ih hchild).mpr hr
          refine ⟨m, ?_, hleaf⟩
          rw [walk]
          simp only [Node.children] at hfk ⊢
          rw [hfk]
          exact hw
        · have : (c :: rest) = [] := by
            cases l with
            | true => simp at hmem
            | false => simp at hmem
          simp at this

/-! ### The next and previous element of a duplicate-free list -/

theorem nextIn_not_mem {α : Type} [DecidableEq α] :
    ∀ {l : List α} {x : α}, x ∉ l → nextIn l x = none := by
  intro l
  induction l with
  | nil => intro x _; rw [nextIn]
  | cons a rest ih =>
    intro x hx
    rw [nextIn, if_neg (by
      intro hcon
      exact hx (by rw [hcon]; exact List.mem_cons_self _ _))]
    exact ih (fun hcon => hx (List.mem_cons_of_mem _ hcon))

theorem nextIn_mem_of_some {α : Type} [DecidableEq α] :
    ∀ {l : List α} {x q : α}, nextIn l x = some q → x ∈ l := by
  intro l
  induction l with
  | nil => intro x q h; rw [nextIn] at h; exact absurd h (by simp)
  | cons a rest ih =>
    intro x q h
    rw [nextIn] at h
    split at h
    · rename_i heq; rw [heq]; exact List.mem_cons_self _ _
    · exact List.mem_cons_of_mem _ (ih h)

theorem nextIn_append_left {α : Type} [DecidableEq α] :
    ∀ {l1 l2 : List α} {x : α}, x ∉ l1 →
      nextIn (l1 ++ l2) x = nextIn l2 x := by
  intro l1
  induction l1 with
  | nil => intro l2 x _; rw [List.nil_append]
  | cons a rest ih =>
    intro l2 x hx
    rw [List.cons_append, nextIn, if_neg (by
      intro hcon
      exact hx (by rw [hcon]; exact List.mem_cons_self _ _))]
    exact ih (fun hcon => hx (List.mem_cons_of_mem _ hcon))

theorem nextIn_append_mem {α : Type} [DecidableEq α] :
    ∀ {l1 l2 : List α} {x : α}, x ∈ l1 →
      nextIn (l1 ++ l2) x =
        (match nextIn l1 x with
          | some q => some q
          | none => l2.head?) := by
  intro l1
  induction l1 with
  | nil => intro l2 x hx; exact absurd hx (by simp)
  | cons a rest ih =>
    intro l2 x hx
    rw [List.cons_append, nextIn, nextIn]
    by_cases hax : a = x
    · rw [if_pos hax, if_pos hax]
      cases rest with
      | nil => rw [List.nil_append]; rfl
      | cons b rest' => rw [List.cons_append]; rfl
    · rw [if_neg hax, if_neg hax]
      have hx' : x ∈ rest := by
        rcases List.mem_cons.mp hx with h | h
        · exact absurd h.symm hax
        · exact h
      exact ih hx'

theorem nextIn_map {α β : Type} [DecidableEq α] [DecidableEq β]
    {f : α → β} (hf : Function.Injective f) :
    ∀ {l : List α} {x : α},
      nextIn (l.map f) (f x) = (nextIn l x).map f := by
  intro l
  induction l with
  | nil => intro x; rw [List.map_nil, nextIn, nextIn]; rfl
  | cons a rest ih =>
    intro x
    rw [List.map_cons, nextIn, nextIn]
    by_cases hax : a = x
    · rw [if_pos (by rw [hax]), if_pos hax, List.head?_map]
    · rw [if_neg (fun hcon => hax (hf hcon)), if_neg hax]
      exact ih

theorem prevIn_not_mem {α : Type} [DecidableEq α] :
    ∀ {l : List α} {x : α}, x ∉ l → prevIn l x = none := by
  intro l
  induction l with
  | nil => intro x _; rw [prevIn]
  | cons a rest ih =>
    intro x hx
    rw [prevIn, if_neg (by
      intro hcon
      exact hx (by rw [hcon]; exact List.mem_cons_self _ _))]
    rw [if_neg (by
      intro hcon
      have := List.mem_of_mem_head? hcon
      exact hx (List.mem_cons_of_mem _ this))]
    exact ih (fun hcon => hx (List.mem_cons_of_mem _ hcon))

theorem prevIn_head {α : Type} [DecidableEq α] {l : List α} {x : α}
    (h : l.head? = some x) : prevIn l x = none := by
  cases l with
  | nil => simp at h
  | cons a rest =>
    injection h with h
    rw [prevIn, if_pos h]

theorem prevIn_append_right {α : Type} [DecidableEq α] :
    ∀ {l1 l2 : List α} {x : α}, x ∈ l1 →
      prevIn (l1 ++ l2) x = prevIn l1 x := by
  intro l1
  induction l1 with
  | nil => intro l2 x hx; exact absurd hx (by simp)
  | cons a rest ih =>
    intro l2 x hx
    rw [List.cons_append, prevIn, prevIn]
    by_cases hax : a = x
    · rw [if_pos hax, if_pos hax]
    · rw [if_neg hax, if_neg hax]
      have hx' : x ∈ rest := by
        rcases List.mem_cons.mp hx with h | h
        · exact absurd h.symm hax
        · exact h
      cases rest with
      | nil => exact absurd hx' (by simp)
      | cons b rest' =>
        rw [List.cons_append]
        by_cases hbx : b = x
        · rw [List.head?_cons, List.head?_cons,
            if_pos (by rw [hbx]), if_pos (by rw [hbx])]
        · rw [List.head?_cons, List.head?_cons,
            if_neg (by intro hcon; injection hcon with hcon; exact hbx hcon),
            if_neg (by intro hcon; injection hcon with hcon; exact hbx hcon)]
          have : x ∈ b :: rest' := hx'
          exact ih this

theorem prevIn_append_left {α : Type} [DecidableEq α] :
    ∀ {l1 l2 : List α} {x : α}, x ∉ l1 → l2.head? = some x →
      prevIn (l1 ++ l2) x = l1.getLast? := by
  intro l1
  induction l1 with
  | nil =>
    intro l2 x _ hhead
    rw [List.nil_append, prevIn_head hhead]
    rfl
  | cons a rest ih =>
    intro l2 x hx hhead
    rw [List.cons_append, prevIn]
    rw [if_neg (by
      intro hcon
      exact hx (by rw [hcon]; exact List.mem_cons_self _ _))]
    have hxrest : x ∉ rest := fun hcon => hx (List.mem_cons_of_mem _ hcon)
    cases rest with
    | nil =>
      rw [List.nil_append, if_pos hhead]
      rfl
    | cons b rest' =>
      rw [List.cons_append, List.head?_cons]
      rw [if_neg (by
        intro hcon
        injection hcon with hcon
        exact hx (by rw [hcon]; exact List.mem_cons_of_mem _ (List.mem_cons_self _ _)))]
      rw [← List.cons_append, ih hxrest hhead]
      rw [List.getLast?_cons_cons]

theorem prevIn_append_none {α : Type} [DecidableEq α] :
    ∀ {l1 l2 : List α} {x : α}, x ∉ l1 → l2.head? ≠ some x →
      prevIn (l1 ++ l2) x = prevIn l2 x := by
  intro l1
  induction l1 with
  | nil => intro l2 x _ _; rw [List.nil_append]
  | cons a rest ih =>
    intro l2 x hx hhead
    rw [List.cons_append, prevIn]
    rw [if_neg (by
      intro hcon
      exact hx (by rw [hcon]; exact List.mem_cons_self _ _))]
    have hxrest : x ∉ rest := fun hcon => hx (List.mem_cons_of_mem _ hcon)
    cases rest with
    | nil =>
      rw [List.nil_append, if_neg hhead]
    | cons b rest' =>
      rw [List.cons_append, List.head?_cons]
      rw [if_neg (by
        intro hcon
        injection hcon with hcon
        exact hx (by rw [hcon]; exact List.mem_cons_of_mem _ (List.mem_cons_self _ _)))]
      exact ih hxrest hhead

theorem prevIn_map {α β : Type} [DecidableEq α] [DecidableEq β]
    {f : α → β} (hf : Function.Injective f) :
    ∀ {l : List α} {x : α},
      prevIn (l.map f) (f x) = (prevIn l x).map f := by
  intro l
  induction l with
  | nil => intro x; rw [List.map_nil, prevIn, prevIn]; rfl
  | cons a rest ih =>
    intro x
    rw [List.map_cons, prevIn, prevIn]
    by_cases hax : a = x
    · rw [if_pos (by rw [hax]), if_pos hax]
      rfl
    · rw [if_neg (fun hcon => hax (hf hcon)), if_neg hax]
      by_cases hhead : rest.head? = some x
      · rw [if_pos (by rw [List.head?_map, hhead]; rfl), if_pos hhead]
        rfl
      · rw [if_neg (by
          rw [List.head?_map]
          intro hcon
          cases hres : rest.head? with
          | none =>
            rw [hres] at hcon
            exact Option.noConfusion hcon
          | some b =>
            rw [hres] at hcon
            have hcon' : some (f b) = some (f x) := hcon
            injection hcon' with hcon'
            exact hhead (by rw [hres, hf hcon'])), if_neg hhead]
        exact ih

/-! ### The successor climb follows the postorder key list -/

theorem postK_eq {V} (n : Node V) :
    postK n = postKL n.children ++ (if n.is_leaf then [[]] else []) := by
  cases n
  rw [postK]
  rfl

theorem cons_injective {a : Nat} :
    Function.Injective (fun q : List Nat => a :: q) := by
  intro q1 q2 h
  injection h

theorem nil_mem_postK_leaf {V} {n : Node V} (h : ([] : List Nat) ∈ postK n) :
    n.is_leaf = true := by
  rw [postK_eq, List.mem_append] at h
  rcases h with h | h
  · exact absurd rfl (postKL_elem_ne_nil h)
  · cases hl : n.is_leaf with
    | true => rfl
    | false => rw [hl] at h; simp at h

theorem succGo_spec {V} :
    ∀ {p : List Nat} {n : Node V}, sortedAll n = true → noDeadAll n = true →
      p ∈ postK n →
      succGo n p =
        (match nextIn (postKL n.children) p with
          | some q => StepRes.found q
          | none => StepRes.climb) := by
  intro p
  induction p with
  | nil =>
    intro n _ _ _
    rw [succGo, nextIn_not_mem (l := postKL n.children)
      (fun hcon => postKL_elem_ne_nil hcon rfl)]
  | cons c rest ih =>
    intro n hsn hnd hpmem
    have hs : List.Pairwise symLt n.children := sortedAll_pairwise hsn
    have hp' : c :: rest ∈ postKL n.children := by
      rw [postK_eq, List.mem_append] at hpmem
      rcases hpmem with h | h
      · exact h
      · exfalso
        cases hl : n.is_leaf with
        | true => rw [hl] at h; simp at h
        | false => rw [hl] at h; simp at h
    obtain ⟨child, hcmem, r0, hr0, heq0⟩ := mem_postKL.mp hp'
    injection heq0 with hsym0 hrest0
    subst hrest0
    subst hsym0
    obtain ⟨i, hfk⟩ := fbk_find hs hcmem rfl
    obtain ⟨hi, -⟩ := find_by_key_some hfk
    have hcs : sortedAll child = true := sortedAll_child hsn hcmem
    have hcd : noDeadAll child = true := allN_child hnd hcmem
    have hsplit := split_at_getElem hi
    have hN : postKL n.children =
        postKL (n.children.take i) ++
          ((postK child).map (fun q => child.symbol :: q) ++
            postKL (n.children.drop (i + 1))) := by
      conv_lhs => rw [hsplit]
      rw [postKL_append, postKL]
    have hnotA : (child.symbol :: rest) ∉ postKL (n.children.take i) := by
      intro hcon
      obtain ⟨c', hc', r', -, heq'⟩ := mem_postKL.mp hcon
      injection heq' with h1 h2
      exact other_symbols_ne hs hi c' (Or.inl hc') h1.symm
    have hinB : (child.symbol :: rest) ∈
        (postK child).map (fun q => child.symbol :: q) := by
      rw [List.mem_map]
      exact ⟨rest, hr0, rfl⟩
    conv_rhs =>
      rw [hN, nextIn_append_left hnotA, nextIn_append_mem hinB,
        nextIn_map cons_injective]
    cases hinner : nextIn (postKL child.children) rest with
    | some q' =>
      have hrmem : rest ∈ postKL child.children := nextIn_mem_of_some hinner
      have hpk : nextIn (postK child) rest = some q' := by
        rw [postK_eq, nextIn_append_mem hrmem, hinner]
      have hgo : succGo child rest = .found q' := by
        rw [ih hcs hcd hr0, hinner]
      rw [succGo]
      simp only [hfk, hgo, hpk]
      rfl
    | none =>
      have hgo : succGo child rest = .climb := by
        rw [ih hcs hcd hr0, hinner]
      by_cases hlc : rest ≠ [] ∧ child.is_leaf = true
      · have hrmem : rest ∈ postKL child.children := by
          rw [postK_eq, List.mem_append] at hr0
          rcases hr0 with h | h
          · exact h
          · exfalso
            cases hl : child.is_leaf with
            | true => rw [hl] at h; simp at h; exact hlc.1 h
            | false => rw [hl] at h; simp at h
        have hpk : nextIn (postK child) rest = some [] := by
          rw [postK_eq, nextIn_append_mem hrmem, hinner, hlc.2]
          rfl
        rw [succGo]
        simp only [hfk, hgo, hpk, if_pos hlc]
        rfl
      · have hpk : nextIn (postK child) rest = none := by
          by_cases hre : rest = []
          · subst hre
            have hlf : child.is_leaf = true := nil_mem_postK_leaf hr0
            rw [postK_eq,
              nextIn_append_left (fun hcon => postKL_elem_ne_nil hcon rfl), hlf]
            simp [nextIn]
          · have hlf : child.is_leaf = false := by
              cases hl : child.is_leaf with
              | true => exact absurd ⟨hre, hl⟩ hlc
              | false => rfl
            rw [postK_eq, hlf]
            simp only [if_neg (by simp : ¬ (false = true)), List.append_nil]
            exact hinner
        rw [hpk]
        simp only [Option.map]
        have hfk2 : find_by_key n.children child.symbol = some (i, child) := by
          obtain ⟨j, hj⟩ := fbk_find hs hcmem rfl
          have hji : j = i :=
            find_by_key_unique hs (find_by_key_some hj).1 hi rfl
          rw [← hji]
          exact hj
        cases hy : n.children[i + 1]? with
        | none =>
          have hdrop : n.children.drop (i + 1) = [] := by
            have := List.getElem?_eq_none_iff.mp hy
            exact List.drop_eq_nil_of_le this
          rw [hdrop]
          rw [postKL]
          rw [succGo]
          simp only [hfk, hgo, if_neg hlc]
          by_cases hlen : n.children.length > 1
          · simp only [if_pos hlen, hfk2, hy]
            rfl
          · simp only [if_neg hlen]
            rfl
        | some y =>
          have hymem : y ∈ n.children := List.getElem?_mem hy
          have hyd : noDeadAll y = true := allN_child hnd hymem
          obtain ⟨mp, hmp, hhead⟩ := minPath_head y hyd
          have hdrop : n.children.drop (i + 1) = y :: n.children.drop (i + 2) := by
            have hlt : i + 1 < n.children.length :=
              (List.getElem?_eq_some.mp hy).1
            rw [List.drop_eq_getElem_cons hlt]
            have := (List.getElem?_eq_some.mp hy).2
            rw [this]
          have hlen : n.children.length > 1 := by
            have := (List.getElem?_eq_some.mp hy).1
            omega
          rw [hdrop, postKL]
          cases hpky : postK y with
          | nil => exact absurd hpky (postK_ne_nil hyd)
          | cons q0 qs =>
            rw [hpky] at hhead
            injection hhead with hhead
            subst hhead
            rw [succGo]
            simp only [hfk, hgo, if_neg hlc, if_pos hlen, hfk2, hy, hmp]
            rfl

/-! ### Helpers for the predecessor climb -/

theorem prevIn_mem_of_some {α : Type} [DecidableEq α] :
    ∀ {l : List α} {x q : α}, prevIn l x = some q → x ∈ l := by
  intro l
  induction l with
  | nil => intro x q h; rw [prevIn] at h; exact absurd h (by simp)
  | cons a rest ih =>
    intro x q h
    rw [prevIn] at h
    split at h
    · exact absurd h (by simp)
    · split at h
      · rename_i hhead
        exact List.mem_cons_of_mem _ (List.mem_of_mem_head? hhead)
      · exact List.mem_cons_of_mem _ (ih h)

theorem prevIn_none_mem_head {α : Type} [DecidableEq α] :
    ∀ {l : List α} {x : α}, x ∈ l → prevIn l x = none → l.head? = some x := by
  intro l
  induction l with
  | nil => intro x hx _; exact absurd hx (by simp)
  | cons a rest ih =>
    intro x hx h
    rw [prevIn] at h
    split at h
    · rename_i heq; rw [List.head?_cons, heq]
    · split at h
      · exact absurd h (by simp)
      · rename_i hax hhead
        have hx' : x ∈ rest := by
          rcases List.mem_cons.mp hx with h' | h'
          · exact absurd h'.symm hax
          · exact h'
        exact absurd (ih hx' h) hhead

theorem postKL_ne_nil {V} {cs : List (Node V)} (hne : cs ≠ [])
    (hnd : ∀ c ∈ cs, noDeadAll c = true) : postKL cs ≠ [] := by
  cases cs with
  | nil => exact absurd rfl hne
  | cons c cs' =>
    rw [postKL]
    intro hcon
    have := List.append_eq_nil.mp hcon
    exact postK_ne_nil (hnd c (List.mem_cons_self _ _))
      (List.map_eq_nil_iff.mp this.1)

theorem postKL_getLast {V} {cs : List (Node V)} (hne : cs ≠ [])
    (hnd : ∀ c ∈ cs, noDeadAll c = true) :
    ∃ y mp, cs.getLast? = some y ∧ maxDown y = some mp ∧
      (postKL cs).getLast? = some (y.symbol :: mp) := by
  have hy : cs.getLast? = some (cs.getLast hne) :=
    List.getLast?_eq_getLast_of_ne_nil hne
  set y := cs.getLast hne with hydef
  have hymem : y ∈ cs := List.getLast_mem hne
  obtain ⟨mp, hmp, hlast⟩ := maxDown_last y (hnd y hymem)
  refine ⟨y, mp, hy, hmp, ?_⟩
  have hsplit : cs = cs.dropLast ++ [y] :=
    (List.dropLast_append_getLast? y hy).symm
  conv_lhs => rw [hsplit]
  rw [postKL_append, postKL, postKL, List.append_nil]
  have hpne : postK y ≠ [] := postK_ne_nil (hnd y hymem)
  rw [List.getLast?_append_of_ne_nil _ (by
    intro hcon
    exact hpne (List.map_eq_nil_iff.mp hcon))]
  rw [List.getLast?_map, hlast]
  rfl

theorem head_append_of_ne_nil {α : Type} {l1 l2 : List α} (h : l1 ≠ []) :
    (l1 ++ l2).head? = l1.head? := by
  cases l1 with
  | nil => exact absurd rfl h
  | cons a rest => rw [List.cons_append, List.head?_cons, List.head?_cons]

theorem take_getLast {α : Type} {cs : List α} {i : Nat} (h0 : 0 < i)
    (hlen : i ≤ cs.length) :
    (cs.take i).getLast? = cs[i - 1]? := by
  have hlen' : (cs.take i).length = i := by
    rw [List.length_take]
    omega
  rw [List.getLast?_eq_getElem?, hlen']
  rw [List.getElem?_take]
  rw [if_pos (by omega)]

theorem predGo_spec {V} :
    ∀ {p : List Nat} {n : Node V}, sortedAll n = true → noDeadAll n = true →
      p ∈ postK n → (∃ m, walk n p = some m ∧ m.children = []) →
      predGo n p =
        (match prevIn (postKL n.children) p with
          | some q => StepRes.found q
          | none => StepRes.climb) := by
  intro p
  induction p with
  | nil =>
    intro n _ _ _ _
    rw [predGo, prevIn_not_mem (l := postKL n.children)
      (fun hcon => postKL_elem_ne_nil hcon rfl)]
  | cons c rest ih =>
    intro n hsn hnd hpmem hwchild
    have hs := sortedAll_pairwise hsn
    have hp' : c :: rest ∈ postKL n.children := by
      rw [postK_eq, List.mem_append] at hpmem
      rcases hpmem with h | h
      · exact h
      · exfalso
        cases hl : n.is_leaf with
        | true => rw [hl] at h; simp at h
        | false => rw [hl] at h; simp at h
    obtain ⟨child, hcmem, r0, hr0, heq0⟩ := mem_postKL.mp hp'
    injection heq0 with hsym0 hrest0
    subst hrest0
    subst hsym0
    obtain ⟨i, hfk⟩ := fbk_find hs hcmem rfl
    obtain ⟨hi, -⟩ := find_by_key_some hfk
    have hcs : sortedAll child = true := sortedAll_child hsn hcmem
    have hcd : noDeadAll child = true := allN_child hnd hcmem
    obtain ⟨m, hwm, hmcs⟩ := hwchild
    rw [walk, hfk] at hwm
    have hwc : ∃ m, walk child rest = some m ∧ m.children = [] := ⟨m, hwm, hmcs⟩
    have hsplit := split_at_getElem hi
    have hN : postKL n.children =
        postKL (n.children.take i) ++
          ((postK child).map (fun q => child.symbol :: q) ++
            postKL (n.children.drop (i + 1))) := by
      conv_lhs => rw [hsplit]
      rw [postKL_append, postKL]
    have hnotA : (child.symbol :: rest) ∉ postKL (n.children.take i) := by
      intro hcon
      obtain ⟨c', hc', r', -, heq'⟩ := mem_postKL.mp hcon
      injection heq' with h1 h2
      exact other_symbols_ne hs hi c' (Or.inl hc') h1.symm
    have hinB : (child.symbol :: rest) ∈
        (postK child).map (fun q => child.symbol :: q) := by
      rw [List.mem_map]
      exact ⟨rest, hr0, rfl⟩
    have hBne : (postK child).map (fun q => child.symbol :: q) ≠ [] := by
      intro hcon
      rw [hcon] at hinB
      simp at hinB
    have hfk2 : find_by_key n.children child.symbol = some (i, child) := by
      obtain ⟨j, hj⟩ := fbk_find hs hcmem rfl
      have hji : j = i := find_by_key_unique hs (find_by_key_some hj).1 hi rfl
      rw [← hji]
      exact hj
    cases hinner : prevIn (postKL child.children) rest with
    | some q' =>
      have hrmem : rest ∈ postKL child.children := prevIn_mem_of_some hinner
      have hpk : prevIn (postK child) rest = some q' := by
        rw [postK_eq, prevIn_append_right hrmem]
        exact hinner
      have hBval : prevIn ((postK child).map (fun q => child.symbol :: q))
          (child.symbol :: rest) = some (child.symbol :: q') := by
        rw [show (child.symbol :: rest) = (fun q => child.symbol :: q) rest from rfl,
          prevIn_map cons_injective, hpk]
        rfl
      have hheadne : (((postK child).map (fun q => child.symbol :: q)) ++
          postKL (n.children.drop (i + 1))).head? ≠
            some (child.symbol :: rest) := by
        rw [head_append_of_ne_nil hBne]
        intro hcon
        rw [prevIn_head hcon] at hBval
        exact absurd hBval (by simp)
      conv_rhs =>
        rw [hN, prevIn_append_none hnotA hheadne,
          prevIn_append_right hinB, hBval]
      have hgo : predGo child rest = .found q' := by
        rw [ih hcs hcd hr0 hwc, hinner]
      rw [predGo]
      simp only [hfk, hgo]
    | none =>
      have hgo : predGo child rest = .climb := by
        rw [ih hcs hcd hr0 hwc, hinner]
      have hheadB : ((postK child).map (fun q => child.symbol :: q)).head?
          = some (child.symbol :: rest) := by
        by_cases hre : rest = []
        · subst hre
          have hceq : child = m := by
            have h' : some child = some m := hwm
            injection h'
          have hccs : child.children = [] := by
            rw [hceq]
            exact hmcs
          have hleaf : child.is_leaf = true := nil_mem_postK_leaf hr0
          rw [postK_eq, hccs, postKL, hleaf]
          rfl
        · have hrmem : rest ∈ postKL child.children := by
            rw [postK_eq, List.mem_append] at hr0
            rcases hr0 with h | h
            · exact h
            · exfalso
              cases hl : child.is_leaf with
              | true => rw [hl] at h; simp at h; exact hre h
              | false => rw [hl] at h; simp at h
          have hpne : postKL child.children ≠ [] := by
            intro hcon
            rw [hcon] at hrmem
            simp at hrmem
          have hheadp : (postKL child.children).head? = some rest :=
            prevIn_none_mem_head hrmem hinner
          have hpkh : (postK child).head? = some rest := by
            rw [postK_eq, head_append_of_ne_nil hpne]
            exact hheadp
          rw [List.head?_map, hpkh]
          rfl
      have hheadBC : (((postK child).map (fun q => child.symbol :: q)) ++
          postKL (n.children.drop (i + 1))).head? =
            some (child.symbol :: rest) := by
        rw [head_append_of_ne_nil hBne]
        exact hheadB
      conv_rhs => rw [hN, prevIn_append_left hnotA hheadBC]
      rw [predGo]
      simp only [hfk, hgo]
      by_cases hi0 : i = 0
      · subst hi0
        by_cases hlen : n.children.length > 1
        · rw [if_pos hlen]
          simp only [hfk2]
          rfl
        · rw [if_neg hlen]
          rfl
      · have hilen : i < n.children.length := by
          by_contra hc
          rw [List.getElem?_eq_none (by omega)] at hi
          exact absurd hi (by simp)
        have hlen : n.children.length > 1 := by omega
        have htne : n.children.take i ≠ [] := by
          intro hcon
          have hl := congrArg List.length hcon
          rw [List.length_take] at hl
          simp only [List.length_nil] at hl
          omega
        obtain ⟨y, mp, hylast, hymd, hplast⟩ :=
          postKL_getLast htne
            (fun c' hc' => allN_child hnd (List.take_subset _ _ hc'))
        have hgetl : n.children[i - 1]? = some y := by
          rw [← take_getLast (Nat.pos_of_ne_zero hi0) (le_of_lt hilen)]
          exact hylast
        rw [hplast]
        rw [if_pos hlen]
        simp only [hfk2, if_neg hi0, hgetl, hymd]

theorem nextIn_eq_getElem {α : Type} [DecidableEq α] :
    ∀ {l : List α} {j : Nat} {x : α}, l.Nodup → l[j]? = some x →
      nextIn l x = l[j + 1]? := by
  intro l
  induction l with
  | nil => intro j x _ hj; simp at hj
  | cons a rest ih =>
    intro j x hnd hj
    rw [nextIn]
    cases j with
    | zero =>
      rw [List.getElem?_cons_zero] at hj
      injection hj with hj
      rw [if_pos hj, List.getElem?_cons_succ]
      exact List.head?_eq_getElem? rest
    | succ j' =>
      rw [List.getElem?_cons_succ] at hj
      have hxmem : x ∈ rest := List.getElem?_mem hj
      have hax : a ≠ x := fun hcon =>
        (List.nodup_cons.mp hnd).1 (hcon ▸ hxmem)
      rw [if_neg hax, List.getElem?_cons_succ]
      exact ih (List.nodup_cons.mp hnd).2 hj

theorem prevIn_eq_getElem {α : Type} [DecidableEq α] :
    ∀ {l : List α} {j : Nat} {x : α}, l.Nodup → l[j + 1]? = some x →
      prevIn l x = l[j]? := by
  intro l
  induction l with
  | nil => intro j x _ hj; simp at hj
  | cons a rest ih =>
    intro j x hnd hj
    rw [List.getElem?_cons_succ] at hj
    have hxmem : x ∈ rest := List.getElem?_mem hj
    have hax : a ≠ x := fun hcon =>
      (List.nodup_cons.mp hnd).1 (hcon ▸ hxmem)
    have hrnd := (List.nodup_cons.mp hnd).2
    rw [prevIn, if_neg hax]
    cases j with
    | zero =>
      rw [if_pos (by rw [List.head?_eq_getElem?]; exact hj)]
      rw [List.getElem?_cons_zero]
    | succ j' =>
      rw [if_neg (by
        intro hcon
        cases rest with
        | nil => simp at hcon
        | cons b rr =>
          injection hcon with hcon
          subst hcon
          rw [List.getElem?_cons_succ] at hj
          exact (List.nodup_cons.mp hrnd).1 (List.getElem?_mem hj))]
      rw [List.getElem?_cons_succ]
      exact ih hrnd hj

theorem nextIn_none_mem_last {α : Type} [DecidableEq α] :
    ∀ {l : List α} {x : α}, x ∈ l → nextIn l x = none → l.getLast? = some x := by
  intro l
  induction l with
  | nil => intro x hx _; simp at hx
  | cons a rest ih =>
    intro x hx h
    rw [nextIn] at h
    split at h
    · rename_i hax
      cases rest with
      | nil => rw [List.getLast?_singleton, hax]
      | cons b rr => simp at h
    · rename_i hax
      have hx' : x ∈ rest := by
        rcases List.mem_cons.mp hx with h' | h'
        · exact absurd h'.symm hax
        · exact h'
      have hr : rest.getLast? = some x := ih hx' h
      cases rest with
      | nil => simp at hx'
      | cons b rr => rw [List.getLast?_cons_cons]; exact hr

theorem postK_top_eq_travList {V} {t : trie V} (h : t.top.is_leaf = false) :
    postK t.top = travList t := by
  rw [postK_eq, h, travList]
  simp

theorem endIt_eq {V} {M : Nat} {t : trie V} (h : WF M t) : t.endIt = [M] := by
  obtain ⟨y, hgl, hsym, -, -⟩ := WF_sentinel h
  rw [trie.endIt]
  simp only [hgl]
  rw [hsym]

theorem travList_getLast {V} {M : Nat} {t : trie V} (h : WF M t) :
    (travList t).getLast? = some [M] := by
  obtain ⟨y, hgl, hsym, hleaf, -⟩ := WF_sentinel h
  have hnd := (WF_parts h).2.2.2.2
  have hne : t.top.children ≠ [] := by
    intro hcon
    rw [hcon] at hgl
    simp at hgl
  obtain ⟨y', mp, hgl', hmd, hlast⟩ := postKL_getLast hne
    (fun c hc => allN_child hnd hc)
  rw [hgl] at hgl'
  injection hgl' with hy'
  subst hy'
  have hmdy : maxDown y = some [] := by
    rw [maxDown]
    rw [if_pos hleaf]
  rw [hmdy] at hmd
  injection hmd with hmp
  rw [travList, hlast, ← hmp, hsym]

theorem travList_nodup {V} {M : Nat} {t : trie V} (h : WF M t) :
    (travList t).Nodup := by
  have hs := (WF_parts h).1
  have hleaf := (WF_parts h).2.1
  have hnp := postK_nodup hs
  rw [postK_top_eq_travList hleaf] at hnp
  exact hnp

theorem travList_ne_nil {V} {M : Nat} {t : trie V} (h : WF M t) :
    travList t ≠ [] := by
  have hl := travList_getLast h
  intro hcon
  rw [hcon] at hl
  simp at hl

theorem belowAll_walk {V} {M : Nat} {n m : Node V} {p : List Nat}
    (hb : belowAll M n = true) (hw : walk n p = some m) : m.symbol < M := by
  have h := allN_self (p := fun m => decide (m.symbol < M)) (allN_walk hb hw)
  exact of_decide_eq_true h

theorem prev_of_own_entry {V} :
    ∀ {p : List Nat} {n m : Node V}, sortedAll n = true → noDeadAll n = true →
      p ∈ postK n → walk n p = some m → m.children ≠ [] →
      ∃ y mp, m.children.getLast? = some y ∧ maxDown y = some mp ∧
        prevIn (postK n) p = some (p ++ y.symbol :: mp) := by
  intro p
  induction p with
  | nil =>
    intro n m _ hnd hpmem hw hmne
    have hnm : n = m := by
      have h' : some n = some m := hw
      injection h'
    subst hnm
    have hleaf : n.is_leaf = true := nil_mem_postK_leaf hpmem
    obtain ⟨y, mp, hgl, hmd, hlast⟩ := postKL_getLast hmne
      (fun c hc => allN_child hnd hc)
    refine ⟨y, mp, hgl, hmd, ?_⟩
    have hpk : postK n = postKL n.children ++ [[]] := by
      rw [postK_eq, hleaf]
      simp
    rw [hpk]
    rw [prevIn_append_left (fun hcon => postKL_elem_ne_nil hcon rfl)
      (show ([[]] : List (List Nat)).head? = some [] from rfl)]
    rw [hlast]
    rfl
  | cons c rest ih =>
    intro n m hsn hnd hpmem hw hmne
    have hs := sortedAll_pairwise hsn
    have hp' : c :: rest ∈ postKL n.children := by
      rw [postK_eq, List.mem_append] at hpmem
      rcases hpmem with h | h
      · exact h
      · exfalso
        cases hl : n.is_leaf with
        | true => rw [hl] at h; simp at h
        | false => rw [hl] at h; simp at h
    obtain ⟨child, hcmem, r0, hr0, heq0⟩ := mem_postKL.mp hp'
    injection heq0 with hsym0 hrest0
    subst hrest0
    subst hsym0
    obtain ⟨i, hfk⟩ := fbk_find hs hcmem rfl
    obtain ⟨hi, -⟩ := find_by_key_some hfk
    rw [walk] at hw
    simp only [hfk] at hw
    have hcs : sortedAll child = true := sortedAll_child hsn hcmem
    have hcd : noDeadAll child = true := allN_child hnd hcmem
    obtain ⟨y, mp, hgl, hmd, hprev⟩ := ih hcs hcd hr0 hw hmne
    refine ⟨y, mp, hgl, hmd, ?_⟩
    have hsplit := split_at_getElem hi
    have hN : postKL n.children =
        postKL (n.children.take i) ++
          ((postK child).map (fun q => child.symbol :: q) ++
            postKL (n.children.drop (i + 1))) := by
      conv_lhs => rw [hsplit]
      rw [postKL_append, postKL]
    have hnotA : (child.symbol :: rest) ∉ postKL (n.children.take i) := by
      intro hcon
      obtain ⟨c', hc', r', -, heq'⟩ := mem_postKL.mp hcon
      injection heq' with h1 h2
      exact other_symbols_ne hs hi c' (Or.inl hc') h1.symm
    have hinB : (child.symbol :: rest) ∈
        (postK child).map (fun q => child.symbol :: q) := by
      rw [List.mem_map]
      exact ⟨rest, hr0, rfl⟩
    have hBne : (postK child).map (fun q => child.symbol :: q) ≠ [] := by
      intro hcon
      rw [hcon] at hinB
      simp at hinB
    have hBval : prevIn ((postK child).map (fun q => child.symbol :: q))
        (child.symbol :: rest) =
          some (child.symbol :: (rest ++ y.symbol :: mp)) := by
      rw [show (child.symbol :: rest) = (fun q => child.symbol :: q) rest from rfl,
        prevIn_map cons_injective, hprev]
      rfl
    have hheadne : (((postK child).map (fun q => child.symbol :: q)) ++
        postKL (n.children.drop (i + 1))).head? ≠
          some (child.symbol :: rest) := by
      rw [head_append_of_ne_nil hBne]
      intro hcon
      rw [prevIn_head hcon] at hBval
      exact absurd hBval (by simp)
    rw [postK_eq]
    rw [prevIn_append_right hp', hN,
      prevIn_append_none hnotA hheadne, prevIn_append_right hinB, hBval]
    rfl

theorem inc_ok {V} {M : Nat} {t : trie V} {p : List Nat} (h : WF M t)
    (hp : p ∈ travList t) (hne : p ≠ [M]) :
    ∃ q, nextIn (travList t) p = some q ∧
      trie.inc M t p = ((t, q), Outcome.ok) := by
  obtain ⟨hs, hleaf, -, hbel, hnd⟩ := WF_parts h
  have hpk : p ∈ postK t.top := by
    rw [postK_top_eq_travList hleaf]
    exact hp
  obtain ⟨m, hw, -⟩ := (walk_leaf_iff_mem_postK hs).mpr hpk
  have hsym : ¬ m.symbol = M := by
    have hp' : p ∈ postKL t.top.children := by
      rw [travList] at hp
      exact hp
    obtain ⟨child, hcmem, r0, hr0, hpe⟩ := mem_postKL.mp hp'
    obtain ⟨yy, hsplit, hysym, hyleaf, hycs⟩ := WF_children_split h
    have hcmem' := hcmem
    rw [hsplit] at hcmem'
    rcases List.mem_append.mp hcmem' with hcd | hcy
    · have hb : belowAll M child = true := hbel child hcd
      subst hpe
      rw [walk] at hw
      obtain ⟨i, hfk⟩ := fbk_find (sortedAll_pairwise hs) hcmem rfl
      simp only [hfk] at hw
      have := belowAll_walk hb hw
      omega
    · have hc : child = yy := by simpa using hcy
      rw [← hc] at hysym hyleaf hycs
      have hpky : postK child = [[]] := by
        rw [postK_eq, hycs, hyleaf]
        rfl
      rw [hpky] at hr0
      simp at hr0
      subst hr0
      exact absurd (by rw [hpe, hysym]) hne
  have hnn : nextIn (travList t) p ≠ none := by
    intro hcon
    have hl := nextIn_none_mem_last hp hcon
    rw [travList_getLast h] at hl
    injection hl with hl
    exact hne hl.symm
  cases hq : nextIn (travList t) p with
  | none => exact absurd hq hnn
  | some q =>
    refine ⟨q, rfl, ?_⟩
    have hsg : succGo t.top p = .found q := by
      rw [succGo_spec hs hnd hpk]
      rw [travList] at hq
      rw [hq]
    rw [trie.inc]
    simp only [hw, hsg]
    rw [if_neg hsym]

theorem inc_at_end {V} {M : Nat} {t : trie V} (h : WF M t) :
    trie.inc M t [M] = ((t, [M]), Outcome.thrown Err.outOfRange) := by
  obtain ⟨hs, -, -, -, -⟩ := WF_parts h
  obtain ⟨y, hgl, hysym, -, -⟩ := WF_sentinel h
  have hne : t.top.children ≠ [] := by
    intro hcon
    rw [hcon] at hgl
    simp at hgl
  have hymem : y ∈ t.top.children := by
    have hg := List.getLast?_eq_getLast_of_ne_nil hne
    rw [hg] at hgl
    injection hgl with hgl
    rw [← hgl]
    exact List.getLast_mem hne
  obtain ⟨i, hfk⟩ := fbk_find (sortedAll_pairwise hs) hymem hysym
  have hwalk : walk t.top [M] = some y := by
    rw [walk]
    simp only [hfk]
    rfl
  rw [trie.inc]
  simp only [hwalk]
  rw [if_pos hysym]

theorem dec_ok {V} {M : Nat} {t : trie V} {p : List Nat} (h : WF M t)
    (hp : p ∈ travList t) :
    trie.dec t p =
      (match prevIn (travList t) p with
        | some q => ((t, q), Outcome.ok)
        | none => ((t, p), Outcome.thrown Err.outOfRange)) := by
  obtain ⟨hs, hleaf, -, -, hnd⟩ := WF_parts h
  have hpk : p ∈ postK t.top := by
    rw [postK_top_eq_travList hleaf]
    exact hp
  obtain ⟨m, hw, -⟩ := (walk_leaf_iff_mem_postK hs).mpr hpk
  rw [trie.dec]
  simp only [hw]
  cases hmc : m.children.getLast? with
  | some y =>
    have hmne : m.children ≠ [] := by
      intro hcon
      rw [hcon] at hmc
      simp at hmc
    obtain ⟨y', mp, hgl, hmd, hprev⟩ := prev_of_own_entry hs hnd hpk hw hmne
    rw [hmc] at hgl
    injection hgl with hy
    subst hy
    simp only [hmd]
    have hptv : prevIn (travList t) p = some (p ++ y.symbol :: mp) := by
      rw [← postK_top_eq_travList hleaf] at *
      exact hprev
    rw [hptv]
  | none =>
    have hmcs : m.children = [] := by
      cases hmcn : m.children with
      | nil => rfl
      | cons a l =>
        rw [hmcn] at hmc
        simp at hmc
    have hpg := predGo_spec hs hnd hpk ⟨m, hw, hmcs⟩
    rw [hpg]
    rw [travList]
    cases prevIn (postKL t.top.children) p <;> rfl

theorem fwdFrom_eq_drop {V} {M : Nat} {t : trie V} (h : WF M t) :
    ∀ (k j : Nat) (p : List Nat) (fuel : Nat),
      (travList t).length = j + k + 1 → (travList t)[j]? = some p →
      k < fuel →
      fwdFrom M t fuel p = ((travList t).drop j).dropLast := by
  intro k
  induction k with
  | zero =>
    intro j p fuel hlen hj hfuel
    have hglast := travList_getLast h
    rw [List.getLast?_eq_getElem?] at hglast
    have hj1 : (travList t).length - 1 = j := by omega
    rw [hj1, hj] at hglast
    injection hglast with hpe
    cases fuel with
    | zero => omega
    | succ f =>
      rw [fwdFrom]
      rw [if_pos (by rw [hpe, endIt_eq h])]
      have hdl0 : ((travList t).drop j).dropLast.length = 0 := by
        rw [List.length_dropLast, List.length_drop]
        omega
      rw [List.length_eq_zero] at hdl0
      rw [hdl0]
  | succ k' ih =>
    intro j p fuel hlen hj hfuel
    have hnd := travList_nodup h
    have hpmem : p ∈ travList t := List.getElem?_mem hj
    have hjlt : j < (travList t).length := by omega
    have hpne : p ≠ [M] := by
      intro hcon
      subst hcon
      have hglast := travList_getLast h
      rw [List.getLast?_eq_getElem?] at hglast
      have hji : j = (travList t).length - 1 :=
        List.getElem?_inj hjlt hnd (by rw [hj, hglast])
      omega
    obtain ⟨q, hq, hinc⟩ := inc_ok h hpmem hpne
    have hq' : (travList t)[j + 1]? = some q := by
      rw [← nextIn_eq_getElem hnd hj]
      exact hq
    cases fuel with
    | zero => omega
    | succ f =>
      rw [fwdFrom]
      rw [if_neg (by rw [endIt_eq h]; exact hpne)]
      simp only [hinc]
      rw [ih (j + 1) q f (by omega) hq' (by omega)]
      have hje : (travList t)[j] = p := by
        rw [List.getElem?_eq_getElem hjlt] at hj
        injection hj
      have hdj : (travList t).drop j = p :: (travList t).drop (j + 1) := by
        rw [List.drop_eq_getElem_cons hjlt, hje]
      have htne : (travList t).drop (j + 1) ≠ [] := by
        intro hcon
        have hl := congrArg List.length hcon
        rw [List.length_drop] at hl
        simp at hl
        omega
      cases hdt : (travList t).drop (j + 1) with
      | nil => exact absurd hdt htne
      | cons a l2 =>
        rw [hdj, hdt, List.dropLast_cons₂]

theorem bwdFrom_eq_take {V} {M : Nat} {t : trie V} (h : WF M t) :
    ∀ (j : Nat) (p : List Nat) (fuel : Nat),
      (travList t)[j]? = some p → j < fuel →
      bwdFrom t fuel p = ((travList t).take j).reverse := by
  intro j
  induction j with
  | zero =>
    intro p fuel hj hfuel
    have hpmem : p ∈ travList t := List.getElem?_mem hj
    have hphead : (travList t).head? = some p := by
      rw [List.head?_eq_getElem?]
      exact hj
    have hprev : prevIn (travList t) p = none := prevIn_head hphead
    have hdec := dec_ok h hpmem
    rw [hprev] at hdec
    cases fuel with
    | zero => omega
    | succ f =>
      rw [bwdFrom]
      simp only [hdec]
      rfl
  | succ j' ih =>
    intro p fuel hj hfuel
    have hnd := travList_nodup h
    have hpmem : p ∈ travList t := List.getElem?_mem hj
    have hprev := prevIn_eq_getElem hnd hj
    have hjlt : j' + 1 < (travList t).length := by
      by_contra hc
      rw [List.getElem?_eq_none (by omega)] at hj
      exact absurd hj (by simp)
    have hj'lt : j' < (travList t).length := by omega
    cases hq : (travList t)[j']? with
    | none =>
      rw [List.getElem?_eq_getElem hj'lt] at hq
      exact absurd hq (by simp)
    | some q =>
      rw [hq] at hprev
      have hdec := dec_ok h hpmem
      rw [hprev] at hdec
      cases fuel with
      | zero => omega
      | succ f =>
        rw [bwdFrom]
        simp only [hdec]
        rw [ih q f hq (by omega)]
        rw [List.take_succ, hq]
        simp

theorem beginIt_getElem {V} {M : Nat} {t : trie V} (h : WF M t) :
    (travList t)[0]? = some t.beginIt := by
  obtain ⟨hs, hleaf, -, -, hnd⟩ := WF_parts h
  rw [trie.beginIt]
  by_cases hA : t.top.children.length = 1
  · rw [if_pos hA]
    obtain ⟨y, hsplit, hysym, hyleaf, hycs⟩ := WF_children_split h
    have hdl0 : t.top.children.dropLast = [] := by
      rw [← List.length_eq_zero, List.length_dropLast, hA]
    rw [hdl0] at hsplit
    rw [List.nil_append] at hsplit
    have hpky : postK y = [[]] := by
      rw [postK_eq, hycs, hyleaf]
      rfl
    have htv : travList t = [[y.symbol]] := by
      rw [travList, hsplit, postKL, postKL, hpky]
      rfl
    rw [htv, endIt_eq h, hysym]
    rfl
  · rw [if_neg hA]
    have hbp : minPath t.top = some (beginPath t.top) := beginPath_eq_minPath _ hnd
    obtain ⟨mp, hmp, hhead⟩ := minPath_head t.top hnd
    rw [hbp] at hmp
    injection hmp with hmp
    rw [postK_top_eq_travList hleaf] at hhead
    rw [List.head?_eq_getElem?] at hhead
    rw [hhead, hmp]

theorem forward_traversal {V} {M : Nat} {t : trie V} (h : WF M t)
    {fuel : Nat} (hfuel : (travList t).length ≤ fuel) :
    fwdFrom M t fuel t.beginIt = (travList t).dropLast := by
  have hne := travList_ne_nil h
  have hlen : 0 < (travList t).length := List.length_pos.mpr hne
  have hmain := fwdFrom_eq_drop h ((travList t).length - 1) 0 t.beginIt fuel
    (by omega) (beginIt_getElem h) (by omega)
  rw [List.drop_zero] at hmain
  exact hmain

theorem backward_traversal {V} {M : Nat} {t : trie V} (h : WF M t)
    {fuel : Nat} (hfuel : (travList t).length ≤ fuel) :
    bwdFrom t fuel t.endIt = ((travList t).dropLast).reverse := by
  have hne := travList_ne_nil h
  have hlen : 0 < (travList t).length := List.length_pos.mpr hne
  have hj : (travList t)[(travList t).length - 1]? = some t.endIt := by
    have hgl := travList_getLast h
    rw [List.getLast?_eq_getElem?] at hgl
    rw [hgl, endIt_eq h]
  have hmain := bwdFrom_eq_take h ((travList t).length - 1) t.endIt fuel hj
    (by omega)
  rw [hmain, List.dropLast_eq_take]

theorem leafCount_le_nsize {V} : ∀ n : Node V, leafCount n ≤ nsize n := by
  intro n
  induction n using Node.strongInd with
  | _ s v l cs ih =>
    rw [leafCount, nsize]
    have hl : leafCountL cs ≤ nlsize cs := by
      induction cs with
      | nil => rw [leafCountL, nlsize]
      | cons c cs' ihl =>
        rw [leafCountL, nlsize]
        have h1 := ih c (List.mem_cons_self _ _)
        have h2 := ihl (fun d hd => ih d (List.mem_cons_of_mem _ hd))
        omega
    cases l <;> simp <;> omega

theorem travList_length_le_nsize {V} {t : trie V}
    (hleaf : t.top.is_leaf = false) : (travList t).length ≤ nsize t.top := by
  have h1 := postK_length t.top
  rw [postK_top_eq_travList hleaf] at h1
  rw [h1]
  exact leafCount_le_nsize t.top

theorem postKL_perm_ordKL {V} :
    ∀ cs : List (Node V), List.Perm (postKL cs) (ordKL cs) := by
  intro cs
  induction cs with
  | nil => rw [postKL, ordKL]
  | cons c cs' ih =>
    rw [postKL, ordKL]
    exact List.Perm.append ((postK_perm_ordK c).map _) ih

theorem postKL_len_pairwise {V} :
    ∀ {cs : List (Node V)}, List.Pairwise symLt cs →
      (∀ c ∈ cs, List.Pairwise
        (fun p q => p.length = q.length → List.Lex (· < ·) p q) (postK c)) →
      List.Pairwise (fun p q => p.length = q.length → List.Lex (· < ·) p q)
        (postKL cs) := by
  intro cs
  induction cs with
  | nil => intro _ _; rw [postKL]; exact List.Pairwise.nil
  | cons c cs' ih =>
    intro hpw hall
    rw [postKL, List.pairwise_append]
    refine ⟨?_, ?_, ?_⟩
    · refine List.Pairwise.map _ ?_ (hall c (List.mem_cons_self _ _))
      intro a b hab hlen
      exact List.Lex.cons (hab (by simpa using hlen))
    · exact ih (List.pairwise_cons.mp hpw).2
        (fun d hd => hall d (List.mem_cons_of_mem _ hd))
    · intro q1 hq1 q2 hq2 _
      obtain ⟨r1, hr1, rfl⟩ := List.mem_map.mp hq1
      obtain ⟨c2, hc2, r2, hr2, rfl⟩ := mem_postKL.mp hq2
      exact List.Lex.rel ((List.pairwise_cons.mp hpw).1 c2 hc2)

theorem postK_len_pairwise {V} :
    ∀ n : Node V, sortedAll n = true →
      List.Pairwise (fun p q => p.length = q.length → List.Lex (· < ·) p q)
        (postK n) := by
  intro n
  induction n using Node.strongInd with
  | _ s v l cs ih =>
    intro hsn
    obtain ⟨hpw, hchild⟩ := sortedAll_node_iff.mp hsn
    simp only [Node.children] at hpw hchild
    rw [postK, List.pairwise_append]
    refine ⟨?_, ?_, ?_⟩
    · exact postKL_len_pairwise hpw (fun c hc => ih c hc (hchild c hc))
    · cases l <;> simp
    · intro q1 hq1 q2 hq2 hlen
      have hq2' : q2 = [] := by
        cases l with
        | true => simpa using hq2
        | false => simp at hq2
      subst hq2'
      exact absurd (List.length_eq_zero.mp (by simpa using hlen))
        (postKL_elem_ne_nil hq1)

theorem foldl_longest :
    ∀ (L : List (List Nat)) (al : Nat) (ap : List Nat),
      ((∀ r ∈ L, r.length ≤ al) ∧
        L.foldl (fun acc p => if p.length > acc.1 then (p.length, p) else acc)
          (al, ap) = (al, ap)) ∨
      (∃ l1 q l2, L = l1 ++ q :: l2 ∧
        L.foldl (fun acc p => if p.length > acc.1 then (p.length, p) else acc)
          (al, ap) = (q.length, q) ∧
        al < q.length ∧ (∀ r ∈ l1, r.length < q.length) ∧
        (∀ r ∈ l2, r.length ≤ q.length)) := by
  intro L
  induction L with
  | nil =>
    intro al ap
    left
    exact ⟨by simp, rfl⟩
  | cons p L' ih =>
    intro al ap
    rw [List.foldl_cons]
    by_cases hp : al < p.length
    · have hstep : (if p.length > (al, ap).1 then (p.length, p) else (al, ap))
          = (p.length, p) := if_pos hp
      rw [hstep]
      rcases ih p.length p with ⟨hall, heq⟩ | ⟨l1, q, l2, hsp, heq, hlt, hl1, hl2⟩
      · right
        exact ⟨[], p, L', rfl, heq, hp, by simp, hall⟩
      · right
        refine ⟨p :: l1, q, l2, by rw [hsp]; rfl, heq, by omega, ?_, hl2⟩
        intro r hr
        rcases List.mem_cons.mp hr with hre | hre
        · subst hre; omega
        · exact hl1 r hre
    · have hstep : (if p.length > (al, ap).1 then (p.length, p) else (al, ap))
          = (al, ap) := if_neg hp
      rw [hstep]
      rcases ih al ap with ⟨hall, heq⟩ | ⟨l1, q, l2, hsp, heq, hlt, hl1, hl2⟩
      · left
        refine ⟨?_, heq⟩
        intro r hr
        rcases List.mem_cons.mp hr with hre | hre
        · subst hre; omega
        · exact hall r hre
      · right
        refine ⟨p :: l1, q, l2, by rw [hsp]; rfl, heq, hlt, ?_, hl2⟩
        intro r hr
        rcases List.mem_cons.mp hr with hre | hre
        · subst hre; omega
        · exact hl1 r hre

theorem travList_split {V} {M : Nat} {t : trie V} (h : WF M t) :
    travList t = postKL t.top.children.dropLast ++ [[M]] := by
  obtain ⟨y, hsplit, hysym, hyleaf, hycs⟩ := WF_children_split h
  have hpky : postK y = [[]] := by
    rw [postK_eq, hycs, hyleaf]
    rfl
  have hpkyL : postKL [y] = [[y.symbol]] := by
    rw [postKL, postKL, hpky]
    rfl
  rw [travList]
  conv_lhs => rw [hsplit]
  rw [postKL_append, hpkyL, hysym]

theorem travList_dropLast {V} {M : Nat} {t : trie V} (h : WF M t) :
    (travList t).dropLast = postKL t.top.children.dropLast := by
  rw [travList_split h, List.dropLast_concat]

theorem storedKeys_perm_trav {V} {M : Nat} {t : trie V} (h : WF M t) :
    List.Perm ((travList t).dropLast) (storedKeys t) := by
  rw [travList_dropLast h, storedKeys]
  exact postKL_perm_ordKL _

theorem index_lt_last {α : Type} {cs : List α} {i : Nat} {a y : α} {f : α → Nat}
    (hi : cs[i]? = some a) (hy : cs.getLast? = some y) (hlt : f a < f y) :
    i + 1 < cs.length := by
  have hilt : i < cs.length := by
    by_contra hc
    rw [List.getElem?_eq_none (by omega)] at hi
    exact absurd hi (by simp)
  by_contra hc
  have hieq : i = cs.length - 1 := by omega
  rw [List.getLast?_eq_getElem?, ← hieq, hi] at hy
  injection hy with hy
  subst hy
  omega

theorem getLast?_set_ne_last {α : Type} {cs : List α} {i : Nat} {d : α}
    (hlt : i + 1 < cs.length) :
    (cs.set i d).getLast? = cs.getLast? := by
  rw [List.getLast?_eq_getElem?, List.getLast?_eq_getElem?, List.length_set]
  rw [List.getElem?_set_ne (by omega)]

theorem getLast?_eraseIdx_ne_last {α : Type} {cs : List α} {i : Nat} {a : α}
    (hi : cs[i]? = some a) (hlt : i + 1 < cs.length) :
    (cs.eraseIdx i).getLast? = cs.getLast? := by
  have h1 := eraseIdx_split hi
  have h2 := split_at_getElem hi
  have hdne : cs.drop (i + 1) ≠ [] := by
    intro hcon
    have hlc := congrArg List.length hcon
    rw [List.length_drop] at hlc
    simp at hlc
    omega
  rw [h1, List.getLast?_append_of_ne_nil _ hdne]
  conv_rhs => rw [h2]
  rw [List.getLast?_append_of_ne_nil _
    (by simp : (a :: cs.drop (i + 1) : List α) ≠ [])]
  cases hD : cs.drop (i + 1) with
  | nil => exact absurd hD hdne
  | cons b D2 => rw [List.getLast?_cons_cons]

theorem insertWalk_children_getLast {V} {v : V} {n n' : Node V} {c : Nat}
    {rest : List Nat} {y : Node V}
    (hgl : n.children.getLast? = some y) (hc : c < y.symbol)
    (hok : insertWalk v n (c :: rest) = .ok n') :
    n'.children.getLast? = some y := by
  rw [insertWalk] at hok
  split at hok
  · injection hok with hok
    subst hok
    rw [children_withChildren]
    have hsplit : n.children = n.children.dropLast ++ [y] :=
      (List.dropLast_append_getLast? y hgl).symm
    rw [hsplit, push_child_append_last (by rw [buildChain_symbol]; omega)]
    rw [List.getLast?_concat]
  · rename_i i child hfk
    split at hok
    · exact absurd hok (by simp)
    · rename_i child' hgo
      injection hok with hok
      subst hok
      rw [children_withChildren]
      obtain ⟨hi, hcs⟩ := find_by_key_some hfk
      have hilast : i + 1 < n.children.length :=
        index_lt_last (f := Node.symbol) hi hgl (by rw [hcs]; exact hc)
      rw [getLast?_set_ne_last hilast]
      exact hgl

theorem setLeaf_children_getLast {V} {n : Node V} {c : Nat} {rest : List Nat}
    {b : Bool} {y : Node V}
    (hgl : n.children.getLast? = some y) (hc : c < y.symbol) :
    (setLeaf n (c :: rest) b).children.getLast? = some y := by
  rw [setLeaf]
  cases hfk : find_by_key n.children c with
  | none => exact hgl
  | some r =>
    obtain ⟨i, child⟩ := r
    obtain ⟨hi, hcs⟩ := find_by_key_some hfk
    have hilast : i + 1 < n.children.length :=
      index_lt_last (f := Node.symbol) hi hgl (by rw [hcs]; exact hc)
    rw [children_withChildren, getLast?_set_ne_last hilast]
    exact hgl

theorem eraseGo_children_getLast {V} {n n' : Node V} {c : Nat} {rest : List Nat}
    {y : Node V} (hgl : n.children.getLast? = some y) (hc : c < y.symbol)
    (hkeep : eraseGo n (c :: rest) = .keep n') :
    n'.children.getLast? = some y := by
  obtain ⟨i, child, hfk, hcase⟩ := eraseGo_keep_cons hkeep
  obtain ⟨hi, hcs⟩ := find_by_key_some hfk
  have hilast : i + 1 < n.children.length :=
    index_lt_last (f := Node.symbol) hi hgl (by rw [hcs]; exact hc)
  rcases hcase with ⟨child', hgo, rfl⟩ | ⟨hgo, hcond, rfl⟩
  · rw [children_withChildren, getLast?_set_ne_last hilast]
    exact hgl
  · rw [children_withChildren, getLast?_eraseIdx_ne_last hi hilast]
    exact hgl

theorem copy_eq {V} (t : trie V) : trie.copy t = t := by
  rw [trie.copy, copyNode_id]

theorem sentinelOk_of_getLast {V} {M : Nat} {t : trie V} {y : Node V}
    (hgl : t.top.children.getLast? = some y) (hysym : y.symbol = M)
    (hyleaf : y.is_leaf = true) (hycs : y.children = []) :
    sentinelOk M t = true := by
  rw [sentinelOk, hgl]
  cases y with
  | mk s v l cs =>
    simp only [Node.symbol, Node.is_leaf, Node.children] at hysym hyleaf hycs
    subst hysym
    subst hyleaf
    subst hycs
    simp

theorem leafCount_withChildren {V} {n : Node V} {cs : List (Node V)} :
    leafCount (n.withChildren cs) =
      (if n.is_leaf then 1 else 0) + leafCountL cs := by
  cases n
  rfl

theorem insert_sizeInv {V} {t : trie V} {k : List Nat} {v : V}
    (hinv : sizeInv t) : sizeInv (t.insert k v).1 := by
  cases k with
  | nil => exact hinv
  | cons c rest =>
    rw [insert_eq_walkForm]
    cases hiw : insertWalk v t.top (c :: rest) with
    | error e => exact hinv
    | ok top' =>
      show leafCount top' = (t.size + 1) + 1
      rw [sizeInv] at hinv
      rw [insertWalk_leafCount hiw, hinv]

theorem erase_sizeInv {V} {M : Nat} {t : trie V} {k : List Nat} {d : Node V}
    (h : WF M t) (hinv : sizeInv t) (hfind : trie.find t k = some d)
    (hval : ∀ c ∈ k, c < M) : sizeInv (t.erase k).1 := by
  obtain ⟨top', hgo, herase⟩ := erase_keep h hfind hval
  rw [herase]
  obtain ⟨hne, hw, hleaf⟩ := findNode_iff.mp hfind
  have hlc := eraseGo_keep_leafCount ⟨d, hw, hleaf⟩ hgo
  rw [sizeInv] at hinv
  have hsz : 1 ≤ t.size := by
    have hkmem : k ∈ travList t := by
      rw [← postK_top_eq_travList (WF_parts h).2.1]
      exact (walk_leaf_iff_mem_postK (WF_parts h).1).mp ⟨d, hw, hleaf⟩
    have hMlast := travList_getLast h
    have hMmem : [M] ∈ travList t := by
      rcases List.mem_getLast?_eq_getLast (l := travList t) hMlast with ⟨hne', hgl⟩
      rw [hgl]
      exact List.getLast_mem hne'
    have hkM : k ≠ [M] := by
      intro hcon
      have := hval M (by rw [hcon]; exact List.mem_cons_self _ _)
      omega
    have hlen2 : 2 ≤ (travList t).length := by
      cases htl : travList t with
      | nil => rw [htl] at hkmem; simp at hkmem
      | cons a l2 =>
        cases l2 with
        | nil =>
          rw [htl] at hkmem hMmem
          simp at hkmem hMmem
          exact absurd (by rw [hkmem, hMmem]) hkM
        | cons b l3 =>
          rw [List.length_cons, List.length_cons]
          omega
    have hleq : (travList t).length = leafCount t.top := by
      rw [← postK_top_eq_travList (WF_parts h).2.1, postK_length]
    omega
  show leafCount top' = (t.size - 1) + 1
  omega

theorem clear_sizeInv {V} {M : Nat} {t : trie V} (h : WF M t) :
    sizeInv (trie.clear M t) := by
  have hleaf := (WF_parts h).2.1
  show leafCount (create_end M (t.top.withChildren [])) = 0 + 1
  rw [create_end, leafCount_withChildren, is_leaf_withChildren,
    children_withChildren, hleaf, List.nil_append]
  simp [leafCountL, leafCount, sentinel]

theorem advance_sizeInv {V} {t : trie V} {p sk : List Nat} {n m : Node V}
    (hs : sortedAll t.top = true) (hinv : sizeInv t)
    (hwp : walk t.top p = some n) (hnleaf : n.is_leaf = true)
    (hwm : walk t.top (p ++ sk) = some m) (hmleaf : m.is_leaf = false) :
    sizeInv (t.advance p sk).1.1 := by
  rw [trie.advance]
  split
  · exact hinv
  · rename_i hske
    have hskne : sk ≠ [] := by
      intro hcon
      exact hske (by rw [hcon]; rfl)
    have hwsk : walk n sk = some m := by
      rw [walk_append, hwp] at hwm
      exact hwm
    simp only [hwp, hwsk]
    have h1 := setLeaf_leafCount (b := false) hwp
    rw [hnleaf] at h1
    have h2w := walk_setLeaf_extend (b := false) hs hskne hwm
    have h2 := setLeaf_leafCount (b := true) h2w
    rw [hmleaf] at h2
    rw [sizeInv] at hinv
    show leafCount (setLeaf (setLeaf t.top p false) (p ++ sk) true) = t.size + 1
    simp at h1 h2
    omega

theorem insert_preserves_C8 {V} {M : Nat} {t : trie V} {k : List Nat} {v : V}
    (h : WF M t) (hval : ∀ c ∈ k, c < M) :
    sortedAll ((t.insert k v).1).top = true ∧
      sentinelOk M ((t.insert k v).1) = true := by
  obtain ⟨hs, -, hsent, -, -⟩ := WF_parts h
  cases k with
  | nil => exact ⟨hs, hsent⟩
  | cons c rest =>
    rw [insert_eq_walkForm]
    cases hiw : insertWalk v t.top (c :: rest) with
    | error e => exact ⟨hs, hsent⟩
    | ok top' =>
      constructor
      · exact insertWalk_sorted hs hiw
      · obtain ⟨y, hgl, hysym, hyleaf, hycs⟩ := WF_sentinel h
        have hc : c < y.symbol := by
          have := hval c (List.mem_cons_self _ _)
          omega
        have hgl' := insertWalk_children_getLast hgl hc hiw
        exact sentinelOk_of_getLast (t := ⟨top', t.size + 1⟩) hgl' hysym hyleaf hycs

theorem erase_preserves_C8 {V} {M : Nat} {t : trie V} {k : List Nat}
    {nd : Node V} (h : WF M t) (hfind : trie.find t k = some nd)
    (hval : ∀ c ∈ k, c < M) :
    sortedAll ((t.erase k).1).top = true ∧
      sentinelOk M ((t.erase k).1) = true := by
  obtain ⟨hs, -, -, -, -⟩ := WF_parts h
  obtain ⟨top', hgo, herase⟩ := erase_keep h hfind hval
  rw [herase]
  obtain ⟨hne, hw, hleaf⟩ := findNode_iff.mp hfind
  constructor
  · exact eraseGo_keep_sorted hs hgo
  · cases k with
    | nil => exact absurd rfl hne
    | cons c rest =>
      obtain ⟨y, hgl, hysym, hyleaf, hycs⟩ := WF_sentinel h
      have hc : c < y.symbol := by
        have := hval c (List.mem_cons_self _ _)
        omega
      have hgl' := eraseGo_children_getLast hgl hc hgo
      exact sentinelOk_of_getLast (t := ⟨top', t.size - 1⟩) hgl' hysym hyleaf hycs

theorem clear_preserves_C8 {V} (M : Nat) (t : trie V) :
    sortedAll (trie.clear M t).top = true ∧
      sentinelOk M (trie.clear M t) = true := by
  have hch : (trie.clear M t).top.children = [sentinel V M] := by
    show (create_end M (t.top.withChildren [])).children = [sentinel V M]
    simp only [create_end, children_withChildren, List.nil_append]
  constructor
  · rw [sortedAll_node_iff, hch]
    constructor
    · simp
    · intro c hcm
      have hc : c = sentinel V M := by simpa using hcm
      subst hc
      rfl
  · refine sentinelOk_of_getLast (y := sentinel V M) ?_ rfl rfl rfl
    rw [hch]
    rfl

theorem advance_preserves_C8 {V} {M : Nat} {t : trie V} {p sk : List Nat}
    (h : WF M t) (hval : ∀ c ∈ p, c < M) (hvsk : ∀ c ∈ sk, c < M) :
    sortedAll (((t.advance p sk).1.1).top) = true ∧
      sentinelOk M ((t.advance p sk).1.1) = true := by
  obtain ⟨hs, -, hsent, -, -⟩ := WF_parts h
  by_cases hske : sk.isEmpty = true
  · have hadv : t.advance p sk = ((t, p), Outcome.thrown Err.emptySubkey) := by
      rw [trie.advance, if_pos hske]
    rw [hadv]
    exact ⟨hs, hsent⟩
  · cases hw : walk t.top p with
    | none =>
      have hadv : t.advance p sk = ((t, p), Outcome.ub) := by
        rw [trie.advance, if_neg hske]
        simp only [hw]
      rw [hadv]
      exact ⟨hs, hsent⟩
    | some n =>
      cases hw2 : walk n sk with
      | none =>
        have hadv : t.advance p sk = ((t, p), Outcome.thrown Err.noSuchPath) := by
          rw [trie.advance, if_neg hske]
          simp only [hw, hw2]
        rw [hadv]
        exact ⟨hs, hsent⟩
      | some m =>
        have hadv : t.advance p sk =
            ((⟨setLeaf (setLeaf t.top p false) (p ++ sk) true, t.size⟩,
              p ++ sk), Outcome.ok) := by
          rw [trie.advance, if_neg hske]
          simp only [hw, hw2]
        rw [hadv]
        constructor
        · exact setLeaf_sorted (setLeaf_sorted hs)
        · obtain ⟨y, hgl, hysym, hyleaf, hycs⟩ := WF_sentinel h
          have hgl1 : (setLeaf t.top p false).children.getLast? = some y := by
            cases p with
            | nil =>
              show (t.top.withLeaf false).children.getLast? = some y
              rw [children_withLeaf]
              exact hgl
            | cons c rest =>
              refine setLeaf_children_getLast hgl ?_
              have := hval c (List.mem_cons_self _ _)
              omega
          have hgl2 : (setLeaf (setLeaf t.top p false) (p ++ sk)
              true).children.getLast? = some y := by
            cases hps : p ++ sk with
            | nil =>
              show ((setLeaf t.top p false).withLeaf true).children.getLast?
                = some y
              rw [children_withLeaf]
              exact hgl1
            | cons c rest =>
              refine setLeaf_children_getLast hgl1 ?_
              have hcm : c ∈ p ++ sk := by
                rw [hps]
                exact List.mem_cons_self _ _
              rcases List.mem_append.mp hcm with hc | hc
              · have := hval c hc
                omega
              · have := hvsk c hc
                omega
          exact sentinelOk_of_getLast
            (t := ⟨setLeaf (setLeaf t.top p false) (p ++ sk) true, t.size⟩)
            hgl2 hysym hyleaf hycs

theorem size_pos_of_found {V} {M : Nat} {t : trie V} {k : List Nat}
    {nd : Node V} (h : WF M t) (hinv : sizeInv t)
    (hfind : trie.find t k = some nd) (hval : ∀ c ∈ k, c < M) :
    1 ≤ t.size := by
  obtain ⟨hne, hw, hleaf⟩ := findNode_iff.mp hfind
  rw [sizeInv] at hinv
  have hkmem : k ∈ travList t := by
    rw [← postK_top_eq_travList (WF_parts h).2.1]
    exact (walk_leaf_iff_mem_postK (WF_parts h).1).mp ⟨nd, hw, hleaf⟩
  have hMlast := travList_getLast h
  have hMmem : [M] ∈ travList t := by
    rcases List.mem_getLast?_eq_getLast (l := travList t) hMlast with ⟨hne', hgl⟩
    rw [hgl]
    exact List.getLast_mem hne'
  have hkM : k ≠ [M] := by
    intro hcon
    have := hval M (by rw [hcon]; exact List.mem_cons_self _ _)
    omega
  have hlen2 : 2 ≤ (travList t).length := by
    cases htl : travList t with
    | nil => rw [htl] at hkmem; simp at hkmem
    | cons a l2 =>
      cases l2 with
      | nil =>
        rw [htl] at hkmem hMmem
        simp at hkmem hMmem
        exact absurd (by rw [hkmem, hMmem]) hkM
      | cons b l3 =>
        rw [List.length_cons, List.length_cons]
        omega
  have hleq : (travList t).length = leafCount t.top := by
    rw [← postK_top_eq_travList (WF_parts h).2.1, postK_length]
  omega

/-- C1: for a well-formed container, a non-empty key over valid symbols
that is not already stored, and any value, `insert` succeeds, `find` then
yields that value, and `size` grows by exactly one. -/
theorem claim_C1 {V} {M : Nat} {t : trie V} {k : List Nat} {v : V}
    (h : WF M t) (hk : k ≠ []) (hsym : ∀ c ∈ k, c < M)
    (hnot : trie.find t k = none) :
    ∃ t', t.insert k v = (t', Outcome.ok) ∧
      (trie.find t' k).map Node.val = some (some v) ∧
      t'.size = t.size + 1 := by
  obtain ⟨hs, -, -, -, -⟩ := WF_parts h
  cases k with
  | nil => exact absurd rfl hk
  | cons c rest =>
    rw [insert_eq_walkForm]
    cases hiw : insertWalk v t.top (c :: rest) with
    | error e =>
      exfalso
      obtain ⟨-, m, hwm, hml⟩ := insertWalk_error_iff.mp hiw
      have hfn : findNode t.top (c :: rest) = some m :=
        findNode_iff.mpr ⟨by simp, hwm, hml⟩
      have hnot' : findNode t.top (c :: rest) = none := hnot
      rw [hfn] at hnot'
      exact absurd hnot' (by simp)
    | ok top' =>
      refine ⟨⟨top', t.size + 1⟩, rfl, ?_, rfl⟩
      obtain ⟨m, hwm, hml, hv⟩ := insertWalk_ok_walk hs hiw
      have hfn : findNode top' (c :: rest) = some m :=
        findNode_iff.mpr ⟨by simp, hwm, hml⟩
      show (findNode top' (c :: rest)).map Node.val = some (some v)
      rw [hfn]
      show some m.val = some (some v)
      rw [hv]

/-- C3: erasing a stored key (over valid symbols) succeeds: the key is no
longer found, the size drops by exactly one, and every other key keeps its
original lookup result — in particular keys sharing a proper prefix with
the erased key. -/
theorem claim_C3 {V} {M : Nat} {t : trie V} {k : List Nat} {d : Node V}
    (h : WF M t) (hinv : sizeInv t) (hfind : trie.find t k = some d)
    (hval : ∀ c ∈ k, c < M) :
    ∃ t', t.erase k = (t', Outcome.ok) ∧
      trie.find t' k = none ∧
      t'.size + 1 = t.size ∧
      (∀ k', k' ≠ k →
        (trie.find t' k').map Node.val = (trie.find t k').map Node.val) := by
  obtain ⟨top', hgo, herase⟩ := erase_keep h hfind hval
  obtain ⟨hne, hw, hleaf⟩ := findNode_iff.mp hfind
  obtain ⟨hs, -, -, -, -⟩ := WF_parts h
  refine ⟨⟨top', t.size - 1⟩, herase, ?_, ?_, ?_⟩
  · exact eraseGo_keep_self hs ⟨d, hw, hleaf⟩ hgo
  · have := size_pos_of_found h hinv hfind hval
    show t.size - 1 + 1 = t.size
    omega
  · intro k' hk'
    exact eraseGo_keep_other hs ⟨d, hw, hleaf⟩ hgo hk'

/-- C4: `find` refines the specification walk: it returns the node reached
by matching the key's symbols from the root exactly when that walk succeeds
and ends at a leaf-flagged node, and the end iterator (here `none`) when a
symbol is missing or the terminal node is not a leaf. -/
theorem claim_C4 {V} {M : Nat} {t : trie V} (h : WF M t) (k : List Nat) :
    trie.find t k =
      (walkSpec t.top k).bind
        (fun m => if m.is_leaf = true then some m else none) := by
  obtain ⟨hs, hleaf, -, -, -⟩ := WF_parts h
  rw [← walk_eq_walkSpec hs]
  cases k with
  | nil =>
    show findNode t.top [] = (some t.top).bind _
    rw [findNode]
    show none = if t.top.is_leaf = true then some t.top else none
    rw [if_neg (by rw [hleaf]; simp)]
  | cons c rest =>
    cases hw : walk t.top (c :: rest) with
    | none =>
      cases hfn : findNode t.top (c :: rest) with
      | none =>
        show findNode t.top (c :: rest) = _
        rw [hfn]
        rfl
      | some m2 =>
        obtain ⟨-, hwm, -⟩ := findNode_iff.mp hfn
        rw [hw] at hwm
        exact absurd hwm (by simp)
    | some m =>
      cases hml : m.is_leaf with
      | true =>
        have hfn : findNode t.top (c :: rest) = some m :=
          findNode_iff.mpr ⟨by simp, hw, hml⟩
        show findNode t.top (c :: rest) = _
        rw [hfn]
        show some m = if m.is_leaf = true then some m else none
        rw [if_pos hml]
      | false =>
        cases hfn : findNode t.top (c :: rest) with
        | none =>
          show findNode t.top (c :: rest) = _
          rw [hfn]
          show none = if m.is_leaf = true then some m else none
          rw [if_neg (by rw [hml]; simp)]
        | some m2 =>
          obtain ⟨-, hwm, hml2⟩ := findNode_iff.mp hfn
          rw [hw] at hwm
          injection hwm with hwm
          rw [← hwm] at hml2
          rw [hml2] at hml
          exact absurd hml (by simp)

/-- C5: `insert` fails with the empty-key error exactly for the empty key,
fails with the duplicate-key error exactly when the walk consumes the whole
non-empty key at a node already flagged as a leaf, and succeeds in every
other case. -/
theorem claim_C5 {V} (t : trie V) (k : List Nat) (v : V) :
    ((t.insert k v).2 = Outcome.thrown Err.emptyKey ↔ k = []) ∧
    ((t.insert k v).2 = Outcome.thrown Err.duplicateKey ↔
      k ≠ [] ∧ ∃ m, walk t.top k = some m ∧ m.is_leaf = true) ∧
    ((t.insert k v).2 = Outcome.ok ↔
      k ≠ [] ∧ ¬ ∃ m, walk t.top k = some m ∧ m.is_leaf = true) := by
  cases k with
  | nil =>
    refine ⟨?_, ?_, ?_⟩
    · show Outcome.thrown Err.emptyKey = Outcome.thrown Err.emptyKey ↔
        ([] : List Nat) = []
      simp
    · show Outcome.thrown Err.emptyKey = Outcome.thrown Err.duplicateKey ↔
        ([] : List Nat) ≠ [] ∧ _
      simp
    · show Outcome.thrown Err.emptyKey = Outcome.ok ↔
        ([] : List Nat) ≠ [] ∧ _
      simp
  | cons c rest =>
    rw [insert_eq_walkForm]
    cases hiw : insertWalk v t.top (c :: rest) with
    | error e =>
      obtain ⟨he, hm⟩ := insertWalk_error_iff.mp hiw
      subst he
      refine ⟨?_, ?_, ?_⟩
      · show Outcome.thrown Err.duplicateKey = Outcome.thrown Err.emptyKey ↔ _
        simp
      · show Outcome.thrown Err.duplicateKey = Outcome.thrown Err.duplicateKey
          ↔ _
        constructor
        · intro _
          exact ⟨by simp, hm⟩
        · intro _
          rfl
      · show Outcome.thrown Err.duplicateKey = Outcome.ok ↔ _
        constructor
        · intro hcon
          exact absurd hcon (by simp)
        · intro hc
          exact absurd hm hc.2
    | ok top' =>
      have hnm : ¬ ∃ m, walk t.top (c :: rest) = some m ∧ m.is_leaf = true := by
        intro hm
        have hcon : insertWalk v t.top (c :: rest) = .error .duplicateKey :=
          insertWalk_error_iff.mpr ⟨rfl, hm⟩
        rw [hiw] at hcon
        exact absurd hcon (by simp)
      refine ⟨?_, ?_, ?_⟩
      · show Outcome.ok = Outcome.thrown Err.emptyKey ↔ _
        simp
      · show Outcome.ok = Outcome.thrown Err.duplicateKey ↔ _
        constructor
        · intro hcon
          exact absurd hcon (by simp)
        · intro hc
          exact absurd hc.2 hnm
      · show Outcome.ok = Outcome.ok ↔ _
        constructor
        · intro _
          exact ⟨by simp, hnm⟩
        · intro _
          rfl

/-- C6: every throwing operation is atomic: whenever `insert`, `advance`,
`operator++` or `operator--` reports a thrown exception, the container
component of its result is exactly the container it was given. -/
theorem claim_C6 {V} (M : Nat) (t : trie V) (k p sk : List Nat) (v : V) :
    (∀ t' e, t.insert k v = (t', Outcome.thrown e) → t' = t) ∧
    (∀ r e, t.advance p sk = (r, Outcome.thrown e) → r.1 = t) ∧
    (∀ r e, trie.inc M t p = (r, Outcome.thrown e) → r.1 = t) ∧
    (∀ r e, trie.dec t p = (r, Outcome.thrown e) → r.1 = t) := by
  refine ⟨?_, ?_, ?_, ?_⟩
  · intro t' e heq
    rw [insert_eq_walkForm] at heq
    cases k with
    | nil =>
      have h1 := congrArg Prod.fst heq
      exact h1.symm
    | cons c rest =>
      cases hiw : insertWalk v t.top (c :: rest) with
      | error e2 =>
        simp only [hiw] at heq
        have h1 := congrArg Prod.fst heq
        exact h1.symm
      | ok top' =>
        simp only [hiw] at heq
        exact absurd (congrArg Prod.snd heq) (by simp)
  · intro r e heq
    by_cases hske : sk.isEmpty = true
    · rw [trie.advance, if_pos hske] at heq
      have h1 := congrArg (fun x => x.1.1) heq
      exact h1.symm
    · rw [trie.advance, if_neg hske] at heq
      cases hw : walk t.top p with
      | none =>
        simp only [hw] at heq
        exact absurd (congrArg Prod.snd heq) (by simp)
      | some n =>
        cases hw2 : walk n sk with
        | none =>
          simp only [hw, hw2] at heq
          have h1 := congrArg (fun x => x.1.1) heq
          exact h1.symm
        | some m =>
          simp only [hw, hw2] at heq
          exact absurd (congrArg Prod.snd heq) (by simp)
  · intro r e heq
    rw [trie.inc] at heq
    cases hw : walk t.top p with
    | none =>
      simp only [hw] at heq
      exact absurd (congrArg Prod.snd heq) (by simp)
    | some n =>
      simp only [hw] at heq
      by_cases hM : n.symbol = M
      · rw [if_pos hM] at heq
        have h1 := congrArg (fun x => x.1.1) heq
        exact h1.symm
      · rw [if_neg hM] at heq
        cases hsg : succGo t.top p with
        | found q =>
          simp only [hsg] at heq
          exact absurd (congrArg Prod.snd heq) (by simp)
        | climb =>
          simp only [hsg] at heq
          exact absurd (congrArg Prod.snd heq) (by simp)
        | ub =>
          simp only [hsg] at heq
          exact absurd (congrArg Prod.snd heq) (by simp)
  · intro r e heq
    rw [trie.dec] at heq
    cases hw : walk t.top p with
    | none =>
      simp only [hw] at heq
      exact absurd (congrArg Prod.snd heq) (by simp)
    | some n =>
      simp only [hw] at heq
      cases hgl : n.children.getLast? with
      | some y =>
        simp only [hgl] at heq
        cases hmd : maxDown y with
        | none =>
          simp only [hmd] at heq
          exact absurd (congrArg Prod.snd heq) (by simp)
        | some mp =>
          simp only [hmd] at heq
          exact absurd (congrArg Prod.snd heq) (by simp)
      | none =>
        simp only [hgl] at heq
        cases hpg : predGo t.top p with
        | found q =>
          simp only [hpg] at heq
          exact absurd (congrArg Prod.snd heq) (by simp)
        | climb =>
          simp only [hpg] at heq
          have h1 := congrArg (fun x => x.1.1) heq
          exact h1.symm
        | ub =>
          simp only [hpg] at heq
          exact absurd (congrArg Prod.snd heq) (by simp)

/-- C10: erasing through an iterator that references a stored key over
valid symbols never reaches the null-parent dereference of the upward
climb: the sentinel keeps the root populated, so the erase completes with
a defined, successful outcome. -/
theorem claim_C10 {V} {M : Nat} {t : trie V} {k : List Nat} {d : Node V}
    (h : WF M t) (hfind : trie.find t k = some d) (hval : ∀ c ∈ k, c < M) :
    (t.erase k).2 = Outcome.ok := by
  obtain ⟨top', -, herase⟩ := erase_keep h hfind hval
  rw [herase]

/-- C2 (amended): for a well-formed container, the forward iteration from
`begin()` to `end()` visits every stored key exactly once — it is a
duplicate-free permutation of the stored keys — and the backward iteration
from `end()` is exactly its reverse; the visit order is the postorder of
the trie, which is not ascending lexicographic order when a stored key is
a proper prefix of another stored key. -/
theorem claim_C2 {V} {M : Nat} {t : trie V} (h : WF M t)
    {fuel : Nat} (hfuel : (travList t).length ≤ fuel) :
    (fwdFrom M t fuel t.beginIt).Perm (storedKeys t) ∧
    (fwdFrom M t fuel t.beginIt).Nodup ∧
    bwdFrom t fuel t.endIt = (fwdFrom M t fuel t.beginIt).reverse := by
  have hfw := forward_traversal h hfuel
  have hbw := backward_traversal h hfuel
  rw [hfw, hbw]
  refine ⟨storedKeys_perm_trav h, ?_, rfl⟩
  exact (travList_nodup h).sublist (List.dropLast_sublist _)

/-- C7 (amended): for a well-formed container whose size field counts the
leaf-flagged nodes apart from the sentinel, the equality is preserved by
insert, by erase of a stored key over valid symbols, by clear, by copy,
and by advance whenever the advance target is not already flagged as an
entry; advancing onto an existing leaf is the exception the original
claim missed. -/
theorem claim_C7 {V} {M : Nat} {t : trie V} (h : WF M t) (hinv : sizeInv t) :
    (∀ k (v : V), sizeInv (t.insert k v).1) ∧
    (∀ k (nd : Node V), trie.find t k = some nd → (∀ c ∈ k, c < M) →
      sizeInv (t.erase k).1) ∧
    sizeInv (trie.clear M t) ∧
    sizeInv (trie.copy t) ∧
    (∀ p sk (n m : Node V), walk t.top p = some n → n.is_leaf = true →
      walk t.top (p ++ sk) = some m → m.is_leaf = false →
      sizeInv (t.advance p sk).1.1) := by
  refine ⟨?_, ?_, clear_sizeInv h, ?_, ?_⟩
  · intro k v
    exact insert_sizeInv hinv
  · intro k nd hfind hval
    exact erase_sizeInv h hinv hfind hval
  · rw [copy_eq]
    exact hinv
  · intro p sk n m hwp hnl hwm hml
    exact advance_sizeInv (WF_parts h).1 hinv hwp hnl hwm hml

/-- C8: in a well-formed container the children of every node are strictly
sorted by symbol (hence duplicate-free), the sentinel sits last among the
root's children, and both facts are established by the constructor and
preserved by insert, erase, clear, copy and advance over valid symbols. -/
theorem claim_C8 {V} {M : Nat} {t : trie V} (h : WF M t) :
    (List.Pairwise symLt t.top.children ∧
      sortedAll t.top = true ∧ sentinelOk M t = true) ∧
    (sortedAll (trie.init V M).top = true ∧
      sentinelOk M (trie.init V M) = true) ∧
    (∀ k (v : V), (∀ c ∈ k, c < M) →
      sortedAll ((t.insert k v).1).top = true ∧
        sentinelOk M ((t.insert k v).1) = true) ∧
    (∀ k (nd : Node V), trie.find t k = some nd → (∀ c ∈ k, c < M) →
      sortedAll ((t.erase k).1).top = true ∧
        sentinelOk M ((t.erase k).1) = true) ∧
    (sortedAll (trie.clear M t).top = true ∧
      sentinelOk M (trie.clear M t) = true) ∧
    (sortedAll (trie.copy t).top = true ∧
      sentinelOk M (trie.copy t) = true) ∧
    (∀ p sk, (∀ c ∈ p, c < M) → (∀ c ∈ sk, c < M) →
      sortedAll (((t.advance p sk).1.1).top) = true ∧
        sentinelOk M ((t.advance p sk).1.1) = true) := by
  obtain ⟨hs, -, hsent, -, -⟩ := WF_parts h
  refine ⟨⟨sortedAll_pairwise hs, hs, hsent⟩, ?_, ?_, ?_,
    clear_preserves_C8 M t, ?_, ?_⟩
  · constructor
    · rfl
    · exact sentinelOk_of_getLast (t := trie.init V M) (y := sentinel V M)
        rfl rfl rfl rfl
  · intro k v hval
    exact insert_preserves_C8 h hval
  · intro k nd hfind hval
    exact erase_preserves_C8 h hfind hval
  · rw [copy_eq]
    exact ⟨hs, hsent⟩
  · intro p sk hval hvsk
    exact advance_preserves_C8 h hval hvsk

/-- C9: for a well-formed container, `find_longest_prefix` returns the end
iterator when no key is stored, and otherwise a stored key of maximal
length that is lexicographically least — hence first in ascending order —
among the stored keys sharing that maximal length. -/
theorem claim_C9 {V} {M : Nat} {t : trie V} (h : WF M t) :
    (storedKeys t = [] → trie.findLongest M t = t.endIt) ∧
    (storedKeys t ≠ [] →
      trie.findLongest M t ∈ storedKeys t ∧
      (∀ q ∈ storedKeys t, q.length ≤ (trie.findLongest M t).length) ∧
      (∀ q ∈ storedKeys t, q.length = (trie.findLongest M t).length →
        q ≠ trie.findLongest M t →
        List.Lex (· < ·) (trie.findLongest M t) q)) := by
  obtain ⟨hs, hleaf, -, -, -⟩ := WF_parts h
  have hfw : fwdFrom M t (nsize t.top) t.beginIt = (travList t).dropLast :=
    forward_traversal h (travList_length_le_nsize hleaf)
  have hperm := storedKeys_perm_trav h
  have hFL : trie.findLongest M t =
      (((travList t).dropLast).foldl
        (fun acc p => if p.length > acc.1 then (p.length, p) else acc)
        (0, t.endIt)).2 := by
    rw [trie.findLongest, hfw]
  rcases foldl_longest ((travList t).dropLast) 0 t.endIt with
    ⟨hall, heq⟩ | ⟨l1, q, l2, hsp, heq, hpos, hl1, hl2⟩
  · have hK : (travList t).dropLast = [] := by
      cases hKc : (travList t).dropLast with
      | nil => rfl
      | cons a k2 =>
        exfalso
        have hmem : a ∈ (travList t).dropLast := by
          rw [hKc]
          exact List.mem_cons_self _ _
        have hlen := hall a hmem
        have ha : a = [] := by
          cases a with
          | nil => rfl
          | cons x xs => simp at hlen
        have hmem2 : a ∈ travList t := (List.dropLast_sublist _).subset hmem
        rw [travList] at hmem2
        exact absurd ha (postKL_elem_ne_nil hmem2)
    constructor
    · intro _
      rw [hFL, hK]
      rfl
    · intro hne
      exfalso
      apply hne
      rw [hK] at hperm
      exact (hperm.symm).eq_nil
  · have hFLq : trie.findLongest M t = q := by
      rw [hFL, heq]
    have hqK : q ∈ (travList t).dropLast := by
      rw [hsp]
      exact List.mem_append.mpr (Or.inr (List.mem_cons_self _ _))
    constructor
    · intro h0
      exfalso
      rw [h0] at hperm
      have hnil := hperm.eq_nil
      rw [hsp] at hnil
      simp at hnil
    · intro _
      refine ⟨?_, ?_, ?_⟩
      · rw [hFLq]
        exact hperm.mem_iff.mp hqK
      · intro r hr
        have hrK : r ∈ (travList t).dropLast := hperm.mem_iff.mpr hr
        rw [hFLq]
        rw [hsp] at hrK
        rcases List.mem_append.mp hrK with h1 | h1
        · exact le_of_lt (hl1 r h1)
        · rcases List.mem_cons.mp h1 with h2 | h2
          · rw [h2]
          · exact hl2 r h2
      · intro r hr hlen hne2
        rw [hFLq] at hlen hne2 ⊢
        have hrK : r ∈ (travList t).dropLast := hperm.mem_iff.mpr hr
        rw [hsp] at hrK
        rcases List.mem_append.mp hrK with h1 | h1
        · have := hl1 r h1
          omega
        · rcases List.mem_cons.mp h1 with h2 | h2
          · exact absurd h2 hne2
          · have hpwK : List.Pairwise
                (fun p q => p.length = q.length → List.Lex (· < ·) p q)
                ((travList t).dropLast) := by
              have hpw := postK_len_pairwise t.top hs
              rw [postK_top_eq_travList hleaf] at hpw
              exact hpw.sublist (List.dropLast_sublist _)
            rw [hsp] at hpwK
            have h3 := (List.pairwise_append.mp hpwK).2.1
            exact (List.pairwise_cons.mp h3).1 r h2 hlen.symm

theorem example_trie_eval :
    ((((trie.init Nat 2).insert [0] 5).1).insert [0, 1] 6).1 =
      ⟨Node.mk 0 none false
        [Node.mk 0 (some 5) true [Node.mk 1 (some 6) true []],
         Node.mk 2 none true []], 2⟩ := by
  simp [trie.insert, insertWalk, find_by_key, bsearch, push_child, bubble,
    buildChain, trie.init, create_end, sentinel]

/-- C2 (counterexample to the ascending-order part of the original claim):
in the reachable state holding exactly the keys `[0]` and `[0, 1]`, the
forward iteration visits `[0, 1]` before `[0]` — postorder, not strictly
ascending lexicographic order. -/
theorem claim_C2_counterexample :
    fwdFrom 2 ((((trie.init Nat 2).insert [0] 5).1).insert [0, 1] 6).1 3
        (((((trie.init Nat 2).insert [0] 5).1).insert [0, 1] 6).1).beginIt
      = [[0, 1], [0]] ∧
    ¬ List.Pairwise (List.Lex (· < ·))
      (fwdFrom 2 ((((trie.init Nat 2).insert [0] 5).1).insert [0, 1] 6).1 3
        (((((trie.init Nat 2).insert [0] 5).1).insert [0, 1] 6).1).beginIt) := by
  have h1 : fwdFrom 2 ((((trie.init Nat 2).insert [0] 5).1).insert [0, 1] 6).1 3
      (((((trie.init Nat 2).insert [0] 5).1).insert [0, 1] 6).1).beginIt
        = [[0, 1], [0]] := by
    rw [example_trie_eval]
    simp [fwdFrom, trie.inc, succGo, walk, find_by_key, bsearch, minPath,
      trie.beginIt, trie.endIt, beginPath]
  refine ⟨h1, ?_⟩
  rw [h1]
  decide

/-- C7 (counterexample to the advance part of the original claim): in the
reachable state holding the keys `[0]` and `[0, 1]`, advancing the
iterator at `[0]` by the subkey `[1]` succeeds but lands on a node that is
already a stored entry, so the leaf count drops while `size` does not: the
counting invariant is not preserved by `advance`. -/
theorem claim_C7_counterexample :
    sizeInv ((((trie.init Nat 2).insert [0] 5).1).insert [0, 1] 6).1 ∧
    ((((((trie.init Nat 2).insert [0] 5).1).insert [0, 1] 6).1).advance
        [0] [1]).2 = Outcome.ok ∧
    ¬ sizeInv
      ((((((trie.init Nat 2).insert [0] 5).1).insert [0, 1] 6).1).advance
        [0] [1]).1.1 := by
  have hadv : (⟨Node.mk 0 none false
        [Node.mk 0 (some 5) true [Node.mk 1 (some 6) true []],
         Node.mk 2 none true []], 2⟩ : trie Nat).advance [0] [1] =
      ((⟨Node.mk 0 none false
          [Node.mk 0 (some 5) false [Node.mk 1 (some 6) true []],
           Node.mk 2 none true []], 2⟩, [0, 1]), Outcome.ok) := by
    simp [trie.advance, walk, find_by_key, bsearch, setLeaf]
  rw [example_trie_eval, hadv]
  refine ⟨by rw [sizeInv]; decide, rfl, by rw [sizeInv]; decide⟩

theorem claim_C1_witness :
    ∃ t', (trie.init Nat 2).insert [0] 7 = (t', Outcome.ok) ∧
      (trie.find t' [0]).map Node.val = some (some 7) ∧
      t'.size = (trie.init Nat 2).size + 1 :=
  claim_C1 (M := 2) (by rfl) (by simp) (by decide)
    (by simp [trie.find, findNode, find_by_key, bsearch, trie.init,
      create_end, sentinel])

theorem claim_C2_witness :
    (fwdFrom 2 (trie.init Nat 2) 1 (trie.init Nat 2).beginIt).Perm
        (storedKeys (trie.init Nat 2)) ∧
    (fwdFrom 2 (trie.init Nat 2) 1 (trie.init Nat 2).beginIt).Nodup ∧
    bwdFrom (trie.init Nat 2) 1 (trie.init Nat 2).endIt =
      (fwdFrom 2 (trie.init Nat 2) 1 (trie.init Nat 2).beginIt).reverse :=
  claim_C2 (by rfl) (by decide)

theorem claim_C3_witness :
    ∃ t', (⟨Node.mk 0 none false [Node.mk 0 (some 7) true [],
        Node.mk 2 none true []], 1⟩ : trie Nat).erase [0] =
          (t', Outcome.ok) ∧
      trie.find t' [0] = none ∧
      t'.size + 1 = (⟨Node.mk 0 none false [Node.mk 0 (some 7) true [],
        Node.mk 2 none true []], 1⟩ : trie Nat).size ∧
      (∀ k', k' ≠ [0] →
        (trie.find t' k').map Node.val =
          (trie.find (⟨Node.mk 0 none false [Node.mk 0 (some 7) true [],
            Node.mk 2 none true []], 1⟩ : trie Nat) k').map Node.val) :=
  claim_C3 (M := 2) (d := Node.mk 0 (some 7) true []) (by rfl)
    (by rw [sizeInv]; decide)
    (by simp [trie.find, findNode, find_by_key, bsearch]) (by decide)

theorem claim_C4_witness :
    trie.find (trie.init Nat 2) [0] =
      (walkSpec (trie.init Nat 2).top [0]).bind
        (fun m => if m.is_leaf = true then some m else none) :=
  claim_C4 (M := 2) (by rfl) [0]

theorem claim_C7_witness :
    (∀ k (v : Nat), sizeInv ((trie.init Nat 2).insert k v).1) ∧
    (∀ k (nd : Node Nat), trie.find (trie.init Nat 2) k = some nd →
      (∀ c ∈ k, c < 2) → sizeInv ((trie.init Nat 2).erase k).1) ∧
    sizeInv (trie.clear 2 (trie.init Nat 2)) ∧
    sizeInv (trie.copy (trie.init Nat 2)) ∧
    (∀ p sk (n m : Node Nat), walk (trie.init Nat 2).top p = some n →
      n.is_leaf = true → walk (trie.init Nat 2).top (p ++ sk) = some m →
      m.is_leaf = false → sizeInv ((trie.init Nat 2).advance p sk).1.1) :=
  claim_C7 (by rfl) (by rw [sizeInv]; decide)

theorem claim_C8_witness :
    (List.Pairwise symLt (trie.init Nat 2).top.children ∧
      sortedAll (trie.init Nat 2).top = true ∧
      sentinelOk 2 (trie.init Nat 2) = true) ∧
    (sortedAll (trie.init Nat 2).top = true ∧
      sentinelOk 2 (trie.init Nat 2) = true) ∧
    (∀ k (v : Nat), (∀ c ∈ k, c < 2) →
      sortedAll (((trie.init Nat 2).insert k v).1).top = true ∧
        sentinelOk 2 (((trie.init Nat 2).insert k v).1) = true) ∧
    (∀ k (nd : Node Nat), trie.find (trie.init Nat 2) k = some nd →
      (∀ c ∈ k, c < 2) →
      sortedAll (((trie.init Nat 2).erase k).1).top = true ∧
        sentinelOk 2 (((trie.init Nat 2).erase k).1) = true) ∧
    (sortedAll (trie.clear 2 (trie.init Nat 2)).top = true ∧
      sentinelOk 2 (trie.clear 2 (trie.init Nat 2)) = true) ∧
    (sortedAll (trie.copy (trie.init Nat 2)).top = true ∧
      sentinelOk 2 (trie.copy (trie.init Nat 2)) = true) ∧
    (∀ p sk, (∀ c ∈ p, c < 2) → (∀ c ∈ sk, c < 2) →
      sortedAll ((((trie.init Nat 2).advance p sk).1.1).top) = true ∧
        sentinelOk 2 (((trie.init Nat 2).advance p sk).1.1) = true) :=
  claim_C8 (by rfl)

theorem claim_C9_witness :
    (storedKeys (trie.init Nat 2) = [] →
      trie.findLongest 2 (trie.init Nat 2) = (trie.init Nat 2).endIt) ∧
    (storedKeys (trie.init Nat 2) ≠ [] →
      trie.findLongest 2 (trie.init Nat 2) ∈ storedKeys (trie.init Nat 2) ∧
      (∀ q ∈ storedKeys (trie.init Nat 2),
        q.length ≤ (trie.findLongest 2 (trie.init Nat 2)).length) ∧
      (∀ q ∈ storedKeys (trie.init Nat 2),
        q.length = (trie.findLongest 2 (trie.init Nat 2)).length →
        q ≠ trie.findLongest 2 (trie.init Nat 2) →
        List.Lex (· < ·) (trie.findLongest 2 (trie.init Nat 2)) q)) :=
  claim_C9 (by rfl)

theorem claim_C10_witness :
    ((⟨Node.mk 0 none false [Node.mk 0 (some 7) true [],
        Node.mk 2 none true []], 1⟩ : trie Nat).erase [0]).2 = Outcome.ok :=
  claim_C10 (M := 2) (d := Node.mk 0 (some 7) true []) (by rfl)
    (by simp [trie.find, findNode, find_by_key, bsearch]) (by decide)
